import Mathlib

/-!
Verification development for the graph-algorithms engine of
src/visualisation/algorithm_runner.py.

The Python module is shallowly embedded: vertices are the Python ints of the
vertex list, edge weights are exact rationals standing for the Python floats,
and the float value inf is the top element of `WithTop`.  Python dicts whose
keys are exactly the vertex list are modelled as total functions together with
wellformedness hypotheses saying every lookup stays inside the vertex list
(the situations where CPython would raise a KeyError); for `run_dijkstra`,
where the possibility of a KeyError is itself under study, the dict lookups
are modelled in an `Except` monad that surfaces the error.  Unbounded Python
loops (the priority-queue loop, BFS, DFS recursion, union-find `find`) are
modelled with an explicit fuel parameter; the fuel passed by the embedding is
proved sufficient under the same wellformedness hypotheses, so the embedded
functions agree with the Python code there.
-/

/-- Vertex identifiers: the Python ints of the graph's vertex list. -/
abbrev V : Type := Nat

/-- Distances and matrix entries: exact rationals, with Python float inf as top. -/
abbrev D : Type := WithTop ℚ

/-- A Python edge tuple: either a pair `(u, v)` or a triple `(u, v, weight)`.
The code unpacks these dynamically (`if len(edge) == 3`). -/
inductive PyEdge where
  | e2 (u v : V)
  | e3 (u v : V) (w : ℚ)
deriving DecidableEq, Repr

/-- First endpoint of an edge tuple (`v1` in the Python unpacking). -/
def PyEdge.src : PyEdge → V
  | .e2 u _ => u
  | .e3 u _ _ => u

/-- Second endpoint of an edge tuple (`v2` in the Python unpacking). -/
def PyEdge.dst : PyEdge → V
  | .e2 _ v => v
  | .e3 _ v _ => v

/-- Edge weight; a 2-tuple edge defaults to `1.0`. -/
def PyEdge.wt : PyEdge → ℚ
  | .e2 _ _ => 1
  | .e3 _ _ w => w

/-- The reversed orientation `(v, u[, w])` of an edge tuple `(u, v[, w])`. -/
def PyEdge.rev : PyEdge → PyEdge
  | .e2 u v => .e2 v u
  | .e3 u v w => .e3 v u w

/-- The graph dict `{vertices: [...], edges: [...]}`. -/
structure Graph where
  vertices : List V
  edges : List PyEdge
deriving DecidableEq, Repr

/-- The Python exceptions the embedded code can raise. -/
inductive PyErr where
  | keyError (k : V)
deriving DecidableEq, Repr

/-- Pointwise update of a function, modelling `d[a] = b` on a Python dict. -/
def updf {β : Type} (f : V → β) (a : V) (b : β) : V → β :=
  fun x => if x = a then b else f x

/-- The key sequence of a Python dict built by inserting the elements of `l`
in order: first occurrence wins, insertion order preserved. -/
def pyDedup (l : List V) : List V :=
  l.foldl (fun acc v => if v ∈ acc then acc else acc ++ [v]) []

section Dijkstra

/-- Adjacency dict of `run_dijkstra`: `{v: [] for v in vertices}` and then
`adj[v1].append((v2, weight)); adj[v2].append((v1, weight))` per edge.
`none` is an absent key, so a lookup of `none` is a KeyError. -/
def adjInit (vs : List V) : V → Option (List (V × ℚ)) :=
  fun v => if v ∈ vs then some [] else none

/-- `adj[a].append((b, w))`, raising KeyError when `a` is not a key. -/
def adjAppend (adj : V → Option (List (V × ℚ))) (a b : V) (w : ℚ) :
    Except PyErr (V → Option (List (V × ℚ))) :=
  match adj a with
  | none => .error (.keyError a)
  | some l => .ok (updf adj a (some (l ++ [(b, w)])))

/-- Processing one edge of the dijkstra adjacency-building loop. -/
def adjAddEdge (adj : V → Option (List (V × ℚ))) (e : PyEdge) :
    Except PyErr (V → Option (List (V × ℚ))) := do
  let adj1 ← adjAppend adj e.src e.dst e.wt
  adjAppend adj1 e.dst e.src e.wt

/-- The full adjacency-building loop of `run_dijkstra`. -/
def buildAdj (g : Graph) : Except PyErr (V → Option (List (V × ℚ))) :=
  g.edges.foldlM adjAddEdge (adjInit g.vertices)

/-- Loop state of `run_dijkstra`: distance dict, parent dict, heap list,
visited set (kept as a list in insertion order; only membership is used). -/
structure DState where
  dist : V → D
  par : V → Int
  pq : List (D × V)
  visited : List V

/-- Strict lexicographic order on heap entries, as Python compares the
tuples `(dist, vertex)`. -/
def pairLt (p q : D × V) : Prop := p.1 < q.1 ∨ (p.1 = q.1 ∧ p.2 < q.2)

instance : DecidablePred (fun pq : (D × V) × (D × V) => pairLt pq.1 pq.2) := by
  unfold pairLt; infer_instance

instance (p q : D × V) : Decidable (pairLt p q) := by
  unfold pairLt; infer_instance

/-- The least heap entry in the tuple order; `heapq.heappop` returns it.
Entries that are fully equal tuples are indistinguishable, so returning the
first minimal occurrence is faithful to the binary heap. -/
def pqMin : List (D × V) → Option (D × V)
  | [] => none
  | p :: ps => some (ps.foldl (fun m q => if pairLt q m then q else m) p)

/-- Remove the first occurrence of an entry from the heap list. -/
def removeFirst (p : D × V) : List (D × V) → List (D × V)
  | [] => []
  | q :: qs => if q = p then qs else q :: removeFirst p qs

/-- One relaxation `if v not in visited and distances[u] + weight < distances[v]`. -/
def relaxStep (u : V) (st : DState) (p : V × ℚ) : DState :=
  if p.1 ∉ st.visited ∧ st.dist u + (p.2 : D) < st.dist p.1 then
    { st with
      dist := updf st.dist p.1 (st.dist u + (p.2 : D)),
      par := updf st.par p.1 (u : Int),
      pq := st.pq ++ [(st.dist u + (p.2 : D), p.1)] }
  else st

/-- The `while pq:` loop of `run_dijkstra`.  Fuel only guards termination; it
is proved sufficient below for the fuel the embedding passes. -/
def dijkstraLoop (adj : V → Option (List (V × ℚ))) :
    ℕ → DState → Except PyErr DState
  | 0, st => .ok st
  | fuel + 1, st =>
    match pqMin st.pq with
    | none => .ok st
    | some du =>
      let rest := removeFirst du st.pq
      if du.2 ∈ st.visited then
        dijkstraLoop adj fuel { st with pq := rest }
      else
        match adj du.2 with
        | none => .error (.keyError du.2)
        | some nbrs =>
          dijkstraLoop adj fuel
            (nbrs.foldl (relaxStep du.2)
              { st with pq := rest, visited := st.visited ++ [du.2] })

/-- `if not vertices or start not in vertices: start = vertices[0] if vertices else 0`. -/
def resolveStart (vs : List V) (s : V) : V :=
  if vs = [] ∨ s ∉ vs then (match vs with | [] => 0 | v :: _ => v) else s

/-- Fuel for the dijkstra loop: the number of heap pops is bounded by the
number of pushes, which is at most one initial push plus two adjacency
entries per edge. -/
def dijkstraFuel (g : Graph) : ℕ := 2 * g.edges.length + 2

/-- The dijkstra computation up to (but not including) result packaging. -/
def dijkstraFinal (g : Graph) (s0 : V) : Except PyErr DState := do
  let s := resolveStart g.vertices s0
  let adj ← buildAdj g
  dijkstraLoop adj (dijkstraFuel g)
    { dist := updf (fun _ => ⊤) s 0,
      par := fun _ => -1,
      pq := [((0 : D), s)],
      visited := [] }

/-- The result dict of `run_dijkstra`: note the keys of `distances` and
`parent` are `str(v)`, while parent values and `start` stay ints. -/
structure DijkstraResult where
  algorithm : String
  distances : List (String × D)
  parent : List (String × Int)
  start : V
  success : Bool
deriving DecidableEq, Repr

/-- `AlgorithmRunner.run_dijkstra(graph_data, start)`. -/
def run_dijkstra (g : Graph) (s0 : V) : Except PyErr DijkstraResult := do
  let st ← dijkstraFinal g s0
  .ok { algorithm := "Dijkstra",
        distances := (pyDedup g.vertices).map fun v => (toString v, st.dist v),
        parent := (pyDedup g.vertices).map fun v => (toString v, st.par v),
        start := resolveStart g.vertices s0,
        success := true }

end Dijkstra

/-- Python `round(q, 2)`.  The repository rounds with binary floats; here the
value is the exact rational rounded to two decimal places (the claims under
study never depend on the tie-breaking direction of `round`). -/
def round2 (q : ℚ) : ℚ := (round (q * 100) : ℚ) / 100

/-- `round(x, 2)` lifted to distances; `round(inf, 2)` is `inf`. -/
def round2D : D → D := WithTop.map round2

/-- Result union of the five non-dijkstra algorithms: either the
`{"error": msg, "success": b}` dict or the success payload. -/
inductive PyRes (α : Type) where
  | err (error : String) (success : Bool)
  | ok (r : α)
deriving DecidableEq, Repr

/-- Insertion sort.  Python `sorted`/`list.sort` is a stable sort; on the
lists this file sorts, ties are only between fully identical elements
(equal weight-endpoint triples, or equal vertex ids), so every correct sort
returns exactly the list CPython returns. -/
def insertSorted {α : Type} (le : α → α → Bool) (x : α) : List α → List α
  | [] => [x]
  | y :: ys => if le x y then x :: y :: ys else y :: insertSorted le x ys

/-- Sort a list with the Bool comparison `le`; see `insertSorted`. -/
def sortBy {α : Type} (le : α → α → Bool) : List α → List α
  | [] => []
  | x :: xs => insertSorted le x (sortBy le xs)

section TSP

/-- One edge of the `run_tsp` matrix-building loop:
`adj[v1][v2] = weight; adj[v2][v1] = weight`.  The matrix starts as
`{v: {u: inf for u in vertices} for v in vertices}`, modelled as a total
function with default `inf`; faithful whenever edge endpoints are members of
the vertex list (otherwise CPython raises a KeyError). -/
def wMatrixStep (m : V → V → D) (e : PyEdge) : V → V → D :=
  let m1 := updf m e.src (updf (m e.src) e.dst (e.wt : D))
  updf m1 e.dst (updf (m1 e.dst) e.src (e.wt : D))

/-- The complete weight matrix of `run_tsp`, folding `wMatrixStep` over the
edge list. -/
def wMatrix (g : Graph) : V → V → D :=
  g.edges.foldl wMatrixStep (fun _ _ => ⊤)

/-- The inner scan of the nearest-neighbor loop:
`for v in vertices: if v not in visited and adj[current][v] < min_dist: ...`
starting from `nearest = -1, min_dist = inf` (the sentinel `-1` is `none`). -/
def scanNearest (m : V → V → D) (vs : List V) (cur : V) (visited : List V) :
    Option V × D :=
  vs.foldl
    (fun acc v => if v ∉ visited ∧ m cur v < acc.2 then (some v, m cur v) else acc)
    (none, ⊤)

/-- Loop state of the nearest-neighbor tour construction. -/
structure TspState where
  tour : List V
  visited : List V
  current : V
  total : D

/-- The `while len(visited) < len(vertices)` loop of `run_tsp`.  Each
productive iteration grows `visited` by one fresh vertex, so the fuel
`vs.length` passed by `run_tsp` always suffices. -/
def nnLoop (m : V → V → D) (vs : List V) : ℕ → TspState → TspState
  | 0, st => st
  | fuel + 1, st =>
    if st.visited.length < vs.length then
      match scanNearest m vs st.current st.visited with
      | (none, _) => st
      | (some v, d) => nnLoop m vs fuel ⟨st.tour ++ [v], st.visited ++ [v], v, st.total + d⟩
    else st

/-- Summed matrix weight of the consecutive steps of a vertex sequence: the
total distance a tour accumulates. -/
def walkSum (m : V → V → D) : List V → D
  | [] => 0
  | [_] => 0
  | a :: b :: rest => m a b + walkSum m (b :: rest)

/-- The result dict of `run_tsp`. -/
structure TSPResult where
  algorithm : String
  tour : List V
  total_distance : D
  vertices_visited : ℕ
  success : Bool
deriving DecidableEq, Repr

/-- `AlgorithmRunner.run_tsp`.  The `start` parameter of the Python function
is ignored: the code overwrites it with `vertices[0]`. -/
def run_tsp (g : Graph) : PyRes TSPResult :=
  match g.vertices with
  | [] => .err "Empty graph" false
  | v0 :: _ =>
    let m := wMatrix g
    let st := nnLoop m g.vertices g.vertices.length ⟨[v0], [v0], v0, 0⟩
    let closed := st.tour.length = g.vertices.length
    let total := if closed then st.total + m st.current v0 else st.total
    let tour := if closed then st.tour ++ [v0] else st.tour
    .ok { algorithm := "TSP (Nearest Neighbor)",
          tour := tour,
          total_distance := round2D total,
          vertices_visited := tour.length - 1,
          success := true }

end TSP

section MST

/-- Union-find state: the `parent` and `rank` dicts of `run_mst`, as total
functions (initially `parent[v] = v`, `rank[v] = 0`; lookups outside the
vertex list never happen when edge endpoints are members of it). -/
structure UFState where
  par : V → V
  rnk : V → ℕ

/-- `find` with path compression.  The Python recursion
`if parent[x] != x: parent[x] = find(parent[x]); return parent[x]`
is modelled with fuel; the fuel passed by `run_mst` is proved sufficient
for the acyclic parent maps the algorithm maintains. -/
def ufFind (fuel : ℕ) (par : V → V) (x : V) : (V → V) × V :=
  match fuel with
  | 0 => (par, x)
  | fuel + 1 =>
    if par x = x then (par, x)
    else
      let pr := ufFind fuel par (par x)
      (updf pr.1 x pr.2, pr.2)

/-- `union(x, y)` with union by rank, returning the updated state and whether
two distinct classes were merged. -/
def ufUnion (fuel : ℕ) (st : UFState) (x y : V) : UFState × Bool :=
  let f1 := ufFind fuel st.par x
  let f2 := ufFind fuel f1.1 y
  let px := f1.2
  let py := f2.2
  if px = py then ({ st with par := f2.1 }, false)
  else
    let pq := if st.rnk px < st.rnk py then (py, px) else (px, py)
    let par1 := updf f2.1 pq.2 pq.1
    let rnk1 :=
      if st.rnk pq.1 = st.rnk pq.2 then updf st.rnk pq.1 (st.rnk pq.1 + 1) else st.rnk
    (⟨par1, rnk1⟩, true)

/-- The `(weight, v1, v2)` triple pushed to `sorted_edges`. -/
def edgeTriple (e : PyEdge) : ℚ × V × V := (e.wt, e.src, e.dst)

/-- Lexicographic comparison of the `(weight, v1, v2)` triples, as Python
compares tuples in `sorted_edges.sort()`. -/
def tripleLe (a b : ℚ × V × V) : Bool :=
  decide (a.1 < b.1) ||
    (decide (a.1 = b.1) &&
      (decide (a.2.1 < b.2.1) || (decide (a.2.1 = b.2.1) && decide (a.2.2 ≤ b.2.2))))

/-- Fuel for `ufFind`: parent chains visit distinct vertices of the vertex
list, so they are shorter than this. -/
def ufFuel (g : Graph) : ℕ := g.vertices.length + 1

/-- The Kruskal selection loop over the sorted triples, accumulating the
union-find state, `mst_edges` and `total_weight`. -/
def kruskalFold (fuel : ℕ) (l : List (ℚ × V × V)) (st0 : UFState) :
    UFState × List (V × V × ℚ) × ℚ :=
  l.foldl
    (fun acc t =>
      let r := ufUnion fuel acc.1 t.2.1 t.2.2
      if r.2 then (r.1, acc.2.1 ++ [(t.2.1, t.2.2, t.1)], acc.2.2 + t.1)
      else (r.1, acc.2.1, acc.2.2))
    (st0, [], 0)

/-- The result dict of `run_mst`. -/
structure MSTResult where
  algorithm : String
  mst_edges : List (V × V × ℚ)
  total_weight : ℚ
  num_edges : ℕ
  is_connected : Bool
  success : Bool
deriving DecidableEq, Repr

/-- `AlgorithmRunner.run_mst`. -/
def run_mst (g : Graph) : PyRes MSTResult :=
  if g.vertices = [] then .err "Empty graph" false
  else
    let sorted := sortBy tripleLe (g.edges.map edgeTriple)
    let r := kruskalFold (ufFuel g) sorted ⟨fun x => x, fun _ => 0⟩
    .ok { algorithm := "MST (Kruskal)",
          mst_edges := r.2.1,
          total_weight := round2 r.2.2,
          num_edges := r.2.1.length,
          is_connected := decide (r.2.1.length = g.vertices.length - 1),
          success := true }

end MST

section Connectivity

/-- Adjacency dict of `run_connectivity` and `run_hotel_optimization`
(their building code is identical): `adj[v1].append(v2); adj[v2].append(v1)`,
ignoring weights.  Total function with default `[]`; faithful whenever edge
endpoints are members of the vertex list. -/
def adjListStep (a : V → List V) (e : PyEdge) : V → List V :=
  let a1 := updf a e.src (a e.src ++ [e.dst])
  updf a1 e.dst (a1 e.dst ++ [e.src])

/-- The unweighted adjacency dict, folding `adjListStep` over the edges. -/
def adjList (g : Graph) : V → List V :=
  g.edges.foldl adjListStep (fun _ => [])

/-- The recursive `dfs(v, component)` of `run_connectivity`, carrying the
pair (visited, component); both receive exactly the same appends.  Fuel
bounds the recursion depth; the fuel passed by `run_connectivity` is proved
sufficient. -/
def dfs (adj : V → List V) : ℕ → V → List V × List V → List V × List V
  | 0, _, st => st
  | fuel + 1, v, st =>
    (adj v).foldl (fun s u => if u ∈ s.1 then s else dfs adj fuel u s)
      (st.1 ++ [v], st.2 ++ [v])

/-- The result dict of `run_connectivity`. -/
structure ConnResult where
  algorithm : String
  components : List (List V)
  num_components : ℕ
  is_connected : Bool
  largest_component_size : ℕ
  success : Bool
deriving DecidableEq, Repr

/-- One vertex of the outer `for v in vertices` loop of `run_connectivity`:
skip visited vertices, otherwise run a DFS into a fresh component and append
its sorted member list. -/
def connStep (adj : V → List V) (fuel : ℕ) (acc : List V × List (List V))
    (v : V) : List V × List (List V) :=
  if v ∈ acc.1 then acc
  else
    let d := dfs adj fuel v (acc.1, [])
    (d.1, acc.2 ++ [sortBy (fun a b => decide (a ≤ b)) d.2])

/-- `AlgorithmRunner.run_connectivity`. -/
def run_connectivity (g : Graph) : PyRes ConnResult :=
  if g.vertices = [] then .err "Empty graph" false
  else
    let adj := adjList g
    let fuel := g.vertices.length + 1
    let r := g.vertices.foldl (connStep adj fuel) ([], [])
    .ok { algorithm := "Connectivity (DFS)",
          components := r.2,
          num_components := r.2.length,
          is_connected := decide (r.2.length = 1),
          largest_component_size := (r.2.map List.length).foldl max 0,
          success := true }

end Connectivity

section Coloring

/-- Adjacency of `run_coloring`, built with Python sets
(`adj[v1].add(v2); adj[v2].add(v1)`): append-if-absent keeps exactly the
set membership the code observes. -/
def adjSetStep (a : V → List V) (e : PyEdge) : V → List V :=
  let a1 := updf a e.src (if e.dst ∈ a e.src then a e.src else a e.src ++ [e.dst])
  updf a1 e.dst (if e.src ∈ a1 e.dst then a1 e.dst else a1 e.dst ++ [e.src])

/-- The set-valued adjacency of `run_coloring`, folding `adjSetStep`. -/
def adjSet (g : Graph) : V → List V :=
  g.edges.foldl adjSetStep (fun _ => [])

/-- Any integer list misses some natural number (one above the largest
non-negative entry), so the greedy while loop terminates. -/
theorem exists_nat_notMem_intList (l : List ℤ) : ∃ n : ℕ, (n : ℤ) ∉ l := by
  refine ⟨(l.map Int.toNat).foldr max 0 + 1, fun hmem => ?_⟩
  have hle : ((l.map Int.toNat).foldr max 0 + 1 : ℤ).toNat ≤ (l.map Int.toNat).foldr max 0 := by
    have : ∀ (x : ℤ) (m : List ℤ), x ∈ m → x.toNat ≤ (m.map Int.toNat).foldr max 0 := by
      intro x m
      induction m with
      | nil => simp
      | cons y ys ih =>
        intro hx
        rcases List.mem_cons.mp hx with h | h
        · subst h; simp [List.foldr]
        · simpa [List.foldr] using Or.inr (ih h)
    simpa using this _ l hmem
  omega

/-- `color = 0; while color in neighbor_colors: color += 1`: the least
natural number whose integer cast is not in the list. -/
def smallestMissing (l : List ℤ) : ℕ :=
  Nat.find (exists_nat_notMem_intList l)

/-- Coloring one vertex: collect the colors of its already-colored
neighbors and assign the smallest non-negative integer not among them. -/
def colorStep (adj : V → List V) (col : V → ℤ) (v : V) : V → ℤ :=
  let taken := (adj v).filterMap fun u => if col u ≠ -1 then some (col u) else none
  updf col v (smallestMissing taken)

/-- The greedy coloring pass of `run_coloring` over the vertex list. -/
def greedyColor (adj : V → List V) (vs : List V) : V → ℤ :=
  vs.foldl (colorStep adj) (fun _ => -1)

/-- `max(coloring.values())` for a nonempty vertex list; the dict values
range over the distinct vertices, and the maximum is unchanged by
duplicates in the list. -/
def maxVals (col : V → ℤ) : List V → ℤ
  | [] => 0
  | v :: vs => vs.foldl (fun m u => max m (col u)) (col v)

/-- The result dict of `run_coloring`. -/
structure ColoringResult where
  algorithm : String
  coloring : List (V × ℤ)
  chromatic_number : ℤ
  colors_used : List ℤ
  success : Bool
deriving DecidableEq, Repr

/-- `AlgorithmRunner.run_coloring`.  In the success branch the coloring dict
is nonempty, so `max(coloring.values()) + 1 if coloring else 0` is the
`maxVals` branch. -/
def run_coloring (g : Graph) : PyRes ColoringResult :=
  if g.vertices = [] then .err "Empty graph" false
  else
    let col := greedyColor (adjSet g) g.vertices
    let ch : ℤ := maxVals col g.vertices + 1
    .ok { algorithm := "Graph Coloring (Greedy)",
          coloring := (pyDedup g.vertices).map fun v => (v, col v),
          chromatic_number := ch,
          colors_used := (List.range ch.toNat).map Int.ofNat,
          success := true }

end Coloring

section Hotel

/-- Scanning `adj[u]` inside the BFS while loop: return `dist + 1` as soon as
the target appears, otherwise collect the fresh vertices into the visited
set and the queue additions (in order). -/
def bfsScan (endV : V) (d : ℕ) :
    List V → List V × List (V × ℕ) → Sum ℕ (List V × List (V × ℕ))
  | [], st => .inr st
  | u :: us, st =>
    if u = endV then .inl (d + 1)
    else if u ∈ st.1 then bfsScan endV d us st
    else bfsScan endV d us (st.1 ++ [u], st.2 ++ [(u, d + 1)])

/-- The BFS while loop of `bfs_distance`.  Every enqueue adds a fresh member
to the visited set drawn from the adjacency lists, so the fuel passed by
`run_hotel_optimization` (one plus the total adjacency size) always lets the
queue drain; an exhausted queue yields `inf`. -/
def bfsLoop (adj : V → List V) (endV : V) :
    ℕ → List (V × ℕ) → List V → WithTop ℕ
  | 0, _, _ => ⊤
  | fuel + 1, q, vis =>
    match q with
    | [] => ⊤
    | (u, d) :: rest =>
      match bfsScan endV d (adj u) (vis, []) with
      | .inl r => (r : WithTop ℕ)
      | .inr st => bfsLoop adj endV fuel (rest ++ st.2) st.1

/-- `bfs_distance(start, end)` of `run_hotel_optimization`: unweighted BFS
distance, `inf` when unreachable. -/
def bfs_distance (adj : V → List V) (fuel : ℕ) (s t : V) : WithTop ℕ :=
  if s = t then 0 else bfsLoop adj t fuel [(s, 0)] [s]

/-- `min(bfs_distance(v, c) for c in centers)`; the center list is nonempty
wherever this is evaluated, so folding from `inf` is that minimum. -/
def minDistToCenters (bfsd : V → V → WithTop ℕ) (centers : List V) (v : V) :
    WithTop ℕ :=
  (centers.map fun c => bfsd v c).foldl min ⊤

/-- One pass of the farthest-vertex scan, starting from the sentinel
`farthest = -1, max_min_dist = -1` (modelled as `none`, which every
candidate beats since BFS distances are non-negative). -/
def scanFarthest (bfsd : V → V → WithTop ℕ) (centers : List V) (vs : List V) :
    Option (V × WithTop ℕ) :=
  vs.foldl
    (fun acc v =>
      if v ∈ centers then acc
      else
        let md := minDistToCenters bfsd centers v
        match acc with
        | none => some (v, md)
        | some fm => if fm.2 < md then some (v, md) else acc)
    none

/-- The `for _ in range(min(k - 1, len(vertices) - 1))` center-selection
loop; when the scan finds no candidate (`farthest == -1`) nothing is
appended and the loop continues. -/
def selectCenters (bfsd : V → V → WithTop ℕ) (vs : List V) :
    ℕ → List V → List V
  | 0, cs => cs
  | n + 1, cs =>
    match scanFarthest bfsd cs vs with
    | none => selectCenters bfsd vs n cs
    | some fm => selectCenters bfsd vs n (cs ++ [fm.1])

/-- Python `min(centers, key=...)`: the first element attaining the minimal
key.  The `[]` case is unreachable (the center list always contains
`vertices[0]`). -/
def firstArgmin (key : V → WithTop ℕ) : List V → V
  | [] => 0
  | c :: cs => cs.foldl (fun best x => if key x < key best then x else best) c

/-- The result dict of `run_hotel_optimization`. -/
structure HotelResult where
  algorithm : String
  centers : List V
  num_centers : ℕ
  assignment : List (V × V)
  max_distance : WithTop ℕ
  success : Bool
deriving DecidableEq, Repr

/-- `AlgorithmRunner.run_hotel_optimization`. -/
def run_hotel_optimization (g : Graph) : PyRes HotelResult :=
  match g.vertices with
  | [] => .err "Empty graph" false
  | v0 :: _ =>
    let adj := adjList g
    let bfsd := fun s t => bfs_distance adj (2 * g.edges.length + 2) s t
    let k := max 1 (g.vertices.length / 3 + 1)
    let cnt := min (k - 1) (g.vertices.length - 1)
    let centers := selectCenters bfsd g.vertices cnt [v0]
    let assign := fun v => firstArgmin (fun c => bfsd v c) centers
    let maxd := g.vertices.foldl (fun m v => max m (bfsd v (assign v))) 0
    .ok { algorithm := "Hotel Optimization (K-Centers)",
          centers := centers,
          num_centers := centers.length,
          assignment := (pyDedup g.vertices).map fun v => (v, assign v),
          max_distance := maxd,
          success := true }

end Hotel

section Dispatch

/-- The union of every result shape `run_algorithm` can return: one success
payload per algorithm, the `{"error": msg, "success": b}` dict, and the
unknown-algorithm dict, which carries only the error string and no
`success` key. -/
inductive RunResult where
  | dijkstra (r : DijkstraResult)
  | tsp (r : TSPResult)
  | mst (r : MSTResult)
  | connectivity (r : ConnResult)
  | coloring (r : ColoringResult)
  | hotel (r : HotelResult)
  | failure (error : String) (success : Bool)
  | unknown (error : String)
deriving DecidableEq, Repr

/-- Inject an algorithm outcome into the dispatcher result union. -/
def liftRes {α : Type} (inj : α → RunResult) : PyRes α → RunResult
  | .err e s => .failure e s
  | .ok r => inj r

/-- `AlgorithmRunner.run_algorithm(algorithm_name, graph_data)`.  The
dijkstra branch calls `run_dijkstra(graph_data)` with its default
`start = 0` and may raise; the other branches return result dicts. -/
def run_algorithm (name : String) (g : Graph) : Except PyErr RunResult :=
  if name = "dijkstra" then (run_dijkstra g 0).map RunResult.dijkstra
  else if name = "tsp" then .ok (liftRes .tsp (run_tsp g))
  else if name = "mst" then .ok (liftRes .mst (run_mst g))
  else if name = "connectivity" then .ok (liftRes .connectivity (run_connectivity g))
  else if name = "coloring" then .ok (liftRes .coloring (run_coloring g))
  else if name = "hotel" then .ok (liftRes .hotel (run_hotel_optimization g))
  else .ok (.unknown ("Unknown algorithm: " ++ name))

end Dispatch

section Specs

/-- The adjacency dict of `run_dijkstra` has exactly the vertex list as its
key set. -/
def AdjDom (adj : V → Option (List (V × ℚ))) (vs : List V) : Prop :=
  ∀ a, (adj a).isSome ↔ a ∈ vs

/-- One step along an adjacency dict. -/
def AdjRel (adj : V → List V) (a b : V) : Prop := b ∈ adj a

/-- Reachability along an adjacency dict. -/
def ConnAdj (adj : V → List V) : V → V → Prop :=
  Relation.ReflTransGen (AdjRel adj)

/-- Semantic root chase for a union-find parent map, with explicit fuel:
follow parent links until a fixed point (`parent[x] == x`) is found or the
fuel runs out.  `run_mst`'s fuel `|vertices| + 1` is proved sufficient. -/
def rootD (par : V → V) : ℕ → V → V
  | 0, x => x
  | n + 1, x => if par x = x then x else rootD par n (par x)

/-- `r` is the root of `x`'s parent chain: some number of parent steps
reaches `r`, and `r` is a fixed point of the parent map. -/
def RootedAt (par : V → V) (x r : V) : Prop :=
  (∃ k, par^[k] x = r) ∧ par r = r

/-- The invariant `run_mst`'s parent map maintains: identity outside the
vertex list, closed on the vertex list, and acyclic — witnessed by a rank
function that strictly decreases along non-trivial parent links. -/
def UFInv (par : V → V) (B : List V) : Prop :=
  (∀ x, x ∉ B → par x = x) ∧ (∀ x ∈ B, par x ∈ B) ∧
    ∃ lvl : V → ℕ, ∀ x, par x ≠ x → lvl (par x) < lvl x

/-- Two vertices lie in the same union-find class. -/
def SameRoot (par : V → V) (z w : V) : Prop :=
  ∃ r, RootedAt par z r ∧ RootedAt par w r

/-- One undirected step along a list of `(weight, v1, v2)` triples. -/
def TripRel (l : List (ℚ × V × V)) (a b : V) : Prop :=
  ∃ t ∈ l, (t.2.1 = a ∧ t.2.2 = b) ∨ (t.2.1 = b ∧ t.2.2 = a)

/-- Reachability along a list of `(weight, v1, v2)` triples. -/
def ConnTrip (l : List (ℚ × V × V)) : V → V → Prop :=
  Relation.ReflTransGen (TripRel l)

/-- An undirected edge of weight `w` between `b` and `c`. -/
def EdgeBtw (g : Graph) (b c : V) (w : ℚ) : Prop :=
  ∃ e ∈ g.edges, ((e.src = b ∧ e.dst = c) ∨ (e.src = c ∧ e.dst = b)) ∧ e.wt = w

/-- An undirected walk from `s` of total weight `q`, grown at its far end —
the shape in which Dijkstra relaxations extend known walks. -/
inductive EWalk (g : Graph) (s : V) : V → ℚ → Prop where
  | refl : EWalk g s s 0
  | step {b c : V} {q w : ℚ} : EWalk g s b q → EdgeBtw g b c w →
      EWalk g s c (q + w)

/-- Following `parent` pointers from `v` reaches `s`, each hop moving along
a graph edge whose weight accounts exactly for the difference of the two
`distances` entries — so the hop weights telescope to `dist v - dist s`. -/
inductive Traces (g : Graph) (par : V → Int) (dist : V → D) (s : V) :
    V → Prop where
  | base : Traces g par dist s s
  | step {u v : V} {w : ℚ} : Traces g par dist s u → par v = (u : Int) →
      EdgeBtw g u v w → dist v = dist u + (w : D) → Traces g par dist s v

end Specs

instance {ε α : Type} [DecidableEq ε] [DecidableEq α] : DecidableEq (Except ε α) := fun a b =>
  match a, b with
  | .error e, .error f => decidable_of_iff (e = f) (by simp)
  | .error _, .ok _ => isFalse (by simp)
  | .ok _, .error _ => isFalse (by simp)
  | .ok x, .ok y => decidable_of_iff (x = y) (by simp)

/-- Claim C2: calling `run("dijkstra", g)` on a graph with an empty vertex
list is claimed to default `start` to `0` and return empty `distances` and
`parent` maps with `success: true`.  In fact the code only defaults `start`
to `0`: the priority queue starts as `[(0, 0)]`, the first pop reads
`adj[0]`, and the adjacency dict built over the empty vertex list has no
keys, so CPython raises `KeyError: 0` and no result is returned. -/
theorem run_algorithm_dijkstra_empty_raises :
    run_algorithm "dijkstra" ⟨[], []⟩ = .error (.keyError 0) := rfl

/-- Claim C3: `run(name, graph)` never raises for expected conditions: an
unknown `name` yields a result carrying only the string
`"Unknown algorithm: <name>"` and no `success` field, and each of `tsp`,
`mst`, `connectivity`, `coloring` and `hotel` answers a zero-vertex graph
with the `{"error": "Empty graph", "success": False}` result. -/
theorem run_algorithm_error_contract :
    (∀ (name : String) (g : Graph),
        name ∉ ["dijkstra", "tsp", "mst", "connectivity", "coloring", "hotel"] →
        run_algorithm name g = .ok (.unknown ("Unknown algorithm: " ++ name))) ∧
    (∀ g : Graph, g.vertices = [] →
        run_algorithm "tsp" g = .ok (.failure "Empty graph" false) ∧
        run_algorithm "mst" g = .ok (.failure "Empty graph" false) ∧
        run_algorithm "connectivity" g = .ok (.failure "Empty graph" false) ∧
        run_algorithm "coloring" g = .ok (.failure "Empty graph" false) ∧
        run_algorithm "hotel" g = .ok (.failure "Empty graph" false)) := by
  constructor
  · intro name g hname
    simp only [List.mem_cons, List.mem_singleton, not_or] at hname
    obtain ⟨h1, h2, h3, h4, h5, h6, -⟩ := hname
    simp [run_algorithm, h1, h2, h3, h4, h5, h6]
  · intro g hg
    refine ⟨?_, ?_, ?_, ?_, ?_⟩ <;>
      simp [run_algorithm, run_tsp, run_mst, run_connectivity, run_coloring,
        run_hotel_optimization, hg, liftRes]

/-- Witness for C3 at the concrete name `"bogus"` and a zero-vertex graph
that still has an edge. -/
theorem run_algorithm_error_contract_witness :
    run_algorithm "bogus" ⟨[5], []⟩ = .ok (.unknown "Unknown algorithm: bogus") ∧
    run_algorithm "mst" ⟨[], [PyEdge.e2 0 1]⟩ = .ok (.failure "Empty graph" false) :=
  ⟨run_algorithm_error_contract.1 "bogus" ⟨[5], []⟩ (by decide),
   (run_algorithm_error_contract.2 ⟨[], [PyEdge.e2 0 1]⟩ rfl).2.1⟩

section UpdfLemmas

theorem updf_apply_ne {β : Type} (f : V → β) {a x : V} (b : β) (h : x ≠ a) :
    updf f a b x = f x := by
  simp [updf, h]

theorem updf_apply_eq {β : Type} (f : V → β) (a : V) (b : β) :
    updf f a b a = b := by
  simp [updf]

theorem updf_comm {β : Type} (f : V → β) {a b : V} (x y : β) (h : a ≠ b) :
    updf (updf f a x) b y = updf (updf f b y) a x := by
  funext z
  by_cases hb : z = b <;> by_cases ha : z = a <;>
    simp_all [updf]

theorem foldl_middle_congr {α β : Type} (f : β → α → β) (init : β)
    (pre post : List α) (x y : α) (h : ∀ s, f s x = f s y) :
    (pre ++ [x] ++ post).foldl f init = (pre ++ [y] ++ post).foldl f init := by
  simp [List.foldl_append, h]

end UpdfLemmas

section ReversalLemmas

theorem PyEdge.rev_src (e : PyEdge) : e.rev.src = e.dst := by cases e <;> rfl

theorem PyEdge.rev_dst (e : PyEdge) : e.rev.dst = e.src := by cases e <;> rfl

theorem PyEdge.rev_wt (e : PyEdge) : e.rev.wt = e.wt := by cases e <;> rfl

theorem PyEdge.rev_self (e : PyEdge) (h : e.src = e.dst) : e.rev = e := by
  rcases e with ⟨u, v⟩ | ⟨u, v, w⟩ <;>
    simp_all [PyEdge.rev, PyEdge.src, PyEdge.dst]

theorem wMatrixStep_rev (m : V → V → D) (e : PyEdge) :
    wMatrixStep m e.rev = wMatrixStep m e := by
  rcases eq_or_ne e.src e.dst with heq | hne
  · rw [PyEdge.rev_self e heq]
  · unfold wMatrixStep
    rw [PyEdge.rev_src, PyEdge.rev_dst, PyEdge.rev_wt]
    funext x y
    by_cases hxs : x = e.src <;> by_cases hxd : x = e.dst <;>
      simp_all [updf]

theorem adjListStep_rev (a : V → List V) (e : PyEdge) :
    adjListStep a e.rev = adjListStep a e := by
  rcases eq_or_ne e.src e.dst with heq | hne
  · rw [PyEdge.rev_self e heq]
  · unfold adjListStep
    rw [PyEdge.rev_src, PyEdge.rev_dst]
    funext x
    by_cases hxs : x = e.src <;> by_cases hxd : x = e.dst <;>
      simp_all [updf]

theorem adjSetStep_rev (a : V → List V) (e : PyEdge) :
    adjSetStep a e.rev = adjSetStep a e := by
  rcases eq_or_ne e.src e.dst with heq | hne
  · rw [PyEdge.rev_self e heq]
  · unfold adjSetStep
    rw [PyEdge.rev_src, PyEdge.rev_dst]
    funext x
    by_cases hxs : x = e.src <;> by_cases hxd : x = e.dst <;>
      simp_all [updf]

theorem adjInit_dom (vs : List V) : AdjDom (adjInit vs) vs := by
  intro a
  by_cases h : a ∈ vs <;> simp [adjInit, h]

theorem adjAppend_ok_dom {adj adj' : V → Option (List (V × ℚ))} {vs : List V}
    {a b : V} {w : ℚ} (hd : AdjDom adj vs)
    (h : adjAppend adj a b w = .ok adj') : AdjDom adj' vs := by
  unfold adjAppend at h
  cases hl : adj a with
  | none => rw [hl] at h; cases h
  | some l =>
    rw [hl] at h
    cases h
    intro x
    by_cases hx : x = a
    · subst hx
      simp [updf, ← hd x, hl]
    · simp [updf, hx, hd x]

theorem adjAddEdge_ok_dom {adj adj' : V → Option (List (V × ℚ))} {vs : List V}
    {e : PyEdge} (hd : AdjDom adj vs)
    (h : adjAddEdge adj e = .ok adj') : AdjDom adj' vs := by
  unfold adjAddEdge at h
  cases h1 : adjAppend adj e.src e.dst e.wt with
  | error err => rw [h1] at h; cases h
  | ok adj1 =>
    rw [h1] at h
    exact adjAppend_ok_dom (adjAppend_ok_dom hd h1) h

theorem foldlM_adjAddEdge_dom {vs : List V} :
    ∀ (l : List PyEdge) {adj adj' : V → Option (List (V × ℚ))},
      AdjDom adj vs → l.foldlM adjAddEdge adj = .ok adj' → AdjDom adj' vs := by
  intro l
  induction l with
  | nil =>
    intro adj adj' hd h
    simp only [List.foldlM] at h
    cases h
    exact hd
  | cons e l ih =>
    intro adj adj' hd h
    simp only [List.foldlM] at h
    cases h1 : adjAddEdge adj e with
    | error err => rw [h1] at h; cases h
    | ok adj1 =>
      rw [h1] at h
      exact ih (adjAddEdge_ok_dom hd h1) h

theorem adjAddEdge_rev {adj : V → Option (List (V × ℚ))} {vs : List V} (e : PyEdge)
    (hd : AdjDom adj vs) (hs : e.src ∈ vs) (ht : e.dst ∈ vs) :
    adjAddEdge adj e.rev = adjAddEdge adj e := by
  rcases eq_or_ne e.src e.dst with heq | hne
  · rw [PyEdge.rev_self e heq]
  · obtain ⟨ls, hls⟩ : ∃ l, adj e.src = some l := by
      have h1 := (hd e.src).2 hs
      cases h : adj e.src
      · rw [h] at h1; cases h1
      · exact ⟨_, rfl⟩
    obtain ⟨lt, hlt⟩ : ∃ l, adj e.dst = some l := by
      have h1 := (hd e.dst).2 ht
      cases h : adj e.dst
      · rw [h] at h1; cases h1
      · exact ⟨_, rfl⟩
    have h1 : adjAppend adj e.dst e.src e.wt =
        .ok (updf adj e.dst (some (lt ++ [(e.src, e.wt)]))) := by
      unfold adjAppend; rw [hlt]
    have h1' : adjAppend adj e.src e.dst e.wt =
        .ok (updf adj e.src (some (ls ++ [(e.dst, e.wt)]))) := by
      unfold adjAppend; rw [hls]
    have h2 : adjAppend (updf adj e.dst (some (lt ++ [(e.src, e.wt)]))) e.src e.dst e.wt =
        .ok (updf (updf adj e.dst (some (lt ++ [(e.src, e.wt)]))) e.src
          (some (ls ++ [(e.dst, e.wt)]))) := by
      unfold adjAppend
      rw [updf_apply_ne adj _ hne, hls]
    have h2' : adjAppend (updf adj e.src (some (ls ++ [(e.dst, e.wt)]))) e.dst e.src e.wt =
        .ok (updf (updf adj e.src (some (ls ++ [(e.dst, e.wt)]))) e.dst
          (some (lt ++ [(e.src, e.wt)]))) := by
      unfold adjAppend
      rw [updf_apply_ne adj _ hne.symm, hlt]
    unfold adjAddEdge
    rw [PyEdge.rev_src, PyEdge.rev_dst, PyEdge.rev_wt, h1, h1']
    show adjAppend (updf adj e.dst (some (lt ++ [(e.src, e.wt)]))) e.src e.dst e.wt =
      adjAppend (updf adj e.src (some (ls ++ [(e.dst, e.wt)]))) e.dst e.src e.wt
    rw [h2, h2']
    exact congrArg Except.ok (updf_comm adj _ _ hne.symm)

theorem buildAdj_rev (vs : List V) (pre post : List PyEdge) (e : PyEdge)
    (hs : e.src ∈ vs) (ht : e.dst ∈ vs) :
    buildAdj ⟨vs, pre ++ [e.rev] ++ post⟩ = buildAdj ⟨vs, pre ++ [e] ++ post⟩ := by
  unfold buildAdj
  show (pre ++ [e.rev] ++ post).foldlM adjAddEdge (adjInit vs) =
    (pre ++ [e] ++ post).foldlM adjAddEdge (adjInit vs)
  rw [List.foldlM_append, List.foldlM_append, List.foldlM_append, List.foldlM_append]
  cases hpre : pre.foldlM adjAddEdge (adjInit vs) with
  | error err => rfl
  | ok adj1 =>
    have hd : AdjDom adj1 vs := foldlM_adjAddEdge_dom pre (adjInit_dom vs) hpre
    show (([e.rev].foldlM adjAddEdge adj1) >>= post.foldlM adjAddEdge) =
      (([e].foldlM adjAddEdge adj1) >>= post.foldlM adjAddEdge)
    simp only [List.foldlM]
    rw [adjAddEdge_rev e hd hs ht]

end ReversalLemmas

section CongrLemmas

theorem run_dijkstra_congr {g1 g2 : Graph} (s0 : V)
    (hv : g1.vertices = g2.vertices) (hb : buildAdj g1 = buildAdj g2)
    (hl : g1.edges.length = g2.edges.length) :
    run_dijkstra g1 s0 = run_dijkstra g2 s0 := by
  unfold run_dijkstra dijkstraFinal dijkstraFuel
  rw [hv, hb, hl]

theorem run_tsp_congr {g1 g2 : Graph}
    (hv : g1.vertices = g2.vertices) (hm : wMatrix g1 = wMatrix g2) :
    run_tsp g1 = run_tsp g2 := by
  unfold run_tsp
  rw [hv, hm]

theorem run_connectivity_congr {g1 g2 : Graph}
    (hv : g1.vertices = g2.vertices) (ha : adjList g1 = adjList g2) :
    run_connectivity g1 = run_connectivity g2 := by
  unfold run_connectivity
  rw [hv, ha]

theorem run_coloring_congr {g1 g2 : Graph}
    (hv : g1.vertices = g2.vertices) (ha : adjSet g1 = adjSet g2) :
    run_coloring g1 = run_coloring g2 := by
  unfold run_coloring
  rw [hv, ha]

theorem run_hotel_congr {g1 g2 : Graph}
    (hv : g1.vertices = g2.vertices) (ha : adjList g1 = adjList g2)
    (hl : g1.edges.length = g2.edges.length) :
    run_hotel_optimization g1 = run_hotel_optimization g2 := by
  unfold run_hotel_optimization
  rw [hv, ha, hl]

end CongrLemmas

/-- Claim C7 (amended): replacing one edge `(u, v, w)` of the edge list by
its reversed form `(v, u, w)` leaves the results of `run_dijkstra`,
`run_tsp`, `run_connectivity`, `run_coloring` and `run_hotel_optimization`
unchanged (their symmetric adjacency structures are identical for the two
orientations).  `run_mst` is the exception: its `mst_edges` echo the edge
tuples as given, so the orientation (and, among equal-weight edges, the
tie-break of the sorted `(weight, u, v)` triples) is visible in its result;
see the counterexample. -/
theorem edge_reversal_invariance_except_mst
    (vs : List V) (pre post : List PyEdge) (e : PyEdge) (s0 : V)
    (hwf : ∀ e' ∈ pre ++ [e] ++ post, e'.src ∈ vs ∧ e'.dst ∈ vs) :
    run_dijkstra ⟨vs, pre ++ [e.rev] ++ post⟩ s0 =
        run_dijkstra ⟨vs, pre ++ [e] ++ post⟩ s0 ∧
    run_tsp ⟨vs, pre ++ [e.rev] ++ post⟩ = run_tsp ⟨vs, pre ++ [e] ++ post⟩ ∧
    run_connectivity ⟨vs, pre ++ [e.rev] ++ post⟩ =
        run_connectivity ⟨vs, pre ++ [e] ++ post⟩ ∧
    run_coloring ⟨vs, pre ++ [e.rev] ++ post⟩ =
        run_coloring ⟨vs, pre ++ [e] ++ post⟩ ∧
    run_hotel_optimization ⟨vs, pre ++ [e.rev] ++ post⟩ =
        run_hotel_optimization ⟨vs, pre ++ [e] ++ post⟩ := by
  have hs : e.src ∈ vs := (hwf e (by simp)).1
  have ht : e.dst ∈ vs := (hwf e (by simp)).2
  have hl : (⟨vs, pre ++ [e.rev] ++ post⟩ : Graph).edges.length =
      (⟨vs, pre ++ [e] ++ post⟩ : Graph).edges.length := by simp
  refine ⟨?_, ?_, ?_, ?_, ?_⟩
  · exact run_dijkstra_congr s0 rfl (buildAdj_rev vs pre post e hs ht) hl
  · exact run_tsp_congr rfl
      (foldl_middle_congr wMatrixStep _ pre post _ _ fun s => wMatrixStep_rev s e)
  · exact run_connectivity_congr rfl
      (foldl_middle_congr adjListStep _ pre post _ _ fun s => adjListStep_rev s e)
  · exact run_coloring_congr rfl
      (foldl_middle_congr adjSetStep _ pre post _ _ fun s => adjSetStep_rev s e)
  · exact run_hotel_congr rfl
      (foldl_middle_congr adjListStep _ pre post _ _ fun s => adjListStep_rev s e) hl

/-- Witness for the amended C7 on the one-edge graph `0 - 1`. -/
theorem edge_reversal_invariance_except_mst_witness :
    (∀ e' ∈ ([] : List PyEdge) ++ [PyEdge.e3 0 1 1] ++ [],
        e'.src ∈ [0, 1] ∧ e'.dst ∈ [0, 1]) ∧
    run_tsp ⟨[0, 1], [] ++ [(PyEdge.e3 0 1 1).rev] ++ []⟩ =
        run_tsp ⟨[0, 1], [] ++ [PyEdge.e3 0 1 1] ++ []⟩ :=
  ⟨by decide,
   (edge_reversal_invariance_except_mst [0, 1] [] [] (PyEdge.e3 0 1 1) 0
      (by decide)).2.1⟩

/-- Counterexample to C7 as stated: reversing the single edge `(0, 1, 1.0)`
to `(1, 0, 1.0)` changes the result of `run_mst`, whose `mst_edges` list
contains the edge in the orientation it was given. -/
theorem run_mst_reversal_counterexample :
    run_mst ⟨[0, 1], [PyEdge.e3 1 0 1]⟩ ≠ run_mst ⟨[0, 1], [PyEdge.e3 0 1 1]⟩ := by
  intro h
  have h2 := congrArg
    (fun r => match r with | PyRes.ok r => r.mst_edges | PyRes.err _ _ => []) h
  revert h2
  decide

section PyDedupLemmas

theorem mem_pyDedup {l : List V} {x : V} : x ∈ pyDedup l ↔ x ∈ l := by
  have key : ∀ (l acc : List V) (x : V),
      x ∈ l.foldl (fun acc v => if v ∈ acc then acc else acc ++ [v]) acc ↔
        x ∈ acc ∨ x ∈ l := by
    intro l
    induction l with
    | nil => intro acc x; simp
    | cons v l ih =>
      intro acc x
      simp only [List.foldl_cons]
      by_cases hv : v ∈ acc
      · rw [if_pos hv, ih]
        constructor
        · rintro (h | h)
          · exact .inl h
          · exact .inr (List.mem_cons_of_mem _ h)
        · rintro (h | h)
          · exact .inl h
          · rcases List.mem_cons.mp h with rfl | h
            · exact .inl hv
            · exact .inr h
      · rw [if_neg hv, ih]
        simp only [List.mem_append, List.mem_singleton, List.mem_cons]
        tauto
  simpa using key l [] x

theorem pyDedup_nodup (l : List V) : (pyDedup l).Nodup := by
  have key : ∀ (l acc : List V), acc.Nodup →
      (l.foldl (fun acc v => if v ∈ acc then acc else acc ++ [v]) acc).Nodup := by
    intro l
    induction l with
    | nil => intro acc h; simpa using h
    | cons v l ih =>
      intro acc h
      simp only [List.foldl_cons]
      by_cases hv : v ∈ acc
      · rw [if_pos hv]; exact ih acc h
      · rw [if_neg hv]
        exact ih _ (by simp [List.nodup_append, h, hv])
  exact key l [] List.nodup_nil

end PyDedupLemmas

section AdjMembership

theorem mem_updf_list {f : V → List V} {a : V} {l : List V} {x y : V} :
    y ∈ updf f a l x ↔ (x = a ∧ y ∈ l) ∨ (x ≠ a ∧ y ∈ f x) := by
  by_cases h : x = a <;> simp [updf, h]

theorem mem_adjSetStep {a : V → List V} {e : PyEdge} {u v : V} :
    u ∈ adjSetStep a e v ↔
      u ∈ a v ∨ (e.src = v ∧ e.dst = u) ∨ (e.src = u ∧ e.dst = v) := by
  obtain ⟨s, t⟩ | ⟨s, t, w⟩ := e <;>
    (simp only [PyEdge.src, PyEdge.dst, adjSetStep, updf, List.mem_append,
      List.mem_singleton]
     split_ifs <;> simp_all <;> aesop)

theorem mem_adjListStep {a : V → List V} {e : PyEdge} {u v : V} :
    u ∈ adjListStep a e v ↔
      u ∈ a v ∨ (e.src = v ∧ e.dst = u) ∨ (e.src = u ∧ e.dst = v) := by
  obtain ⟨s, t⟩ | ⟨s, t, w⟩ := e <;>
    (simp only [PyEdge.src, PyEdge.dst, adjListStep, updf, List.mem_append,
      List.mem_singleton]
     split_ifs <;> simp_all <;> aesop)

theorem mem_foldl_adjSetStep (l : List PyEdge) :
    ∀ (a : V → List V) (u v : V),
      u ∈ l.foldl adjSetStep a v ↔
        u ∈ a v ∨ ∃ e ∈ l, (e.src = v ∧ e.dst = u) ∨ (e.src = u ∧ e.dst = v) := by
  induction l with
  | nil => intro a u v; simp
  | cons e l ih =>
    intro a u v
    simp only [List.foldl_cons]
    rw [ih, mem_adjSetStep]
    simp only [List.mem_cons]
    constructor
    · rintro ((h | h) | ⟨e', he', h⟩)
      · exact .inl h
      · exact .inr ⟨e, .inl rfl, h⟩
      · exact .inr ⟨e', .inr he', h⟩
    · rintro (h | ⟨e', (rfl | he'), h⟩)
      · exact .inl (.inl h)
      · exact .inl (.inr h)
      · exact .inr ⟨e', he', h⟩

theorem mem_foldl_adjListStep (l : List PyEdge) :
    ∀ (a : V → List V) (u v : V),
      u ∈ l.foldl adjListStep a v ↔
        u ∈ a v ∨ ∃ e ∈ l, (e.src = v ∧ e.dst = u) ∨ (e.src = u ∧ e.dst = v) := by
  induction l with
  | nil => intro a u v; simp
  | cons e l ih =>
    intro a u v
    simp only [List.foldl_cons]
    rw [ih, mem_adjListStep]
    simp only [List.mem_cons]
    constructor
    · rintro ((h | h) | ⟨e', he', h⟩)
      · exact .inl h
      · exact .inr ⟨e, .inl rfl, h⟩
      · exact .inr ⟨e', .inr he', h⟩
    · rintro (h | ⟨e', (rfl | he'), h⟩)
      · exact .inl (.inl h)
      · exact .inl (.inr h)
      · exact .inr ⟨e', he', h⟩

theorem mem_adjSet {g : Graph} {u v : V} :
    u ∈ adjSet g v ↔
      ∃ e ∈ g.edges, (e.src = v ∧ e.dst = u) ∨ (e.src = u ∧ e.dst = v) := by
  unfold adjSet
  rw [mem_foldl_adjSetStep]
  simp

theorem mem_adjList {g : Graph} {u v : V} :
    u ∈ adjList g v ↔
      ∃ e ∈ g.edges, (e.src = v ∧ e.dst = u) ∨ (e.src = u ∧ e.dst = v) := by
  unfold adjList
  rw [mem_foldl_adjListStep]
  simp

end AdjMembership

section ColoringLemmas

theorem smallestMissing_notMem (l : List ℤ) : (smallestMissing l : ℤ) ∉ l :=
  Nat.find_spec (exists_nat_notMem_intList l)

theorem smallestMissing_nonneg (l : List ℤ) : (0 : ℤ) ≤ (smallestMissing l : ℤ) := by
  exact_mod_cast Nat.zero_le _

theorem colorStep_self (adj : V → List V) (col : V → ℤ) (v : V) :
    colorStep adj col v v =
      ((smallestMissing ((adj v).filterMap fun u =>
          if col u ≠ -1 then some (col u) else none) : ℕ) : ℤ) := by
  simp [colorStep, updf]

theorem colorStep_other (adj : V → List V) (col : V → ℤ) {v x : V} (h : x ≠ v) :
    colorStep adj col v x = col x := by
  simp [colorStep, updf, h]

theorem colorStep_avoids (adj : V → List V) (col : V → ℤ) (v : V) {u : V}
    (hu : u ∈ adj v) (hc : col u ≠ -1) : colorStep adj col v v ≠ col u := by
  rw [colorStep_self]
  intro h
  apply smallestMissing_notMem ((adj v).filterMap fun u =>
    if col u ≠ -1 then some (col u) else none)
  rw [h]
  exact List.mem_filterMap.mpr ⟨u, hu, by simp [hc]⟩

theorem greedy_fold_invariant (g : Graph) (adj : V → List V)
    (hadj : ∀ e ∈ g.edges, e.dst ∈ adj e.src ∧ e.src ∈ adj e.dst)
    (hloop : ∀ e ∈ g.edges, e.src ≠ e.dst) :
    ∀ (l : List V) (col0 : V → ℤ),
      (∀ e ∈ g.edges, col0 e.src ≠ -1 → col0 e.dst ≠ -1 → col0 e.src ≠ col0 e.dst) →
      (∀ y, col0 y ≠ -1 → 0 ≤ col0 y) →
      (∀ e ∈ g.edges, l.foldl (colorStep adj) col0 e.src ≠ -1 →
          l.foldl (colorStep adj) col0 e.dst ≠ -1 →
          l.foldl (colorStep adj) col0 e.src ≠ l.foldl (colorStep adj) col0 e.dst) ∧
      (∀ y, col0 y ≠ -1 → l.foldl (colorStep adj) col0 y ≠ -1) ∧
      (∀ y ∈ l, l.foldl (colorStep adj) col0 y ≠ -1) ∧
      (∀ y, l.foldl (colorStep adj) col0 y ≠ -1 → 0 ≤ l.foldl (colorStep adj) col0 y) := by
  intro l
  induction l with
  | nil =>
    intro col0 hP hQ
    exact ⟨hP, fun y hy => hy, by simp, hQ⟩
  | cons v l ih =>
    intro col0 hP hQ
    simp only [List.foldl_cons]
    have hsm : (0 : ℤ) ≤ colorStep adj col0 v v := by
      rw [colorStep_self]; exact_mod_cast Nat.zero_le _
    have hP1 : ∀ e ∈ g.edges, colorStep adj col0 v e.src ≠ -1 →
        colorStep adj col0 v e.dst ≠ -1 →
        colorStep adj col0 v e.src ≠ colorStep adj col0 v e.dst := by
      intro e he hs hd
      by_cases hvs : e.src = v
      · by_cases hvd : e.dst = v
        · exact absurd (hvs.trans hvd.symm) (hloop e he)
        · rw [hvs]
          rw [colorStep_other adj col0 hvd] at hd ⊢
          exact colorStep_avoids adj col0 v ((hvs ▸ (hadj e he).1)) hd
      · by_cases hvd : e.dst = v
        · rw [hvd]
          rw [colorStep_other adj col0 hvs] at hs ⊢
          exact fun h => colorStep_avoids adj col0 v ((hvd ▸ (hadj e he).2)) hs h.symm
        · rw [colorStep_other adj col0 hvs] at hs ⊢
          rw [colorStep_other adj col0 hvd] at hd ⊢
          exact hP e he hs hd
    have hQ1 : ∀ y, colorStep adj col0 v y ≠ -1 → 0 ≤ colorStep adj col0 v y := by
      intro y hy
      by_cases hyv : y = v
      · subst hyv; exact hsm
      · rw [colorStep_other adj col0 hyv] at hy ⊢; exact hQ y hy
    obtain ⟨c1, c2, c3, c4⟩ := ih (colorStep adj col0 v) hP1 hQ1
    refine ⟨c1, ?_, ?_, c4⟩
    · intro y hy
      apply c2
      by_cases hyv : y = v
      · subst hyv
        intro h; rw [h] at hsm; exact absurd hsm (by norm_num)
      · rw [colorStep_other adj col0 hyv]; exact hy
    · intro y hy
      rcases List.mem_cons.mp hy with rfl | hyl
      · apply c2
        intro h; rw [h] at hsm; exact absurd hsm (by norm_num)
      · exact c3 y hyl

theorem foldl_max_spec {α : Type} [LinearOrder α] (f : V → α) :
    ∀ (vs : List V) (i : α),
      i ≤ vs.foldl (fun m u => max m (f u)) i ∧
      (∀ u ∈ vs, f u ≤ vs.foldl (fun m u => max m (f u)) i) ∧
      (vs.foldl (fun m u => max m (f u)) i = i ∨
        ∃ u ∈ vs, f u = vs.foldl (fun m u => max m (f u)) i) := by
  intro vs
  induction vs with
  | nil => intro i; simp
  | cons v vs ih =>
    intro i
    simp only [List.foldl_cons]
    obtain ⟨h1, h2, h3⟩ := ih (max i (f v))
    refine ⟨le_trans (le_max_left _ _) h1, ?_, ?_⟩
    · intro u hu
      rcases List.mem_cons.mp hu with rfl | hu
      · exact le_trans (le_max_right _ _) h1
      · exact h2 u hu
    · rcases h3 with h3 | ⟨u, hu, h3⟩
      · rcases max_cases i (f v) with ⟨hm, -⟩ | ⟨hm, -⟩
        · exact .inl (h3.trans hm)
        · exact .inr ⟨v, List.mem_cons_self v vs, (h3.trans hm).symm⟩
      · exact .inr ⟨u, List.mem_cons_of_mem _ hu, h3⟩

theorem maxVals_spec (col : V → ℤ) (v : V) (vs : List V) :
    (∀ u ∈ v :: vs, col u ≤ maxVals col (v :: vs)) ∧
      ∃ u ∈ v :: vs, col u = maxVals col (v :: vs) := by
  unfold maxVals
  obtain ⟨h1, h2, h3⟩ := foldl_max_spec col vs (col v)
  constructor
  · intro u hu
    rcases List.mem_cons.mp hu with rfl | hu
    · exact h1
    · exact h2 u hu
  · rcases h3 with h3 | ⟨u, hu, h3⟩
    · exact ⟨v, List.mem_cons_self v vs, h3.symm⟩
    · exact ⟨u, List.mem_cons_of_mem _ hu, h3⟩

end ColoringLemmas

/-- Claim C5: for every non-empty graph whose edge endpoints are vertices
(and whose edges join distinct vertices, as the data model of the spec
requires of edges), `run_coloring` succeeds, its `coloring` dict assigns a
color to every vertex, the assignment is proper on every edge, and
`chromatic_number` is the maximum assigned color plus one. -/
theorem run_coloring_proper (g : Graph) (hne : g.vertices ≠ [])
    (hwf : ∀ e ∈ g.edges, e.src ∈ g.vertices ∧ e.dst ∈ g.vertices)
    (hloop : ∀ e ∈ g.edges, e.src ≠ e.dst) :
    ∃ r, run_coloring g = .ok r ∧
      (∀ e ∈ g.edges, ∀ p ∈ r.coloring, ∀ q ∈ r.coloring,
          p.1 = e.src → q.1 = e.dst → p.2 ≠ q.2) ∧
      (∀ v ∈ g.vertices, ∃ c : ℤ, (v, c) ∈ r.coloring) ∧
      (∃ p ∈ r.coloring, r.chromatic_number = p.2 + 1) ∧
      (∀ p ∈ r.coloring, p.2 < r.chromatic_number) := by
  have hadj : ∀ e ∈ g.edges, e.dst ∈ adjSet g e.src ∧ e.src ∈ adjSet g e.dst := by
    intro e he
    exact ⟨mem_adjSet.mpr ⟨e, he, .inl ⟨rfl, rfl⟩⟩,
      mem_adjSet.mpr ⟨e, he, .inr ⟨rfl, rfl⟩⟩⟩
  obtain ⟨hproper, -, hall, -⟩ :=
    greedy_fold_invariant g (adjSet g) hadj hloop g.vertices (fun _ => -1)
      (by intro e he hs; exact absurd rfl hs) (by intro y hy; exact absurd rfl hy)
  have hcolfold : greedyColor (adjSet g) g.vertices =
      g.vertices.foldl (colorStep (adjSet g)) (fun _ => -1) := rfl
  rw [← hcolfold] at hproper hall
  set col := greedyColor (adjSet g) g.vertices with hcol
  obtain ⟨v0, vt, hv0⟩ : ∃ v0 vt, g.vertices = v0 :: vt := by
    cases hvs : g.vertices with
    | nil => exact absurd hvs hne
    | cons a l => exact ⟨a, l, rfl⟩
  obtain ⟨hmax_le, u0, hu0_mem, hu0⟩ :
      (∀ u ∈ v0 :: vt, col u ≤ maxVals col (v0 :: vt)) ∧
        ∃ u ∈ v0 :: vt, col u = maxVals col (v0 :: vt) := maxVals_spec col v0 vt
  have hrun : run_coloring g = .ok
      { algorithm := "Graph Coloring (Greedy)",
        coloring := (pyDedup g.vertices).map fun v => (v, col v),
        chromatic_number := maxVals col g.vertices + 1,
        colors_used := (List.range (maxVals col g.vertices + 1).toNat).map Int.ofNat,
        success := true } := by
    rw [run_coloring, if_neg hne]
  refine ⟨_, hrun, ?_, ?_, ?_, ?_⟩
  · intro e he p hp q hq hps hqd
    simp only [List.mem_map] at hp hq
    obtain ⟨vp, hvp, rfl⟩ := hp
    obtain ⟨vq, hvq, rfl⟩ := hq
    simp only at hps hqd ⊢
    subst hps hqd
    exact hproper e he (hall e.src (hwf e he).1) (hall e.dst (hwf e he).2)
  · intro v hv
    exact ⟨col v, List.mem_map.mpr ⟨v, mem_pyDedup.mpr hv, rfl⟩⟩
  · refine ⟨(u0, col u0), List.mem_map.mpr ⟨u0, mem_pyDedup.mpr (hv0 ▸ hu0_mem), rfl⟩, ?_⟩
    simp only
    rw [hv0, ← hu0]
  · intro p hp
    simp only [List.mem_map] at hp
    obtain ⟨v, hv, rfl⟩ := hp
    simp only
    have : col v ≤ maxVals col g.vertices := by
      rw [hv0]
      exact hmax_le v (hv0 ▸ mem_pyDedup.mp hv)
    omega

/-- Witness for C5 on the path graph `0 - 1 - 2`. -/
theorem run_coloring_proper_witness :
    ((⟨[0, 1, 2], [PyEdge.e2 0 1, PyEdge.e2 1 2]⟩ : Graph).vertices ≠ [] ∧
      (∀ e ∈ (⟨[0, 1, 2], [PyEdge.e2 0 1, PyEdge.e2 1 2]⟩ : Graph).edges,
        e.src ∈ [0, 1, 2] ∧ e.dst ∈ [0, 1, 2]) ∧
      (∀ e ∈ (⟨[0, 1, 2], [PyEdge.e2 0 1, PyEdge.e2 1 2]⟩ : Graph).edges,
        e.src ≠ e.dst)) ∧
    ∃ r, run_coloring ⟨[0, 1, 2], [PyEdge.e2 0 1, PyEdge.e2 1 2]⟩ = .ok r ∧
      (∀ e ∈ (⟨[0, 1, 2], [PyEdge.e2 0 1, PyEdge.e2 1 2]⟩ : Graph).edges,
          ∀ p ∈ r.coloring, ∀ q ∈ r.coloring,
          p.1 = e.src → q.1 = e.dst → p.2 ≠ q.2) ∧
      (∀ v ∈ (⟨[0, 1, 2], [PyEdge.e2 0 1, PyEdge.e2 1 2]⟩ : Graph).vertices,
          ∃ c : ℤ, (v, c) ∈ r.coloring) ∧
      (∃ p ∈ r.coloring, r.chromatic_number = p.2 + 1) ∧
      (∀ p ∈ r.coloring, p.2 < r.chromatic_number) :=
  ⟨⟨by decide, by decide, by decide⟩,
    run_coloring_proper ⟨[0, 1, 2], [PyEdge.e2 0 1, PyEdge.e2 1 2]⟩
      (by decide) (by decide) (by decide)⟩

section TspLemmas

theorem walkSum_append_last (m : V → V → D) :
    ∀ (t : List V) (c x : V), t.getLast? = some c →
      walkSum m (t ++ [x]) = walkSum m t + m c x := by
  intro t
  induction t with
  | nil => intro c x h; cases h
  | cons a t ih =>
    intro c x h
    cases t with
    | nil =>
      cases h
      simp [walkSum]
    | cons b t2 =>
      have h2 : (b :: t2).getLast? = some c := by
        rw [List.getLast?_cons_cons] at h
        exact h
      show m a b + walkSum m ((b :: t2) ++ [x]) = m a b + walkSum m (b :: t2) + m c x
      rw [ih c x h2, add_assoc]

theorem scan_fold_spec (m : V → V → D) (cur : V) (visited : List V) :
    ∀ (l : List V) (acc : Option V × D),
      (l.foldl (fun acc v => if v ∉ visited ∧ m cur v < acc.2 then (some v, m cur v) else acc)
          acc = acc) ∨
      (∃ v ∈ l, v ∉ visited ∧
        l.foldl (fun acc v => if v ∉ visited ∧ m cur v < acc.2 then (some v, m cur v) else acc)
          acc = (some v, m cur v)) := by
  intro l
  induction l with
  | nil => intro acc; exact .inl rfl
  | cons a l ih =>
    intro acc
    simp only [List.foldl_cons]
    by_cases hc : a ∉ visited ∧ m cur a < acc.2
    · rw [if_pos hc]
      rcases ih (some a, m cur a) with h | ⟨v, hv, hnv, h⟩
      · exact .inr ⟨a, List.mem_cons_self a l, hc.1, h⟩
      · exact .inr ⟨v, List.mem_cons_of_mem _ hv, hnv, h⟩
    · rw [if_neg hc]
      rcases ih acc with h | ⟨v, hv, hnv, h⟩
      · exact .inl h
      · exact .inr ⟨v, List.mem_cons_of_mem _ hv, hnv, h⟩

theorem scanNearest_spec (m : V → V → D) (vs : List V) (cur : V) (visited : List V) :
    (scanNearest m vs cur visited).1 = none ∨
    ∃ v ∈ vs, v ∉ visited ∧ scanNearest m vs cur visited = (some v, m cur v) := by
  unfold scanNearest
  rcases scan_fold_spec m cur visited vs (none, ⊤) with h | ⟨v, hv, hnv, h⟩
  · rw [h]
    exact .inl rfl
  · exact .inr ⟨v, hv, hnv, h⟩

theorem nnLoop_spec (m : V → V → D) (vs : List V) :
    ∀ (fuel : ℕ) (st : TspState),
      st.visited = st.tour → st.tour.Nodup → (∀ x ∈ st.tour, x ∈ vs) →
      st.tour.getLast? = some st.current → st.total = walkSum m st.tour →
      (nnLoop m vs fuel st).visited = (nnLoop m vs fuel st).tour ∧
      (nnLoop m vs fuel st).tour.Nodup ∧
      (∀ x ∈ (nnLoop m vs fuel st).tour, x ∈ vs) ∧
      (nnLoop m vs fuel st).tour.getLast? = some (nnLoop m vs fuel st).current ∧
      (nnLoop m vs fuel st).total = walkSum m (nnLoop m vs fuel st).tour ∧
      ∃ ext, (nnLoop m vs fuel st).tour = st.tour ++ ext := by
  intro fuel
  induction fuel with
  | zero =>
    intro st h1 h2 h3 h4 h5
    exact ⟨h1, h2, h3, h4, h5, [], by simp [nnLoop]⟩
  | succ fuel ih =>
    intro st h1 h2 h3 h4 h5
    show (nnLoop m vs (fuel + 1) st).visited = _ ∧ _
    rw [nnLoop]
    by_cases hguard : st.visited.length < vs.length
    · rw [if_pos hguard]
      rcases scanNearest_spec m vs st.current st.visited with hnone |
        ⟨v, hv, hnv, heq⟩
      · cases hscan : scanNearest m vs st.current st.visited with
        | mk o d =>
          rw [hscan] at hnone
          simp only at hnone
          subst hnone
          exact ⟨h1, h2, h3, h4, h5, [], by simp⟩
      · rw [heq]
        have hnvt : v ∉ st.tour := h1 ▸ hnv
        have h1' : st.visited ++ [v] = st.tour ++ [v] := by rw [h1]
        have h2' : (st.tour ++ [v]).Nodup := by
          simp [List.nodup_append, h2, hnvt]
        have h3' : ∀ x ∈ st.tour ++ [v], x ∈ vs := by
          intro x hx
          rcases List.mem_append.mp hx with hx | hx
          · exact h3 x hx
          · rcases List.mem_singleton.mp hx with rfl
            exact hv
        have h4' : (st.tour ++ [v]).getLast? = some v := by
          simp [List.getLast?_append]
        have h5' : st.total + m st.current v = walkSum m (st.tour ++ [v]) := by
          rw [h5, walkSum_append_last m st.tour st.current v h4]
        obtain ⟨c1, c2, c3, c4, c5, ext, c6⟩ :=
          ih ⟨st.tour ++ [v], st.visited ++ [v], v, st.total + m st.current v⟩
            h1' h2' h3' h4' h5'
        exact ⟨c1, c2, c3, c4, c5, [v] ++ ext, by simpa using c6⟩
    · rw [if_neg hguard]
      exact ⟨h1, h2, h3, h4, h5, [], by simp⟩

end TspLemmas

/-- Claim C8: for every non-empty graph (with its vertex list a set, as the
data model prescribes), `run_tsp` starts the nearest-neighbor tour at the
first vertex of the vertex list; when the tour reached every vertex it is
closed by returning to the start (one extra tour entry equal to the start,
making the length `|vertices| + 1`), and otherwise it terminates early
without a closing edge and misses some vertex; in both cases
`total_distance` is the summed matrix weight of the consecutive tour steps
(so the closing edge is counted exactly when the tour closed), rounded to
two decimals. -/
theorem run_tsp_spec (g : Graph) (v0 : V) (vt : List V) (hv : g.vertices = v0 :: vt)
    (hnd : g.vertices.Nodup) :
    ∃ r, run_tsp g = .ok r ∧
      r.tour.head? = some v0 ∧
      r.total_distance = round2D (walkSum (wMatrix g) r.tour) ∧
      r.vertices_visited = r.tour.length - 1 ∧
      ((∀ v ∈ g.vertices, v ∈ r.tour) ∧ r.tour.length = g.vertices.length + 1 ∧
          r.tour.getLast? = some v0 ∨
        r.tour.Nodup ∧ r.tour.length < g.vertices.length ∧
          ∃ v ∈ g.vertices, v ∉ r.tour) := by
  rcases g with ⟨vs, E⟩
  have hvs : vs = v0 :: vt := hv
  subst hvs
  set g : Graph := ⟨v0 :: vt, E⟩ with hg
  obtain ⟨c1, c2, c3, c4, c5, ext, c6⟩ :=
    nnLoop_spec (wMatrix g) g.vertices g.vertices.length
      ⟨[v0], [v0], v0, 0⟩ rfl (by simp) (by simp [hv]) (by simp) (by simp [walkSum])
  set stf := nnLoop (wMatrix g) g.vertices g.vertices.length ⟨[v0], [v0], v0, 0⟩ with hstf
  have hhead : stf.tour.head? = some v0 := by
    rw [c6]
    simp
  have htourlen : stf.tour.length ≤ g.vertices.length := by
    have hsub : stf.tour.toFinset ⊆ g.vertices.toFinset := fun x hx =>
      List.mem_toFinset.mpr (c3 x (List.mem_toFinset.mp hx))
    calc stf.tour.length = stf.tour.toFinset.card := (List.toFinset_card_of_nodup c2).symm
      _ ≤ g.vertices.toFinset.card := Finset.card_le_card hsub
      _ ≤ g.vertices.length := List.toFinset_card_le _
  have hrun : run_tsp g = .ok
      { algorithm := "TSP (Nearest Neighbor)",
        tour := if stf.tour.length = g.vertices.length then stf.tour ++ [v0] else stf.tour,
        total_distance := round2D (if stf.tour.length = g.vertices.length then
          stf.total + wMatrix g stf.current v0 else stf.total),
        vertices_visited := (if stf.tour.length = g.vertices.length then
          stf.tour ++ [v0] else stf.tour).length - 1,
        success := true } := rfl
  by_cases hfull : stf.tour.length = g.vertices.length
  · refine ⟨_, hrun, ?_, ?_, ?_, ?_⟩
    · simp only [if_pos hfull]
      cases htt : stf.tour with
      | nil => rw [htt] at hhead; cases hhead
      | cons a t => rw [htt] at hhead; simpa using hhead
    · simp only [if_pos hfull]
      rw [walkSum_append_last (wMatrix g) stf.tour stf.current v0 c4, c5]
    · simp only [if_pos hfull]
    · left
      refine ⟨?_, ?_, ?_⟩
      · intro v hvv
        simp only [if_pos hfull]
        have hfin : stf.tour.toFinset = (v0 :: vt).toFinset := by
          apply Finset.eq_of_subset_of_card_le
          · intro x hx
            exact List.mem_toFinset.mpr (c3 x (List.mem_toFinset.mp hx))
          · rw [List.toFinset_card_of_nodup c2, List.toFinset_card_of_nodup hnd, hfull]
        have hvt : v ∈ stf.tour := by
          have hm := List.mem_toFinset.mpr hvv
          rw [← hfin] at hm
          exact List.mem_toFinset.mp hm
        exact List.mem_append.mpr (.inl hvt)
      · rw [if_pos hfull]
        simp [hfull]
      · rw [if_pos hfull]
        simp [List.getLast?_append]
  · refine ⟨_, hrun, ?_, ?_, ?_, ?_⟩
    · simp only [if_neg hfull]
      exact hhead
    · simp only [if_neg hfull]
      rw [c5]
    · simp only [if_neg hfull]
    · right
      refine ⟨by simp only [if_neg hfull]; exact c2, ?_, ?_⟩
      · simp only [if_neg hfull]
        have hlenv : g.vertices.length = (v0 :: vt).length := rfl
        omega
      · simp only [if_neg hfull]
        by_contra hcon
        push_neg at hcon
        have hsub : g.vertices.toFinset ⊆ stf.tour.toFinset := fun x hx =>
          List.mem_toFinset.mpr (hcon x (List.mem_toFinset.mp hx))
        have : g.vertices.length ≤ stf.tour.length := by
          calc g.vertices.length = g.vertices.toFinset.card :=
              (List.toFinset_card_of_nodup hnd).symm
            _ ≤ stf.tour.toFinset.card := Finset.card_le_card hsub
            _ ≤ stf.tour.length := List.toFinset_card_le _
        omega

/-- Witness for C8 on the path graph `0 - 1 - 2` (the closing edge `2 - 0`
is absent, so the closed tour carries an infinite total distance, exactly as
the code computes). -/
theorem run_tsp_spec_witness :
    ((⟨[0, 1, 2], [PyEdge.e2 0 1, PyEdge.e2 1 2]⟩ : Graph).vertices = 0 :: [1, 2] ∧
      (⟨[0, 1, 2], [PyEdge.e2 0 1, PyEdge.e2 1 2]⟩ : Graph).vertices.Nodup) ∧
    ∃ r, run_tsp ⟨[0, 1, 2], [PyEdge.e2 0 1, PyEdge.e2 1 2]⟩ = .ok r ∧
      r.tour.head? = some 0 ∧
      r.total_distance =
        round2D (walkSum (wMatrix ⟨[0, 1, 2], [PyEdge.e2 0 1, PyEdge.e2 1 2]⟩) r.tour) ∧
      r.vertices_visited = r.tour.length - 1 ∧
      ((∀ v ∈ (⟨[0, 1, 2], [PyEdge.e2 0 1, PyEdge.e2 1 2]⟩ : Graph).vertices, v ∈ r.tour) ∧
          r.tour.length = (⟨[0, 1, 2], [PyEdge.e2 0 1, PyEdge.e2 1 2]⟩ : Graph).vertices.length + 1 ∧
          r.tour.getLast? = some 0 ∨
        r.tour.Nodup ∧
          r.tour.length < (⟨[0, 1, 2], [PyEdge.e2 0 1, PyEdge.e2 1 2]⟩ : Graph).vertices.length ∧
          ∃ v ∈ (⟨[0, 1, 2], [PyEdge.e2 0 1, PyEdge.e2 1 2]⟩ : Graph).vertices, v ∉ r.tour) :=
  ⟨⟨rfl, by decide⟩,
    run_tsp_spec ⟨[0, 1, 2], [PyEdge.e2 0 1, PyEdge.e2 1 2]⟩ 0 [1, 2] rfl (by decide)⟩

section HotelLemmas

theorem adjListStep_endpoints (a : V → List V) {e e' : PyEdge}
    (hs : e.src = e'.src) (hd : e.dst = e'.dst) :
    adjListStep a e = adjListStep a e' := by
  unfold adjListStep
  rw [hs, hd]

theorem adjList_eq_of_endpoints {g1 g2 : Graph}
    (h : List.Forall₂ (fun e e' => e.src = e'.src ∧ e.dst = e'.dst) g1.edges g2.edges) :
    adjList g1 = adjList g2 := by
  unfold adjList
  have key : ∀ (l1 l2 : List PyEdge),
      List.Forall₂ (fun e e' => e.src = e'.src ∧ e.dst = e'.dst) l1 l2 →
      ∀ a : V → List V, l1.foldl adjListStep a = l2.foldl adjListStep a := by
    intro l1 l2 hf
    induction hf with
    | nil => intro a; rfl
    | cons he hf ih =>
      intro a
      simp only [List.foldl_cons]
      rw [adjListStep_endpoints a he.1 he.2]
      exact ih _
  exact key _ _ h _

theorem selectCenters_head (bfsd : V → V → WithTop ℕ) (vs : List V) :
    ∀ (n : ℕ) (c0 : V) (cs0 : List V),
      ∃ tl, selectCenters bfsd vs n (c0 :: cs0) = c0 :: tl := by
  intro n
  induction n with
  | zero => intro c0 cs0; exact ⟨cs0, rfl⟩
  | succ n ih =>
    intro c0 cs0
    rw [selectCenters]
    cases scanFarthest bfsd (c0 :: cs0) vs with
    | none => exact ih c0 cs0
    | some fm => exact ih c0 (cs0 ++ [fm.1])

theorem firstArgmin_cons (key : V → WithTop ℕ) (c0 x : V) (cs : List V) :
    firstArgmin key (c0 :: x :: cs) =
      firstArgmin key ((if key x < key c0 then x else c0) :: cs) := by
  simp only [firstArgmin, List.foldl_cons]

theorem firstArgmin_init (key : V → WithTop ℕ) :
    ∀ (cs : List V) (c0 : V), (∀ x ∈ cs, ¬ key x < key c0) →
      firstArgmin key (c0 :: cs) = c0 := by
  intro cs
  induction cs with
  | nil => intro c0 h; rfl
  | cons x cs ih =>
    intro c0 h
    rw [firstArgmin_cons]
    rw [if_neg (h x (List.mem_cons_self x cs))]
    exact ih c0 fun y hy => h y (List.mem_cons_of_mem _ hy)

theorem firstArgmin_spec (key : V → WithTop ℕ) :
    ∀ (cs : List V) (c0 : V),
      firstArgmin key (c0 :: cs) ∈ c0 :: cs ∧
      (∀ x ∈ c0 :: cs, key (firstArgmin key (c0 :: cs)) ≤ key x) ∧
      ∃ pre post, c0 :: cs = pre ++ firstArgmin key (c0 :: cs) :: post ∧
        ∀ x ∈ pre, key (firstArgmin key (c0 :: cs)) < key x := by
  intro cs
  induction cs with
  | nil =>
    intro c0
    refine ⟨List.mem_singleton_self c0, ?_, [], [], rfl, by simp⟩
    intro x hx
    rcases List.mem_singleton.mp hx with rfl
    exact le_refl _
  | cons x cs ih =>
    intro c0
    by_cases hx : key x < key c0
    · have hre : firstArgmin key (c0 :: x :: cs) = firstArgmin key (x :: cs) := by
        rw [firstArgmin_cons, if_pos hx]
      obtain ⟨m1, m2, pre, post, heq, hpre⟩ := ih x
      rw [hre]
      refine ⟨List.mem_cons_of_mem _ m1, ?_, c0 :: pre, post, by rw [List.cons_append, ← heq], ?_⟩
      · intro y hy
        rcases List.mem_cons.mp hy with rfl | hy
        · exact le_of_lt (lt_of_le_of_lt (m2 x (List.mem_cons_self x cs)) hx)
        · exact m2 y hy
      · intro y hy
        rcases List.mem_cons.mp hy with rfl | hy
        · exact lt_of_le_of_lt (m2 x (List.mem_cons_self x cs)) hx
        · exact hpre y hy
    · have hre : firstArgmin key (c0 :: x :: cs) = firstArgmin key (c0 :: cs) := by
        rw [firstArgmin_cons, if_neg hx]
      obtain ⟨m1, m2, pre, post, heq, hpre⟩ := ih c0
      rw [hre]
      have hc0x : key c0 ≤ key x := not_lt.mp hx
      refine ⟨?_, ?_, ?_⟩
      · rcases List.mem_cons.mp m1 with h | h
        · rw [h]; exact List.mem_cons_self _ _
        · exact List.mem_cons_of_mem _ (List.mem_cons_of_mem _ h)
      · intro y hy
        rcases List.mem_cons.mp hy with rfl | hy
        · exact m2 y (List.mem_cons_self _ _)
        · rcases List.mem_cons.mp hy with rfl | hy
          · exact le_trans (m2 c0 (List.mem_cons_self _ _)) hc0x
          · exact m2 y (List.mem_cons_of_mem _ hy)
      · cases pre with
        | nil =>
          have h1 : c0 = firstArgmin key (c0 :: cs) := (List.cons.injEq _ _ _ _).mp heq |>.1
          refine ⟨[], x :: cs, ?_, by simp⟩
          rw [← h1]
          simp
        | cons c1 pre2 =>
          have h1 : c1 = c0 ∧ cs = pre2 ++ firstArgmin key (c0 :: cs) :: post := by
            have := (List.cons.injEq _ _ _ _).mp heq
            exact ⟨this.1.symm, this.2⟩
          refine ⟨c0 :: x :: pre2, post, ?_, ?_⟩
          · show c0 :: x :: cs =
              c0 :: x :: (pre2 ++ firstArgmin key (c0 :: cs) :: post)
            rw [← h1.2]
          · intro y hy
            have hc0 : key (firstArgmin key (c0 :: cs)) < key c0 := by
              have := hpre c1 (List.mem_cons_self _ _)
              rw [h1.1] at this
              exact this
            rcases List.mem_cons.mp hy with rfl | hy
            · exact hc0
            · rcases List.mem_cons.mp hy with rfl | hy
              · exact lt_of_lt_of_le hc0 hc0x
              · exact hpre y (List.mem_cons_of_mem _ hy)

end HotelLemmas

/-- Claim C9: `run_hotel_optimization` measures every distance with
unweighted BFS — changing edge weights (keeping endpoints) leaves the whole
result unchanged — assigns every vertex to its nearest chosen center with
ties broken by center iteration order (the assigned center is the first one
attaining the minimal BFS distance), and `max_distance` is the largest
assignment distance; when some vertex reaches no center, `max_distance` is
`inf`. -/
theorem run_hotel_spec (g : Graph) (v0 : V) (vt : List V)
    (hv : g.vertices = v0 :: vt)
    (hwf : ∀ e ∈ g.edges, e.src ∈ g.vertices ∧ e.dst ∈ g.vertices) :
    (∀ g2 : Graph, g2.vertices = g.vertices →
        List.Forall₂ (fun e e' => e.src = e'.src ∧ e.dst = e'.dst) g.edges g2.edges →
        run_hotel_optimization g2 = run_hotel_optimization g) ∧
    ∃ r, run_hotel_optimization g = .ok r ∧
      (∀ v ∈ g.vertices, ∃ c, (v, c) ∈ r.assignment) ∧
      (∀ p ∈ r.assignment, p.1 ∈ g.vertices ∧ p.2 ∈ r.centers ∧
        (∀ c ∈ r.centers,
          bfs_distance (adjList g) (2 * g.edges.length + 2) p.1 p.2 ≤
            bfs_distance (adjList g) (2 * g.edges.length + 2) p.1 c) ∧
        (∃ pre post, r.centers = pre ++ p.2 :: post ∧
          ∀ c ∈ pre,
            bfs_distance (adjList g) (2 * g.edges.length + 2) p.1 p.2 <
              bfs_distance (adjList g) (2 * g.edges.length + 2) p.1 c)) ∧
      (∀ p ∈ r.assignment,
        bfs_distance (adjList g) (2 * g.edges.length + 2) p.1 p.2 ≤ r.max_distance) ∧
      (∃ p ∈ r.assignment,
        bfs_distance (adjList g) (2 * g.edges.length + 2) p.1 p.2 = r.max_distance) ∧
      (∀ v ∈ g.vertices,
        (∀ c ∈ r.centers, bfs_distance (adjList g) (2 * g.edges.length + 2) v c = ⊤) →
        r.max_distance = ⊤) := by
  constructor
  · intro g2 hv2 hf
    exact run_hotel_congr hv2 (adjList_eq_of_endpoints hf).symm
      (List.Forall₂.length_eq hf).symm
  rcases g with ⟨vs, E⟩
  have hvs : vs = v0 :: vt := hv
  subst hvs
  set g : Graph := ⟨v0 :: vt, E⟩ with hg
  set bfsd : V → V → WithTop ℕ :=
    fun s t => bfs_distance (adjList g) (2 * g.edges.length + 2) s t with hbfsd
  have hb : ∀ s t : V,
      bfs_distance (adjList g) (2 * g.edges.length + 2) s t = bfsd s t :=
    fun s t => rfl
  set cnt : ℕ :=
    min (max 1 (g.vertices.length / 3 + 1) - 1) (g.vertices.length - 1) with hcnt
  set centers : List V := selectCenters bfsd g.vertices cnt [v0] with hcen
  set assign : V → V := fun v => firstArgmin (fun c => bfsd v c) centers with hassign
  set maxd : WithTop ℕ :=
    g.vertices.foldl (fun m v => max m (bfsd v (assign v))) 0 with hmaxd
  obtain ⟨ctl, hctl⟩ := selectCenters_head bfsd g.vertices cnt v0 []
  rw [← hcen] at hctl
  have hrun : run_hotel_optimization g = .ok
      { algorithm := "Hotel Optimization (K-Centers)",
        centers := centers,
        num_centers := centers.length,
        assignment := (pyDedup g.vertices).map fun v => (v, assign v),
        max_distance := maxd,
        success := true } := rfl
  have hassign_mem : ∀ v : V, assign v ∈ centers := by
    intro v
    rw [hassign, hctl]
    exact (firstArgmin_spec (fun c => bfsd v c) ctl v0).1
  have hassign_min : ∀ v : V, ∀ c ∈ centers, bfsd v (assign v) ≤ bfsd v c := by
    intro v
    rw [hassign, hctl]
    exact (firstArgmin_spec (fun c => bfsd v c) ctl v0).2.1
  have hassign_first : ∀ v : V, ∃ pre post, centers = pre ++ assign v :: post ∧
      ∀ c ∈ pre, bfsd v (assign v) < bfsd v c := by
    intro v
    rw [hassign, hctl]
    exact (firstArgmin_spec (fun c => bfsd v c) ctl v0).2.2
  obtain ⟨hm1, hm2, hm3⟩ :=
    foldl_max_spec (fun v => bfsd v (assign v)) g.vertices 0
  rw [← hmaxd] at hm1 hm2 hm3
  have hassign_v0 : assign v0 = v0 := by
    rw [hassign, hctl]
    apply firstArgmin_init
    intro x hx
    have h0 : bfsd v0 v0 = 0 := by
      rw [hbfsd]
      simp [bfs_distance]
    rw [h0]
    simp
  refine ⟨_, hrun, ?_, ?_, ?_, ?_, ?_⟩
  · intro v hvv
    exact ⟨assign v, List.mem_map.mpr ⟨v, mem_pyDedup.mpr hvv, rfl⟩⟩
  · intro p hp
    simp only [List.mem_map] at hp
    obtain ⟨v, hvd, rfl⟩ := hp
    simp only [hb]
    exact ⟨mem_pyDedup.mp hvd, hassign_mem v, hassign_min v, hassign_first v⟩
  · intro p hp
    simp only [List.mem_map] at hp
    obtain ⟨v, hvd, rfl⟩ := hp
    simp only [hb]
    exact hm2 v (mem_pyDedup.mp hvd)
  · rcases hm3 with h0 | ⟨v, hvv, hveq⟩
    · refine ⟨(v0, assign v0), List.mem_map.mpr
        ⟨v0, mem_pyDedup.mpr (List.mem_cons_self _ _), rfl⟩, ?_⟩
      simp only [hb, hassign_v0]
      rw [h0]
      rw [hbfsd]
      simp [bfs_distance]
    · exact ⟨(v, assign v), List.mem_map.mpr ⟨v, mem_pyDedup.mpr hvv, rfl⟩,
        by simp only [hb]; exact hveq⟩
  · intro v hvv hall
    have h1 : bfsd v (assign v) = ⊤ := by
      rw [← hb]
      exact hall (assign v) (hassign_mem v)
    have h2 := hm2 v hvv
    rw [h1] at h2
    exact top_le_iff.mp h2

/-- Witness for C9 on the path graph `0 - 1 - 2 - 3`. -/
theorem run_hotel_spec_witness :
    ((⟨[0, 1, 2, 3], [PyEdge.e2 0 1, PyEdge.e2 1 2, PyEdge.e2 2 3]⟩ : Graph).vertices =
        0 :: [1, 2, 3] ∧
      (∀ e ∈ (⟨[0, 1, 2, 3], [PyEdge.e2 0 1, PyEdge.e2 1 2, PyEdge.e2 2 3]⟩ : Graph).edges,
        e.src ∈ [0, 1, 2, 3] ∧ e.dst ∈ [0, 1, 2, 3])) ∧
    ∃ r, run_hotel_optimization
        ⟨[0, 1, 2, 3], [PyEdge.e2 0 1, PyEdge.e2 1 2, PyEdge.e2 2 3]⟩ = .ok r ∧
      (∀ v ∈ (⟨[0, 1, 2, 3], [PyEdge.e2 0 1, PyEdge.e2 1 2, PyEdge.e2 2 3]⟩ : Graph).vertices,
        ∃ c, (v, c) ∈ r.assignment) :=
  ⟨⟨rfl, by decide⟩, by
    obtain ⟨-, r, hr, hcov, -⟩ :=
      run_hotel_spec ⟨[0, 1, 2, 3], [PyEdge.e2 0 1, PyEdge.e2 1 2, PyEdge.e2 2 3]⟩
        0 [1, 2, 3] rfl (by decide)
    exact ⟨r, hr, hcov⟩⟩

/-- Claim C10: every successful `run_dijkstra` result keys its `distances`
and `parent` dicts by the decimal string form `str(v)` of each vertex — so
the key lists are exactly the stringified vertex list and hold no integer
keys — while the parent values (type `Int` here, `-1` or a vertex) and the
`start` field stay integers, as the embedded result type records. -/
theorem run_dijkstra_string_keys (g : Graph) (s0 : V) (r : DijkstraResult)
    (h : run_dijkstra g s0 = .ok r) :
    r.distances.map Prod.fst = (pyDedup g.vertices).map (fun v => toString v) ∧
    r.parent.map Prod.fst = (pyDedup g.vertices).map (fun v => toString v) ∧
    r.start = resolveStart g.vertices s0 ∧
    r.success = true := by
  unfold run_dijkstra at h
  cases hf : dijkstraFinal g s0 with
  | error e =>
    rw [hf] at h
    cases h
  | ok st =>
    rw [hf] at h
    have hr : r =
        { algorithm := "Dijkstra",
          distances := (pyDedup g.vertices).map (fun v => (toString v, st.dist v)),
          parent := (pyDedup g.vertices).map (fun v => (toString v, st.par v)),
          start := resolveStart g.vertices s0,
          success := true } := by
      cases h
      rfl
    subst hr
    refine ⟨?_, ?_, rfl, rfl⟩ <;> simp [List.map_map, Function.comp]

/-- Witness for C10 on the one-vertex graph. -/
theorem run_dijkstra_string_keys_witness :
    run_dijkstra ⟨[0], []⟩ 0 = .ok
      ({ algorithm := "Dijkstra",
         distances := [("0", (0 : D))],
         parent := [("0", (-1 : Int))],
         start := 0,
         success := true } : DijkstraResult) ∧
    ([("0", (0 : D))] : List (String × D)).map Prod.fst =
      (pyDedup [0]).map (fun v => toString v) :=
  ⟨by decide,
   (run_dijkstra_string_keys ⟨[0], []⟩ 0
      ({ algorithm := "Dijkstra",
         distances := [("0", (0 : D))],
         parent := [("0", (-1 : Int))],
         start := 0,
         success := true } : DijkstraResult) (by decide)).1⟩

section SortLemmas

theorem insertSorted_perm {α : Type} (le : α → α → Bool) (x : α) :
    ∀ l : List α, (insertSorted le x l).Perm (x :: l) := by
  intro l
  induction l with
  | nil => exact List.Perm.refl _
  | cons y ys ih =>
    unfold insertSorted
    by_cases h : le x y
    · rw [if_pos h]
    · rw [if_neg h]
      exact (List.Perm.cons y ih).trans (List.Perm.swap x y ys)

theorem sortBy_perm {α : Type} (le : α → α → Bool) :
    ∀ l : List α, (sortBy le l).Perm l := by
  intro l
  induction l with
  | nil => exact List.Perm.refl _
  | cons x xs ih =>
    unfold sortBy
    exact (insertSorted_perm le x (sortBy le xs)).trans (List.Perm.cons x ih)

theorem insertSorted_nat_sorted (x : ℕ) :
    ∀ l : List ℕ, l.Sorted (· ≤ ·) →
      (insertSorted (fun a b => decide (a ≤ b)) x l).Sorted (· ≤ ·) := by
  intro l
  induction l with
  | nil => intro h; simp [insertSorted]
  | cons y ys ih =>
    intro h
    rw [List.sorted_cons] at h
    unfold insertSorted
    by_cases hxy : x ≤ y
    · rw [if_pos (by simpa using hxy)]
      rw [List.sorted_cons]
      refine ⟨?_, List.sorted_cons.mpr h⟩
      intro b hb
      rcases List.mem_cons.mp hb with rfl | hb
      · exact hxy
      · exact le_trans hxy (h.1 b hb)
    · rw [if_neg (by simpa using hxy)]
      rw [List.sorted_cons]
      refine ⟨?_, ih h.2⟩
      intro b hb
      have hb2 := (insertSorted_perm (fun a b => decide (a ≤ b)) x ys).mem_iff.mp hb
      rcases List.mem_cons.mp hb2 with rfl | hb2
      · exact le_of_not_le hxy
      · exact h.1 b hb2

theorem sortBy_nat_sorted :
    ∀ l : List ℕ, (sortBy (fun a b => decide (a ≤ b)) l).Sorted (· ≤ ·) := by
  intro l
  induction l with
  | nil => simp [sortBy]
  | cons x xs ih =>
    unfold sortBy
    exact insertSorted_nat_sorted x _ ih

end SortLemmas

section DfsLemmas

theorem nodup_length_le_dedup (l B : List V) (hnd : l.Nodup)
    (hsub : ∀ x ∈ l, x ∈ B) : l.length ≤ B.dedup.length := by
  have h1 : l.toFinset ⊆ B.toFinset := fun x hx =>
    List.mem_toFinset.mpr (hsub x (List.mem_toFinset.mp hx))
  calc l.length = l.toFinset.card := (List.toFinset_card_of_nodup hnd).symm
    _ ≤ B.toFinset.card := Finset.card_le_card h1
    _ = B.dedup.length := List.card_toFinset B

theorem dfs_spec (adj : V → List V) (B : List V)
    (hadjB : ∀ x y, y ∈ adj x → y ∈ B) :
    ∀ (fuel : ℕ) (v : V) (vis comp : List V),
      v ∈ B → v ∉ vis → vis.Nodup → (∀ x ∈ vis, x ∈ B) →
      B.dedup.length + 1 ≤ fuel + vis.length →
      ∃ news, (dfs adj fuel v (vis, comp)).1 = vis ++ news ∧
        (dfs adj fuel v (vis, comp)).2 = comp ++ news ∧
        v ∈ news ∧ news.Nodup ∧ (∀ x ∈ news, x ∉ vis) ∧
        (∀ x ∈ news, x ∈ B) ∧
        (∀ x ∈ news, ∀ y ∈ adj x, y ∈ vis ++ news) ∧
        (∀ x ∈ news, ConnAdj adj v x) := by
  intro fuel
  induction fuel with
  | zero =>
    intro v vis comp hvB hvnv hnd hvisB hfuel
    exfalso
    have := nodup_length_le_dedup vis B hnd hvisB
    omega
  | succ fuel ih =>
    intro v vis comp hvB hvnv hnd hvisB hfuel
    have haux : ∀ (ns : List V), (∀ y ∈ ns, y ∈ B) →
        ∀ (vis1 comp1 : List V), vis1.Nodup → (∀ x ∈ vis1, x ∈ B) →
        B.dedup.length + 1 ≤ fuel + vis1.length →
        ∃ ext,
          ns.foldl (fun s u => if u ∈ s.1 then s else dfs adj fuel u s) (vis1, comp1) =
            (vis1 ++ ext, comp1 ++ ext) ∧
          ext.Nodup ∧ (∀ x ∈ ext, x ∉ vis1) ∧ (∀ x ∈ ext, x ∈ B) ∧
          (∀ x ∈ ext, ∀ y ∈ adj x, y ∈ vis1 ++ ext) ∧
          (∀ x ∈ ext, ∃ y ∈ ns, ConnAdj adj y x) ∧
          (∀ y ∈ ns, y ∈ vis1 ++ ext) := by
      intro ns
      induction ns with
      | nil =>
        intro hnsB vis1 comp1 h1 h2 h3
        exact ⟨[], by simp, by simp, by simp, by simp, by simp, by simp, by simp⟩
      | cons u ns ihn =>
        intro hnsB vis1 comp1 h1 h2 h3
        simp only [List.foldl_cons]
        by_cases hu : u ∈ vis1
        · rw [if_pos hu]
          obtain ⟨ext, e1, e2, e3, e4, e5, e6, e7⟩ :=
            ihn (fun y hy => hnsB y (List.mem_cons_of_mem _ hy)) vis1 comp1 h1 h2 h3
          refine ⟨ext, e1, e2, e3, e4, e5, ?_, ?_⟩
          · intro x hx
            obtain ⟨y, hy, hc⟩ := e6 x hx
            exact ⟨y, List.mem_cons_of_mem _ hy, hc⟩
          · intro y hy
            rcases List.mem_cons.mp hy with rfl | hy
            · exact List.mem_append.mpr (.inl hu)
            · exact e7 y hy
        · rw [if_neg hu]
          obtain ⟨news, d1, d2, d3, d4, d5, d6, d7, d8⟩ :=
            ih u vis1 comp1 (hnsB u (List.mem_cons_self _ _)) hu h1 h2 (by omega)
          have hvis1' : (vis1 ++ news).Nodup := by
            rw [List.nodup_append]
            exact ⟨h1, d4, fun a ha hb => (d5 a hb) ha⟩
          have hvisB' : ∀ x ∈ vis1 ++ news, x ∈ B := by
            intro x hx
            rcases List.mem_append.mp hx with hx | hx
            · exact h2 x hx
            · exact d6 x hx
          have hlen' : B.dedup.length + 1 ≤ fuel + (vis1 ++ news).length := by
            have : vis1.length ≤ (vis1 ++ news).length := by
              simp
            omega
          have hstep : dfs adj fuel u (vis1, comp1) = (vis1 ++ news, comp1 ++ news) := by
            cases hd : dfs adj fuel u (vis1, comp1) with
            | mk a b =>
              rw [hd] at d1 d2
              simp only at d1 d2
              rw [d1, d2]
          rw [hstep]
          obtain ⟨ext, e1, e2, e3, e4, e5, e6, e7⟩ :=
            ihn (fun y hy => hnsB y (List.mem_cons_of_mem _ hy))
              (vis1 ++ news) (comp1 ++ news) hvis1' hvisB' hlen'
          refine ⟨news ++ ext, ?_, ?_, ?_, ?_, ?_, ?_, ?_⟩
          · rw [e1, List.append_assoc, List.append_assoc]
          · rw [List.nodup_append]
            refine ⟨d4, e2, fun a ha hb => ?_⟩
            exact (e3 a hb) (List.mem_append.mpr (.inr ha))
          · intro x hx
            rcases List.mem_append.mp hx with hx | hx
            · exact d5 x hx
            · intro hcon
              exact (e3 x hx) (List.mem_append.mpr (.inl hcon))
          · intro x hx
            rcases List.mem_append.mp hx with hx | hx
            · exact d6 x hx
            · exact e4 x hx
          · intro x hx y hy
            rcases List.mem_append.mp hx with hx | hx
            · have hyd := d7 x hx y hy
              rcases List.mem_append.mp hyd with h | h
              · exact List.mem_append.mpr (.inl h)
              · exact List.mem_append.mpr (.inr (List.mem_append.mpr (.inl h)))
            · have hye := e5 x hx y hy
              rw [List.append_assoc] at hye
              exact hye
          · intro x hx
            rcases List.mem_append.mp hx with hx | hx
            · exact ⟨u, List.mem_cons_self _ _, d8 x hx⟩
            · obtain ⟨y, hy, hc⟩ := e6 x hx
              exact ⟨y, List.mem_cons_of_mem _ hy, hc⟩
          · intro y hy
            rcases List.mem_cons.mp hy with rfl | hy
            · exact List.mem_append.mpr (.inr (List.mem_append.mpr (.inl d3)))
            · have hye := e7 y hy
              rw [List.append_assoc] at hye
              exact hye
    have hadjv : ∀ y ∈ adj v, y ∈ B := fun y hy => hadjB v y hy
    have hnd1 : (vis ++ [v]).Nodup := by
      rw [List.nodup_append]
      refine ⟨hnd, List.nodup_singleton v, fun a ha hb => ?_⟩
      rcases List.mem_singleton.mp hb with rfl
      exact hvnv ha
    have hvisB1 : ∀ x ∈ vis ++ [v], x ∈ B := by
      intro x hx
      rcases List.mem_append.mp hx with hx | hx
      · exact hvisB x hx
      · rcases List.mem_singleton.mp hx with rfl
        exact hvB
    have hlen1 : B.dedup.length + 1 ≤ fuel + (vis ++ [v]).length := by
      simp only [List.length_append, List.length_singleton]
      omega
    obtain ⟨ext, e1, e2, e3, e4, e5, e6, e7⟩ :=
      haux (adj v) hadjv (vis ++ [v]) (comp ++ [v]) hnd1 hvisB1 hlen1
    have e1' : ((adj v).foldl (fun s u => if u ∈ s.1 then s else dfs adj fuel u s)
        (vis ++ [v], comp ++ [v])).1 = (vis ++ [v]) ++ ext := by rw [e1]
    have e2' : ((adj v).foldl (fun s u => if u ∈ s.1 then s else dfs adj fuel u s)
        (vis ++ [v], comp ++ [v])).2 = (comp ++ [v]) ++ ext := by rw [e1]
    refine ⟨[v] ++ ext, ?_, ?_, List.mem_append.mpr (.inl (List.mem_singleton_self v)),
      ?_, ?_, ?_, ?_, ?_⟩
    · show ((adj v).foldl (fun s u => if u ∈ s.1 then s else dfs adj fuel u s)
        (vis ++ [v], comp ++ [v])).1 = vis ++ ([v] ++ ext)
      rw [e1', List.append_assoc]
    · show ((adj v).foldl (fun s u => if u ∈ s.1 then s else dfs adj fuel u s)
        (vis ++ [v], comp ++ [v])).2 = comp ++ ([v] ++ ext)
      rw [e2', List.append_assoc]
    · show (v :: ext).Nodup
      rw [List.nodup_cons]
      refine ⟨fun hcon => ?_, e2⟩
      exact e3 v hcon (List.mem_append.mpr (.inr (List.mem_singleton_self v)))
    · intro x hx
      rcases List.mem_append.mp hx with hx | hx
      · rcases List.mem_singleton.mp hx with rfl
        exact hvnv
      · intro hcon
        exact e3 x hx (List.mem_append.mpr (.inl hcon))
    · intro x hx
      rcases List.mem_append.mp hx with hx | hx
      · rcases List.mem_singleton.mp hx with rfl
        exact hvB
      · exact e4 x hx
    · intro x hx y hy
      rcases List.mem_append.mp hx with hx | hx
      · rcases List.mem_singleton.mp hx with rfl
        have := e7 y hy
        rw [List.append_assoc] at this
        exact this
      · have := e5 x hx y hy
        rw [List.append_assoc] at this
        exact this
    · intro x hx
      rcases List.mem_append.mp hx with hx | hx
      · rcases List.mem_singleton.mp hx with rfl
        exact Relation.ReflTransGen.refl
      · obtain ⟨y, hy, hc⟩ := e6 x hx
        exact Relation.ReflTransGen.head hy hc

end DfsLemmas

section ConnFoldLemmas

theorem connFold_spec (adj : V → List V) (B : List V)
    (hadjB : ∀ x y, y ∈ adj x → y ∈ B)
    (hsym : ∀ x y, y ∈ adj x → x ∈ adj y) :
    ∀ (l : List V), (∀ y ∈ l, y ∈ B) →
      ∀ (vis : List V) (comps : List (List V)),
      vis.Nodup → (∀ x ∈ vis, x ∈ B) → comps.flatten.Perm vis →
      (∀ c ∈ comps, c ≠ [] ∧ c.Sorted (· ≤ ·) ∧
        (∀ x ∈ c, ∀ y ∈ adj x, y ∈ c) ∧ ∃ rt ∈ c, ∀ x ∈ c, ConnAdj adj rt x) →
      (l.foldl (connStep adj (B.length + 1)) (vis, comps)).1.Nodup ∧
      (∀ x ∈ (l.foldl (connStep adj (B.length + 1)) (vis, comps)).1, x ∈ B) ∧
      (l.foldl (connStep adj (B.length + 1)) (vis, comps)).2.flatten.Perm
        (l.foldl (connStep adj (B.length + 1)) (vis, comps)).1 ∧
      (∀ c ∈ (l.foldl (connStep adj (B.length + 1)) (vis, comps)).2, c ≠ [] ∧
        c.Sorted (· ≤ ·) ∧ (∀ x ∈ c, ∀ y ∈ adj x, y ∈ c) ∧
        ∃ rt ∈ c, ∀ x ∈ c, ConnAdj adj rt x) ∧
      (∀ y ∈ l, y ∈ (l.foldl (connStep adj (B.length + 1)) (vis, comps)).1) ∧
      (∀ x ∈ vis, x ∈ (l.foldl (connStep adj (B.length + 1)) (vis, comps)).1) ∧
      ∃ newcs, (l.foldl (connStep adj (B.length + 1)) (vis, comps)).2 =
        comps ++ newcs := by
  intro l
  induction l with
  | nil =>
    intro hlB vis comps h1 h2 h3 h4
    exact ⟨h1, h2, h3, h4, by simp, fun x hx => hx, [], by simp⟩
  | cons v l ihl =>
    intro hlB vis comps h1 h2 h3 h4
    simp only [List.foldl_cons]
    by_cases hv : v ∈ vis
    · rw [show connStep adj (B.length + 1) (vis, comps) v = (vis, comps) from
        if_pos hv]
      obtain ⟨c1, c2, c3, c4, c5, c6, c7⟩ :=
        ihl (fun y hy => hlB y (List.mem_cons_of_mem _ hy)) vis comps h1 h2 h3 h4
      refine ⟨c1, c2, c3, c4, ?_, c6, c7⟩
      intro y hy
      rcases List.mem_cons.mp hy with rfl | hy
      · exact c6 y hv
      · exact c5 y hy
    · have hfuel : B.dedup.length + 1 ≤ (B.length + 1) + vis.length := by
        have := (List.dedup_sublist B).length_le
        omega
      obtain ⟨news, d1, d2, d3, d4, d5, d6, d7, d8⟩ :=
        dfs_spec adj B hadjB (B.length + 1) v vis []
          (hlB v (List.mem_cons_self _ _)) hv h1 h2 hfuel
      have hstep : connStep adj (B.length + 1) (vis, comps) v =
          (vis ++ news, comps ++ [sortBy (fun a b => decide (a ≤ b)) news]) := by
        unfold connStep
        rw [if_neg hv]
        cases hd : dfs adj (B.length + 1) v (vis, []) with
        | mk a b =>
          rw [hd] at d1 d2
          simp only at d1 d2
          simp only [d1, d2]
          rw [List.nil_append]
      rw [hstep]
      set c0 : List V := sortBy (fun a b => decide (a ≤ b)) news with hc0
      have hperm0 : c0.Perm news := sortBy_perm _ news
      have hnd' : (vis ++ news).Nodup := by
        rw [List.nodup_append]
        exact ⟨h1, d4, fun a ha hb => (d5 a hb) ha⟩
      have hB' : ∀ x ∈ vis ++ news, x ∈ B := by
        intro x hx
        rcases List.mem_append.mp hx with hx | hx
        · exact h2 x hx
        · exact d6 x hx
      have hperm' : (comps ++ [c0]).flatten.Perm (vis ++ news) := by
        rw [List.flatten_append]
        have : ([c0] : List (List V)).flatten = c0 := by simp
        rw [this]
        exact h3.append hperm0
      have hcomps' : ∀ c ∈ comps ++ [c0], c ≠ [] ∧ c.Sorted (· ≤ ·) ∧
          (∀ x ∈ c, ∀ y ∈ adj x, y ∈ c) ∧ ∃ rt ∈ c, ∀ x ∈ c, ConnAdj adj rt x := by
        intro c hc
        rcases List.mem_append.mp hc with hc | hc
        · exact h4 c hc
        · rcases List.mem_singleton.mp hc with rfl
          refine ⟨?_, sortBy_nat_sorted news, ?_, ?_⟩
          · intro hcon
            have : news = [] := by
              have hl0 := hperm0.length_eq
              rw [hcon] at hl0
              exact List.eq_nil_of_length_eq_zero hl0.symm
            rw [this] at d3
            cases d3
          · intro x hx y hy
            have hxnews : x ∈ news := hperm0.mem_iff.mp hx
            have hyv : y ∈ vis ++ news := d7 x hxnews y hy
            rcases List.mem_append.mp hyv with hyv | hyv
            · exfalso
              have hyj : y ∈ List.flatten comps := h3.mem_iff.mpr hyv
              obtain ⟨c', hc', hyc'⟩ := List.mem_flatten.mp hyj
              have hxc' : x ∈ c' := (h4 c' hc').2.2.1 y hyc' x (hsym x y hy)
              have hxvis : x ∈ vis := h3.mem_iff.mp (List.mem_flatten.mpr ⟨c', hc', hxc'⟩)
              exact (d5 x hxnews) hxvis
            · exact hperm0.mem_iff.mpr hyv
          · refine ⟨v, hperm0.mem_iff.mpr d3, ?_⟩
            intro x hx
            exact d8 x (hperm0.mem_iff.mp hx)
      obtain ⟨c1, c2, c3, c4, c5, c6, c7⟩ :=
        ihl (fun y hy => hlB y (List.mem_cons_of_mem _ hy))
          (vis ++ news) (comps ++ [c0]) hnd' hB' hperm' hcomps'
      refine ⟨c1, c2, c3, c4, ?_, ?_, ?_⟩
      · intro y hy
        rcases List.mem_cons.mp hy with rfl | hy
        · exact c6 y (List.mem_append.mpr (.inr d3))
        · exact c5 y hy
      · intro x hx
        exact c6 x (List.mem_append.mpr (.inl hx))
      · obtain ⟨newcs, hnewcs⟩ := c7
        exact ⟨[c0] ++ newcs, by rw [hnewcs, List.append_assoc]⟩

end ConnFoldLemmas

/-- Claim C6: for every non-empty graph (edge endpoints in the vertex
list), the components returned by `run_connectivity` partition the vertex
set — their concatenation has no duplicates and holds exactly the members
of the vertex list — each component is a nonempty ascending-sorted list,
`num_components` counts the components, `is_connected` holds exactly when
one component is returned, and `largest_component_size` is the size of a
largest component. -/
theorem run_connectivity_partition (g : Graph) (hne : g.vertices ≠ [])
    (hwf : ∀ e ∈ g.edges, e.src ∈ g.vertices ∧ e.dst ∈ g.vertices) :
    ∃ r, run_connectivity g = .ok r ∧
      r.components.flatten.Nodup ∧
      (∀ v, v ∈ r.components.flatten ↔ v ∈ g.vertices) ∧
      (∀ c ∈ r.components, c ≠ [] ∧ c.Sorted (· ≤ ·)) ∧
      r.num_components = r.components.length ∧
      (r.is_connected = true ↔ r.components.length = 1) ∧
      (∀ c ∈ r.components, c.length ≤ r.largest_component_size) ∧
      (∃ c ∈ r.components, c.length = r.largest_component_size) := by
  have hadjB : ∀ x y, y ∈ adjList g x → y ∈ g.vertices := by
    intro x y hy
    rcases mem_adjList.mp hy with ⟨e, he, ⟨h1, h2⟩ | ⟨h1, h2⟩⟩
    · exact h2 ▸ (hwf e he).2
    · exact h1 ▸ (hwf e he).1
  have hsym : ∀ x y, y ∈ adjList g x → x ∈ adjList g y := by
    intro x y hy
    rcases mem_adjList.mp hy with ⟨e, he, ⟨h1, h2⟩ | ⟨h1, h2⟩⟩
    · exact mem_adjList.mpr ⟨e, he, .inr ⟨h1, h2⟩⟩
    · exact mem_adjList.mpr ⟨e, he, .inl ⟨h1, h2⟩⟩
  obtain ⟨c1, c2, c3, c4, c5, c6, c7⟩ :=
    connFold_spec (adjList g) g.vertices hadjB hsym g.vertices
      (fun y hy => hy) [] [] List.nodup_nil (by simp) (by simp) (by simp)
  set F := g.vertices.foldl (connStep (adjList g) (g.vertices.length + 1)) ([], [])
    with hF
  have hrun : run_connectivity g = .ok
      { algorithm := "Connectivity (DFS)",
        components := F.2,
        num_components := F.2.length,
        is_connected := decide (F.2.length = 1),
        largest_component_size := (F.2.map List.length).foldl max 0,
        success := true } := by
    rw [run_connectivity, if_neg hne]
  have hmem : ∀ v, v ∈ F.2.flatten ↔ v ∈ g.vertices := by
    intro v
    rw [c3.mem_iff]
    exact ⟨fun h => c2 v h, fun h => c5 v h⟩
  obtain ⟨v0, vt, hv0⟩ : ∃ v0 vt, g.vertices = v0 :: vt := by
    cases hvs : g.vertices with
    | nil => exact absurd hvs hne
    | cons a l => exact ⟨a, l, rfl⟩
  have hne2 : ∃ c ∈ F.2, True := by
    have hv0in : v0 ∈ F.2.flatten := (hmem v0).mpr (by rw [hv0]; exact List.mem_cons_self _ _)
    obtain ⟨c, hc, -⟩ := List.mem_flatten.mp hv0in
    exact ⟨c, hc, trivial⟩
  obtain ⟨hm1, hm2, hm3⟩ := foldl_max_spec (fun x : ℕ => x) (F.2.map List.length) 0
  have hupper : ∀ c ∈ F.2, c.length ≤ (F.2.map List.length).foldl max 0 := by
    intro c hc
    exact hm2 c.length (List.mem_map.mpr ⟨c, hc, rfl⟩)
  have hattain : ∃ c ∈ F.2, c.length = (F.2.map List.length).foldl max 0 := by
    rcases hm3 with h0 | ⟨u, hu, hueq⟩
    · obtain ⟨c, hc, -⟩ := hne2
      have h1 : c.length ≤ (F.2.map List.length).foldl max 0 := hupper c hc
      rw [h0] at h1
      have hcne : c ≠ [] := (c4 c hc).1
      exfalso
      have : c.length ≠ 0 := fun hcon => hcne (List.eq_nil_of_length_eq_zero hcon)
      omega
    · obtain ⟨c, hc, rfl⟩ := List.mem_map.mp hu
      exact ⟨c, hc, hueq⟩
  refine ⟨_, hrun, ?_, hmem, ?_, rfl, ?_, hupper, hattain⟩
  · exact (c3.nodup_iff).mpr c1
  · exact fun c hc => ⟨(c4 c hc).1, (c4 c hc).2.1⟩
  · simp

/-- Witness for C6 on the disconnected graph of the spec scenario:
vertices `{0, 1, 2, 3}` with the single edge `(0, 1, 1.0)`. -/
theorem run_connectivity_partition_witness :
    ((⟨[0, 1, 2, 3], [PyEdge.e3 0 1 1]⟩ : Graph).vertices ≠ [] ∧
      (∀ e ∈ (⟨[0, 1, 2, 3], [PyEdge.e3 0 1 1]⟩ : Graph).edges,
        e.src ∈ [0, 1, 2, 3] ∧ e.dst ∈ [0, 1, 2, 3])) ∧
    ∃ r, run_connectivity ⟨[0, 1, 2, 3], [PyEdge.e3 0 1 1]⟩ = .ok r ∧
      r.components.flatten.Nodup ∧
      (∀ v, v ∈ r.components.flatten ↔
        v ∈ (⟨[0, 1, 2, 3], [PyEdge.e3 0 1 1]⟩ : Graph).vertices) ∧
      (∀ c ∈ r.components, c ≠ [] ∧ c.Sorted (· ≤ ·)) ∧
      r.num_components = r.components.length ∧
      (r.is_connected = true ↔ r.components.length = 1) ∧
      (∀ c ∈ r.components, c.length ≤ r.largest_component_size) ∧
      (∃ c ∈ r.components, c.length = r.largest_component_size) :=
  ⟨⟨by decide, by decide⟩,
    run_connectivity_partition ⟨[0, 1, 2, 3], [PyEdge.e3 0 1 1]⟩
      (by decide) (by decide)⟩

section UnionFindLemmas

theorem rootD_fixed (par : V → V) (n : ℕ) {x : V} (h : par x = x) :
    rootD par n x = x := by
  cases n with
  | zero => rfl
  | succ n => simp [rootD, h]

theorem iterate_past_root (par : V → V) {x r : V} {k j : ℕ} (hkj : k ≤ j)
    (hk : par^[k] x = r) (hr : par r = r) : par^[j] x = r := by
  have h2 : par^[(j - k) + k] x = par^[j - k] (par^[k] x) :=
    Function.iterate_add_apply par (j - k) k x
  rw [Nat.sub_add_cancel hkj] at h2
  rw [h2, hk, Function.iterate_fixed hr]

theorem RootedAt.unique {par : V → V} {x r r' : V}
    (h1 : RootedAt par x r) (h2 : RootedAt par x r') : r = r' := by
  obtain ⟨⟨k, hk⟩, hr⟩ := h1
  obtain ⟨⟨j, hj⟩, hr'⟩ := h2
  rcases le_total k j with h | h
  · rw [← hj, iterate_past_root par h hk hr]
  · rw [← hk, iterate_past_root par h hj hr']

theorem RootedAt.self {par : V → V} {r : V} (h : par r = r) : RootedAt par r r :=
  ⟨⟨0, rfl⟩, h⟩

theorem RootedAt.of_step {par : V → V} {x r : V} (h : RootedAt par (par x) r) :
    RootedAt par x r := by
  obtain ⟨⟨k, hk⟩, hr⟩ := h
  exact ⟨⟨k + 1, by rw [Function.iterate_succ_apply]; exact hk⟩, hr⟩

theorem RootedAt.step {par : V → V} {x r : V} (hx : par x ≠ x)
    (h : RootedAt par x r) : RootedAt par (par x) r := by
  obtain ⟨⟨k, hk⟩, hr⟩ := h
  cases k with
  | zero =>
    simp only [Function.iterate_zero_apply] at hk
    subst hk
    exact absurd hr hx
  | succ k =>
    exact ⟨⟨k, by rw [← Function.iterate_succ_apply]; exact hk⟩, hr⟩

theorem RootedAt.iterate {par : V → V} {x r : V} (h : RootedAt par x r) (k : ℕ) :
    RootedAt par (par^[k] x) r := by
  obtain ⟨⟨j, hj⟩, hr⟩ := h
  rcases le_total k j with hle | hle
  · exact ⟨⟨j - k, by
      rw [← Function.iterate_add_apply, Nat.sub_add_cancel hle]; exact hj⟩, hr⟩
  · refine ⟨⟨0, ?_⟩, hr⟩
    simp only [Function.iterate_zero_apply]
    exact iterate_past_root par hle hj hr

theorem rooted_exists {par : V → V} {lvl : V → ℕ}
    (hd : ∀ x, par x ≠ x → lvl (par x) < lvl x) (x : V) :
    ∃ r, RootedAt par x r := by
  have key : ∀ n x, lvl x ≤ n → ∃ r, RootedAt par x r := by
    intro n
    induction n with
    | zero =>
      intro x hx
      by_cases h : par x = x
      · exact ⟨x, RootedAt.self h⟩
      · exact absurd (hd x h) (by omega)
    | succ n ih =>
      intro x hx
      by_cases h : par x = x
      · exact ⟨x, RootedAt.self h⟩
      · obtain ⟨r, hr⟩ := ih (par x) (by have := hd x h; omega)
        exact ⟨r, hr.of_step⟩
  exact key (lvl x) x le_rfl

theorem lvl_iterate_le {par : V → V} {lvl : V → ℕ}
    (hd : ∀ x, par x ≠ x → lvl (par x) < lvl x) (x : V) :
    ∀ k, lvl (par^[k + 1] x) ≤ lvl (par x) := by
  intro k
  induction k with
  | zero => simp
  | succ k ih =>
    rw [Function.iterate_succ_apply']
    by_cases h : par (par^[k + 1] x) = par^[k + 1] x
    · rw [h]; exact ih
    · exact le_trans (le_of_lt (hd _ h)) ih

theorem lvl_iterate_lt {par : V → V} {lvl : V → ℕ}
    (hd : ∀ x, par x ≠ x → lvl (par x) < lvl x) {x : V} (hx : par x ≠ x)
    {k : ℕ} (hk : 1 ≤ k) : lvl (par^[k] x) < lvl x := by
  obtain ⟨j, rfl⟩ : ∃ j, k = j + 1 := ⟨k - 1, by omega⟩
  exact lt_of_le_of_lt (lvl_iterate_le hd x j) (hd x hx)

theorem iterate_mem {par : V → V} {B : List V}
    (hcl : ∀ x ∈ B, par x ∈ B) :
    ∀ (k : ℕ) (x : V), x ∈ B → par^[k] x ∈ B := by
  intro k
  induction k with
  | zero => intro x hx; simpa using hx
  | succ k ih =>
    intro x hx
    rw [Function.iterate_succ_apply]
    exact ih (par x) (hcl x hx)

theorem lvl_chain {par : V → V} {lvl : V → ℕ}
    (hd : ∀ x, par x ≠ x → lvl (par x) < lvl x) (x : V) :
    ∀ j i, i < j → (∀ m, m < j → par (par^[m] x) ≠ par^[m] x) →
      lvl (par^[j] x) < lvl (par^[i] x) := by
  intro j
  induction j with
  | zero => intro i hi; exact absurd hi (Nat.not_lt_zero i)
  | succ j ih =>
    intro i hi hchain
    have hstep : lvl (par^[j + 1] x) < lvl (par^[j] x) := by
      rw [Function.iterate_succ_apply']
      exact hd _ (hchain j (by omega))
    rcases Nat.lt_succ_iff_lt_or_eq.mp hi with h | h
    · exact lt_trans hstep (ih i h (fun m hm => hchain m (by omega)))
    · subst h; exact hstep

theorem rootD_eq_iterate (par : V → V) :
    ∀ (n : ℕ) (x : V), ∃ m, m ≤ n ∧ rootD par n x = par^[m] x := by
  intro n
  induction n with
  | zero => intro x; exact ⟨0, le_refl 0, by simp [rootD]⟩
  | succ n ih =>
    intro x
    by_cases h : par x = x
    · exact ⟨0, by omega, by simp [rootD, h]⟩
    · obtain ⟨m, hm, heq⟩ := ih (par x)
      refine ⟨m + 1, by omega, ?_⟩
      rw [show rootD par (n + 1) x = rootD par n (par x) from by simp [rootD, h],
        heq, Function.iterate_succ_apply]

theorem rootD_of_chain (par : V → V) :
    ∀ (k n : ℕ) (x r : V), k ≤ n →
      (∀ i, i < k → par (par^[i] x) ≠ par^[i] x) →
      par^[k] x = r → par r = r → rootD par n x = r := by
  intro k
  induction k with
  | zero =>
    intro n x r _ _ hk hr
    simp only [Function.iterate_zero_apply] at hk
    subst hk
    exact rootD_fixed par n hr
  | succ k ih =>
    intro n x r hkn hchain hk hr
    obtain ⟨m, rfl⟩ : ∃ m, n = m + 1 := ⟨n - 1, by omega⟩
    have hx : par x ≠ x := by
      have := hchain 0 (by omega)
      simpa using this
    rw [show rootD par (m + 1) x = rootD par m (par x) from by simp [rootD, hx]]
    apply ih m (par x) r (by omega)
    · intro i hi
      rw [← Function.iterate_succ_apply]
      exact hchain (i + 1) (by omega)
    · rw [← Function.iterate_succ_apply]
      exact hk
    · exact hr

theorem rootD_rooted {par : V → V} {B : List V} (hnd : B.Nodup)
    (inv : UFInv par B) (x : V) :
    RootedAt par x (rootD par (B.length + 1) x) := by
  obtain ⟨hout, hcl, lvl, hd⟩ := inv
  obtain ⟨r, hr⟩ := rooted_exists hd x
  have hex : ∃ k, par^[k] x = r := hr.1
  have hk0spec : par^[Nat.find hex] x = r := Nat.find_spec hex
  have hchain : ∀ i, i < Nat.find hex → par (par^[i] x) ≠ par^[i] x := by
    intro i hi hroot
    have h2 : par^[Nat.find hex] x = par^[i] x := by
      have h3 : par^[(Nat.find hex - i) + i] x = par^[Nat.find hex - i] (par^[i] x) :=
        Function.iterate_add_apply par (Nat.find hex - i) i x
      rw [Nat.sub_add_cancel (le_of_lt hi)] at h3
      rw [h3, Function.iterate_fixed hroot]
    exact Nat.find_min hex hi (by rw [← h2, hk0spec])
  have hk0le : Nat.find hex ≤ B.length := by
    by_contra hgt
    push_neg at hgt
    have hsub : ∀ z ∈ (List.range (B.length + 1)).map (fun i => par^[i] x), z ∈ B := by
      intro z hz
      obtain ⟨i, hi, rfl⟩ := List.mem_map.mp hz
      have hi2 : i < B.length + 1 := List.mem_range.mp hi
      have hnr : par (par^[i] x) ≠ par^[i] x := hchain i (by omega)
      by_contra hzB
      exact hnr (hout _ hzB)
    have hndL : ((List.range (B.length + 1)).map (fun i => par^[i] x)).Nodup := by
      refine List.Nodup.map_on ?_ (List.nodup_range _)
      intro i hi j hj hij
      have hi2 : i < B.length + 1 := List.mem_range.mp hi
      have hj2 : j < B.length + 1 := List.mem_range.mp hj
      rcases lt_trichotomy i j with h | h | h
      · exfalso
        have := lvl_chain hd x j i h (fun m hm => hchain m (by omega))
        rw [hij] at this
        omega
      · exact h
      · exfalso
        have := lvl_chain hd x i j h (fun m hm => hchain m (by omega))
        rw [hij] at this
        omega
    have hle := nodup_length_le_dedup _ B hndL hsub
    rw [List.dedup_eq_self.mpr hnd] at hle
    simp at hle
  have hfin := rootD_of_chain par (Nat.find hex) (B.length + 1) x r
    (by omega) hchain hk0spec hr.2
  rw [hfin]
  exact hr

theorem ufFind_snd (n : ℕ) (par : V → V) (x : V) :
    (ufFind n par x).2 = rootD par n x := by
  induction n generalizing x with
  | zero => rfl
  | succ n ih =>
    by_cases h : par x = x
    · simp [ufFind, rootD, h]
    · simp [ufFind, rootD, h, ih]

theorem ufFind_fst_char (n : ℕ) (par : V → V) (x y : V) :
    (ufFind n par x).1 y = par y ∨
      (par y ≠ y ∧ ∃ k, 1 ≤ k ∧ (ufFind n par x).1 y = par^[k] y) := by
  induction n generalizing x with
  | zero => exact .inl rfl
  | succ n ih =>
    by_cases h : par x = x
    · left
      simp [ufFind, h]
    · have hstep : (ufFind (n + 1) par x).1 =
          updf (ufFind n par (par x)).1 x (ufFind n par (par x)).2 := by
        simp [ufFind, h]
      by_cases hy : y = x
      · subst hy
        right
        refine ⟨h, ?_⟩
        obtain ⟨m, hm, hmeq⟩ := rootD_eq_iterate par n (par y)
        refine ⟨m + 1, by omega, ?_⟩
        rw [hstep, updf_apply_eq, ufFind_snd, hmeq, Function.iterate_succ_apply]
      · rw [hstep, updf_apply_ne _ _ hy]
        exact ih (par x)

theorem ufFind_root_iff {par : V → V} {lvl : V → ℕ}
    (hd : ∀ x, par x ≠ x → lvl (par x) < lvl x)
    (n : ℕ) (x y : V) : (ufFind n par x).1 y = y ↔ par y = y := by
  rcases ufFind_fst_char n par x y with h | ⟨hy, k, hk, heq⟩
  · rw [h]
  · constructor
    · intro hroot
      exfalso
      rw [heq] at hroot
      have hlt := lvl_iterate_lt hd hy hk
      rw [hroot] at hlt
      omega
    · intro hroot
      exact absurd hroot hy

theorem ufFind_rootedAt {par : V → V} {lvl : V → ℕ}
    (hd : ∀ x, par x ≠ x → lvl (par x) < lvl x)
    (n : ℕ) (x : V) {y r : V} (h : RootedAt par y r) :
    RootedAt (ufFind n par x).1 y r := by
  suffices key : ∀ m y, lvl y ≤ m → RootedAt par y r →
      RootedAt (ufFind n par x).1 y r by
    exact key (lvl y) y le_rfl h
  intro m
  induction m with
  | zero =>
    intro y hy hr
    by_cases hroot : par y = y
    · have hry : r = y := RootedAt.unique hr (RootedAt.self hroot)
      subst hry
      exact RootedAt.self ((ufFind_root_iff hd n x r).mpr hroot)
    · exact absurd (hd y hroot) (by omega)
  | succ m ih =>
    intro y hy hr
    by_cases hroot : par y = y
    · have hry : r = y := RootedAt.unique hr (RootedAt.self hroot)
      subst hry
      exact RootedAt.self ((ufFind_root_iff hd n x r).mpr hroot)
    · rcases ufFind_fst_char n par x y with hc | ⟨-, k, hk, heq⟩
      · have h1 : RootedAt par (par y) r := hr.step hroot
        have h2 : RootedAt (ufFind n par x).1 (par y) r :=
          ih (par y) (by have := hd y hroot; omega) h1
        have h3 : RootedAt (ufFind n par x).1 ((ufFind n par x).1 y) r := by
          rw [hc]; exact h2
        exact h3.of_step
      · have h1 : RootedAt par (par^[k] y) r := hr.iterate k
        have hlt : lvl (par^[k] y) < lvl y := lvl_iterate_lt hd hroot hk
        have h2 := ih (par^[k] y) (by omega) h1
        have h3 : RootedAt (ufFind n par x).1 ((ufFind n par x).1 y) r := by
          rw [heq]; exact h2
        exact h3.of_step

theorem ufFind_rootedAt_iff {par : V → V} {lvl : V → ℕ}
    (hd : ∀ x, par x ≠ x → lvl (par x) < lvl x)
    (n : ℕ) (x : V) (y r : V) :
    RootedAt (ufFind n par x).1 y r ↔ RootedAt par y r := by
  constructor
  · intro h
    obtain ⟨r0, hr0⟩ := rooted_exists hd y
    have h2 := ufFind_rootedAt hd n x hr0
    have heq : r = r0 := RootedAt.unique h h2
    subst heq
    exact hr0
  · exact ufFind_rootedAt hd n x

theorem ufFind_inv {par : V → V} {B : List V} (inv : UFInv par B)
    (n : ℕ) (x : V) : UFInv (ufFind n par x).1 B := by
  obtain ⟨hout, hcl, lvl, hd⟩ := inv
  refine ⟨?_, ?_, lvl, ?_⟩
  · intro y hy
    exact (ufFind_root_iff hd n x y).mpr (hout y hy)
  · intro y hyB
    rcases ufFind_fst_char n par x y with h | ⟨-, k, -, heq⟩
    · rw [h]; exact hcl y hyB
    · rw [heq]; exact iterate_mem hcl k y hyB
  · intro y hy
    have hy2 : par y ≠ y := fun hc => hy ((ufFind_root_iff hd n x y).mpr hc)
    rcases ufFind_fst_char n par x y with h | ⟨-, k, hk, heq⟩
    · rw [h]; exact hd y hy2
    · rw [heq]; exact lvl_iterate_lt hd hy2 hk

end UnionFindLemmas

section UnionLemmas

theorem RootedAt.mem_list {par : V → V} {B : List V}
    (hcl : ∀ x ∈ B, par x ∈ B) {x r : V} (h : RootedAt par x r)
    (hx : x ∈ B) : r ∈ B := by
  obtain ⟨⟨k, hk⟩, -⟩ := h
  rw [← hk]
  exact iterate_mem hcl k x hx

theorem link_rootedAt {p : V → V} {lvl : V → ℕ}
    (hd : ∀ w, p w ≠ w → lvl (p w) < lvl w)
    {a b : V} (ha : p a = a) (hb : p b = b) (hab : a ≠ b) (z r : V) :
    RootedAt (updf p b a) z r ↔
      ((RootedAt p z r ∧ r ≠ b) ∨ (RootedAt p z b ∧ r = a)) := by
  have hagree : ∀ w, w ≠ b → updf p b a w = p w := fun w hw => updf_apply_ne _ _ hw
  have hpb : updf p b a b = a := updf_apply_eq _ _ _
  have hpa : updf p b a a = a := by rw [hagree a hab]; exact ha
  have hleft : ∀ w r0, RootedAt p w r0 → r0 ≠ b → RootedAt (updf p b a) w r0 := by
    intro w r0 hwr hr0b
    have hnotb : ∀ i, p^[i] w ≠ b := by
      intro i hcon
      have h1 : RootedAt p (p^[i] w) r0 := hwr.iterate i
      rw [hcon] at h1
      exact hr0b (RootedAt.unique h1 (RootedAt.self hb))
    have htrans : ∀ i, (updf p b a)^[i] w = p^[i] w := by
      intro i
      induction i with
      | zero => simp
      | succ i ih =>
        rw [Function.iterate_succ_apply', Function.iterate_succ_apply', ih,
          hagree _ (hnotb i)]
    obtain ⟨⟨k, hk⟩, hroot⟩ := hwr
    exact ⟨⟨k, by rw [htrans k]; exact hk⟩, by rw [hagree r0 hr0b]; exact hroot⟩
  have hright : ∀ w, RootedAt p w b → RootedAt (updf p b a) w a := by
    intro w hwb
    have hex : ∃ k, p^[k] w = b := hwb.1
    have hk0 : p^[Nat.find hex] w = b := Nat.find_spec hex
    have htrans : ∀ i, i ≤ Nat.find hex → (updf p b a)^[i] w = p^[i] w := by
      intro i
      induction i with
      | zero => intro _; simp
      | succ i ih =>
        intro hi
        rw [Function.iterate_succ_apply', Function.iterate_succ_apply',
          ih (by omega), hagree _ (Nat.find_min hex (by omega))]
    exact ⟨⟨Nat.find hex + 1, by
      rw [Function.iterate_succ_apply', htrans _ le_rfl, hk0, hpb]⟩, hpa⟩
  constructor
  · intro h
    obtain ⟨r0, hr0⟩ := rooted_exists hd z
    by_cases hr0b : r0 = b
    · subst hr0b
      have h2 := hright z hr0
      have h3 : r = a := RootedAt.unique h h2
      exact .inr ⟨hr0, h3⟩
    · have h2 := hleft z r0 hr0 hr0b
      have h3 : r = r0 := RootedAt.unique h h2
      subst h3
      exact .inl ⟨hr0, hr0b⟩
  · rintro (⟨hzr, hrb⟩ | ⟨hzb, rfl⟩)
    · exact hleft z r hzr hrb
    · exact hright z hzb

theorem link_root_iff {p : V → V} {a b : V} (hab : a ≠ b) (hb : p b = b)
    (z : V) : updf p b a z = z ↔ (p z = z ∧ z ≠ b) := by
  by_cases hz : z = b
  · subst hz
    rw [updf_apply_eq]
    simp [hb, hab]
  · rw [updf_apply_ne _ _ hz]
    simp [hz]

theorem link_inv {p : V → V} {B : List V} (inv : UFInv p B)
    {a b : V} (ha : p a = a) (hb : p b = b) (hab : a ≠ b)
    (haB : a ∈ B) (hbB : b ∈ B) : UFInv (updf p b a) B := by
  obtain ⟨hout, hcl, lvl, hd⟩ := inv
  classical
  refine ⟨?_, ?_, ?_⟩
  · intro z hz
    have hzb : z ≠ b := fun hc => hz (hc ▸ hbB)
    rw [updf_apply_ne _ _ hzb, hout z hz]
  · intro z hzB
    by_cases hz : z = b
    · subst hz; rw [updf_apply_eq]; exact haB
    · rw [updf_apply_ne _ _ hz]; exact hcl z hzB
  · refine ⟨fun z => if RootedAt p z b then lvl z + lvl a + 1 else lvl z, ?_⟩
    intro z hz
    dsimp only
    by_cases hzb : z = b
    · rw [hzb, updf_apply_eq]
      have hnab : ¬ RootedAt p a b := by
        intro hcon
        exact hab (RootedAt.unique (RootedAt.self ha) hcon)
      rw [if_pos (RootedAt.self hb), if_neg hnab]
      omega
    · have hz2 : p z ≠ z := by
        intro hc
        exact hz (by rw [updf_apply_ne _ _ hzb]; exact hc)
      rw [updf_apply_ne _ _ hzb]
      have hiff : RootedAt p z b ↔ RootedAt p (p z) b :=
        ⟨fun h => h.step hz2, fun h => h.of_step⟩
      by_cases hr : RootedAt p z b
      · rw [if_pos hr, if_pos (hiff.mp hr)]
        have := hd z hz2
        omega
      · rw [if_neg hr, if_neg (fun hc => hr (hiff.mpr hc))]
        exact hd z hz2

theorem countP_drop_root {B : List V} (hnd : B.Nodup) {a : V} (haB : a ∈ B)
    {P Q : V → Bool} (hPa : P a = true)
    (hQP : ∀ z ∈ B, Q z = true ↔ (P z = true ∧ z ≠ a)) :
    B.countP Q + 1 = B.countP P := by
  induction B with
  | nil => cases haB
  | cons c B ih =>
    rw [List.countP_cons, List.countP_cons]
    rcases List.mem_cons.mp haB with rfl | haB2
    · have hQa : ¬ Q a = true := by simp [hQP a (List.mem_cons_self _ _)]
      rw [if_neg hQa, if_pos hPa]
      have hanotin : a ∉ B := (List.nodup_cons.mp hnd).1
      have hcong : B.countP Q = B.countP P := by
        apply List.countP_congr
        intro z hz
        have hza : z ≠ a := fun hc => hanotin (hc ▸ hz)
        rw [hQP z (List.mem_cons_of_mem _ hz)]
        simp [hza]
      omega
    · have hca : c ≠ a := fun hc => (List.nodup_cons.mp hnd).1 (hc ▸ haB2)
      have hQc : Q c = true ↔ P c = true := by
        rw [hQP c (List.mem_cons_self _ _)]
        simp [hca]
      have hrec := ih (List.nodup_cons.mp hnd).2 haB2
        (fun z hz => hQP z (List.mem_cons_of_mem _ hz))
      by_cases hPc : P c = true
      · rw [if_pos hPc, if_pos (hQc.mpr hPc)]
        omega
      · rw [if_neg hPc, if_neg (fun hc => hPc (hQc.mp hc))]
        omega

end UnionLemmas

section UnionSpec

theorem ufUnion_spec {B : List V} (hnd : B.Nodup) {st : UFState}
    (inv : UFInv st.par B) {x y : V} (hx : x ∈ B) (hy : y ∈ B)
    {rx ry : V} (hrx : RootedAt st.par x rx) (hry : RootedAt st.par y ry) :
    UFInv (ufUnion (B.length + 1) st x y).1.par B ∧
    ((ufUnion (B.length + 1) st x y).2 = true ↔ rx ≠ ry) ∧
    (rx = ry →
      (∀ z r, RootedAt (ufUnion (B.length + 1) st x y).1.par z r ↔
        RootedAt st.par z r) ∧
      (∀ z, (ufUnion (B.length + 1) st x y).1.par z = z ↔ st.par z = z)) ∧
    (rx ≠ ry → ∃ a bl, ((a = rx ∧ bl = ry) ∨ (a = ry ∧ bl = rx)) ∧
      (∀ z r, RootedAt (ufUnion (B.length + 1) st x y).1.par z r ↔
        ((RootedAt st.par z r ∧ r ≠ bl) ∨ (RootedAt st.par z bl ∧ r = a))) ∧
      (∀ z, (ufUnion (B.length + 1) st x y).1.par z = z ↔
        (st.par z = z ∧ z ≠ bl)) ∧
      bl ∈ B ∧ st.par bl = bl) := by
  obtain ⟨hout, hcl, lvl, hd⟩ := inv
  have inv0 : UFInv st.par B := ⟨hout, hcl, lvl, hd⟩
  have hpx : RootedAt st.par x (ufFind (B.length + 1) st.par x).2 := by
    rw [ufFind_snd]
    exact rootD_rooted hnd inv0 x
  have hrxeq : (ufFind (B.length + 1) st.par x).2 = rx := RootedAt.unique hpx hrx
  have inv1 : UFInv (ufFind (B.length + 1) st.par x).1 B := ufFind_inv inv0 _ x
  obtain ⟨hout1, hcl1, lvl1, hd1⟩ := inv1
  have inv1b : UFInv (ufFind (B.length + 1) st.par x).1 B := ⟨hout1, hcl1, lvl1, hd1⟩
  have hpy0 : RootedAt (ufFind (B.length + 1) st.par x).1 y
      (ufFind (B.length + 1) (ufFind (B.length + 1) st.par x).1 y).2 := by
    rw [ufFind_snd]
    exact rootD_rooted hnd inv1b y
  have hpy1 : RootedAt st.par y
      (ufFind (B.length + 1) (ufFind (B.length + 1) st.par x).1 y).2 :=
    (ufFind_rootedAt_iff hd _ x y _).mp hpy0
  have hpyeq : (ufFind (B.length + 1) (ufFind (B.length + 1) st.par x).1 y).2 = ry :=
    RootedAt.unique hpy1 hry
  have inv2 : UFInv (ufFind (B.length + 1) (ufFind (B.length + 1) st.par x).1 y).1 B :=
    ufFind_inv inv1b _ y
  obtain ⟨hout2, hcl2, lvl2, hd2⟩ := inv2
  have inv2b : UFInv (ufFind (B.length + 1) (ufFind (B.length + 1) st.par x).1 y).1 B :=
    ⟨hout2, hcl2, lvl2, hd2⟩
  have htrans2 : ∀ z r,
      RootedAt (ufFind (B.length + 1) (ufFind (B.length + 1) st.par x).1 y).1 z r ↔
        RootedAt st.par z r := by
    intro z r
    rw [ufFind_rootedAt_iff hd1 _ y z r, ufFind_rootedAt_iff hd _ x z r]
  have hroots2 : ∀ z,
      (ufFind (B.length + 1) (ufFind (B.length + 1) st.par x).1 y).1 z = z ↔
        st.par z = z := by
    intro z
    rw [ufFind_root_iff hd1 _ y z, ufFind_root_iff hd _ x z]
  have hrxB : rx ∈ B := hrx.mem_list hcl hx
  have hryB : ry ∈ B := hry.mem_list hcl hy
  by_cases hcase : rx = ry
  · have hU : ufUnion (B.length + 1) st x y =
        ({ st with
            par := (ufFind (B.length + 1) (ufFind (B.length + 1) st.par x).1 y).1 },
          false) := by
      simp only [ufUnion]
      rw [if_pos (by rw [hrxeq, hpyeq]; exact hcase)]
    rw [hU]
    exact ⟨inv2b, by simp [hcase], fun _ => ⟨htrans2, hroots2⟩,
      fun hne => absurd hcase hne⟩
  · have hry2 : st.par ry = ry := hry.2
    have hrx2 : st.par rx = rx := hrx.2
    have hpar2ry : (ufFind (B.length + 1) (ufFind (B.length + 1) st.par x).1 y).1 ry = ry :=
      (hroots2 ry).mpr hry2
    have hpar2rx : (ufFind (B.length + 1) (ufFind (B.length + 1) st.par x).1 y).1 rx = rx :=
      (hroots2 rx).mpr hrx2
    by_cases hrnk : st.rnk rx < st.rnk ry
    · have hU : ufUnion (B.length + 1) st x y =
          (⟨updf (ufFind (B.length + 1) (ufFind (B.length + 1) st.par x).1 y).1 rx ry,
            if st.rnk ry = st.rnk rx then updf st.rnk ry (st.rnk ry + 1) else st.rnk⟩,
            true) := by
        simp only [ufUnion]
        rw [if_neg (by rw [hrxeq, hpyeq]; exact hcase), hrxeq, hpyeq, if_pos hrnk]
      have hab : ry ≠ rx := fun h => hcase h.symm
      rw [hU]
      refine ⟨?_, by simp [hcase], fun heq => absurd heq hcase,
        fun _ => ⟨ry, rx, .inr ⟨rfl, rfl⟩, ?_, ?_, hrxB, hrx2⟩⟩
      · exact link_inv inv2b hpar2ry hpar2rx hab hryB hrxB
      · intro z r
        dsimp only
        rw [link_rootedAt hd2 hpar2ry hpar2rx hab z r, htrans2 z r, htrans2 z rx]
      · intro z
        dsimp only
        rw [link_root_iff hab hpar2rx z, hroots2 z]
    · have hU : ufUnion (B.length + 1) st x y =
          (⟨updf (ufFind (B.length + 1) (ufFind (B.length + 1) st.par x).1 y).1 ry rx,
            if st.rnk rx = st.rnk ry then updf st.rnk rx (st.rnk rx + 1) else st.rnk⟩,
            true) := by
        simp only [ufUnion]
        rw [if_neg (by rw [hrxeq, hpyeq]; exact hcase), hrxeq, hpyeq, if_neg hrnk]
      rw [hU]
      refine ⟨?_, by simp [hcase], fun heq => absurd heq hcase,
        fun _ => ⟨rx, ry, .inl ⟨rfl, rfl⟩, ?_, ?_, hryB, hry2⟩⟩
      · exact link_inv inv2b hpar2rx hpar2ry hcase hrxB hryB
      · intro z r
        dsimp only
        rw [link_rootedAt hd2 hpar2rx hpar2ry hcase z r, htrans2 z r, htrans2 z ry]
      · intro z
        dsimp only
        rw [link_root_iff hcase hpar2ry z, hroots2 z]

end UnionSpec

section TripLemmas

theorem TripRel_symm {l : List (ℚ × V × V)} {a b : V} (h : TripRel l a b) :
    TripRel l b a := by
  obtain ⟨t, ht, h1 | h2⟩ := h
  · exact ⟨t, ht, .inr h1⟩
  · exact ⟨t, ht, .inl h2⟩

theorem ConnTrip_symm {l : List (ℚ × V × V)} {a b : V} (h : ConnTrip l a b) :
    ConnTrip l b a := by
  induction h with
  | refl => exact .refl
  | tail h1 step ih =>
    exact Relation.ReflTransGen.trans (.single (TripRel_symm step)) ih

theorem ConnTrip_mono {l1 l2 : List (ℚ × V × V)} (hsub : ∀ t ∈ l1, t ∈ l2)
    {a b : V} (h : ConnTrip l1 a b) : ConnTrip l2 a b := by
  induction h with
  | refl => exact .refl
  | tail h1 step ih =>
    refine ih.tail ?_
    obtain ⟨t, ht, hh⟩ := step
    exact ⟨t, hsub t ht, hh⟩

theorem ConnTrip_congr {l1 l2 : List (ℚ × V × V)} (hiff : ∀ t, t ∈ l1 ↔ t ∈ l2)
    (a b : V) : ConnTrip l1 a b ↔ ConnTrip l2 a b :=
  ⟨ConnTrip_mono (fun t ht => (hiff t).mp ht),
    ConnTrip_mono (fun t ht => (hiff t).mpr ht)⟩

theorem conn_append_iff (P : List (ℚ × V × V)) (t : ℚ × V × V) (z w : V) :
    ConnTrip (P ++ [t]) z w ↔
      (ConnTrip P z w ∨ (ConnTrip P z t.2.1 ∧ ConnTrip P t.2.2 w) ∨
        (ConnTrip P z t.2.2 ∧ ConnTrip P t.2.1 w)) := by
  have hsub : ∀ s ∈ P, s ∈ P ++ [t] := fun s hs => List.mem_append.mpr (.inl hs)
  constructor
  · intro h
    induction h with
    | refl => exact .inl .refl
    | tail h1 step ih =>
      obtain ⟨s, hs, hc⟩ := step
      rcases List.mem_append.mp hs with hsP | hst
      · rcases hc with hc | hc
        · rcases ih with h | ⟨g1, g2⟩ | ⟨g1, g2⟩
          · exact .inl (h.tail ⟨s, hsP, .inl hc⟩)
          · exact .inr (.inl ⟨g1, g2.tail ⟨s, hsP, .inl hc⟩⟩)
          · exact .inr (.inr ⟨g1, g2.tail ⟨s, hsP, .inl hc⟩⟩)
        · rcases ih with h | ⟨g1, g2⟩ | ⟨g1, g2⟩
          · exact .inl (h.tail ⟨s, hsP, .inr hc⟩)
          · exact .inr (.inl ⟨g1, g2.tail ⟨s, hsP, .inr hc⟩⟩)
          · exact .inr (.inr ⟨g1, g2.tail ⟨s, hsP, .inr hc⟩⟩)
      · rcases List.mem_singleton.mp hst with rfl
        rcases hc with ⟨hc1, hc2⟩ | ⟨hc1, hc2⟩
        · rcases ih with h | ⟨g1, g2⟩ | ⟨g1, g2⟩
          · exact .inr (.inl ⟨hc1 ▸ h, hc2 ▸ Relation.ReflTransGen.refl⟩)
          · exact .inr (.inl ⟨g1, hc2 ▸ Relation.ReflTransGen.refl⟩)
          · exact .inl (hc2 ▸ g1)
        · rcases ih with h | ⟨g1, g2⟩ | ⟨g1, g2⟩
          · exact .inr (.inr ⟨hc2 ▸ h, hc1 ▸ Relation.ReflTransGen.refl⟩)
          · exact .inl (hc1 ▸ g1)
          · exact .inr (.inr ⟨g1, hc1 ▸ Relation.ReflTransGen.refl⟩)
  · rintro (h | ⟨h1, h2⟩ | ⟨h1, h2⟩)
    · exact ConnTrip_mono hsub h
    · have hstep : TripRel (P ++ [t]) t.2.1 t.2.2 :=
        ⟨t, List.mem_append.mpr (.inr (List.mem_singleton.mpr rfl)), .inl ⟨rfl, rfl⟩⟩
      exact Relation.ReflTransGen.trans (ConnTrip_mono hsub h1)
        (Relation.ReflTransGen.trans (.single hstep) (ConnTrip_mono hsub h2))
    · have hstep : TripRel (P ++ [t]) t.2.2 t.2.1 :=
        ⟨t, List.mem_append.mpr (.inr (List.mem_singleton.mpr rfl)), .inr ⟨rfl, rfl⟩⟩
      exact Relation.ReflTransGen.trans (ConnTrip_mono hsub h1)
        (Relation.ReflTransGen.trans (.single hstep) (ConnTrip_mono hsub h2))

theorem sameRoot_iff_rooted {par : V → V} {u ru : V}
    (hru : RootedAt par u ru) (z : V) :
    SameRoot par z u ↔ RootedAt par z ru := by
  constructor
  · rintro ⟨r, hz, hu2⟩
    rwa [RootedAt.unique hu2 hru] at hz
  · intro h
    exact ⟨ru, h, hru⟩

theorem tripRel_adjList (g : Graph) (a b : V) :
    TripRel (g.edges.map edgeTriple) a b ↔ AdjRel (adjList g) a b := by
  constructor
  · rintro ⟨tt, htt, hc⟩
    obtain ⟨e, he, rfl⟩ := List.mem_map.mp htt
    exact mem_adjList.mpr ⟨e, he, hc⟩
  · intro h
    obtain ⟨e, he, hc⟩ := mem_adjList.mp h
    exact ⟨edgeTriple e, List.mem_map_of_mem _ he, hc⟩

theorem connTrip_connAdj (g : Graph) (a b : V) :
    ConnTrip (g.edges.map edgeTriple) a b ↔ ConnAdj (adjList g) a b := by
  constructor
  · intro h
    exact Relation.ReflTransGen.mono
      (fun x y hxy => (tripRel_adjList g x y).mp hxy) h
  · intro h
    exact Relation.ReflTransGen.mono
      (fun x y hxy => (tripRel_adjList g x y).mpr hxy) h

end TripLemmas

section KruskalFoldSpec

set_option maxHeartbeats 1600000 in
theorem kruskal_fold_spec {B : List V} (hnd : B.Nodup) :
    ∀ (l P : List (ℚ × V × V)) (acc : UFState × List (V × V × ℚ) × ℚ),
      (∀ t ∈ l, t.2.1 ∈ B ∧ t.2.2 ∈ B) →
      UFInv acc.1.par B →
      (∀ z w, SameRoot acc.1.par z w ↔ ConnTrip P z w) →
      B.countP (fun z => decide (acc.1.par z = z)) + acc.2.1.length = B.length →
      acc.2.2 = (acc.2.1.map (fun s => s.2.2)).sum →
      (∀ s ∈ acc.2.1, (s.2.2, s.1, s.2.1) ∈ P) →
      ∃ F, l.foldl (fun a t =>
          let r := ufUnion (B.length + 1) a.1 t.2.1 t.2.2
          if r.2 then (r.1, a.2.1 ++ [(t.2.1, t.2.2, t.1)], a.2.2 + t.1)
          else (r.1, a.2.1, a.2.2)) acc = F ∧
        UFInv F.1.par B ∧
        (∀ z w, SameRoot F.1.par z w ↔ ConnTrip (P ++ l) z w) ∧
        B.countP (fun z => decide (F.1.par z = z)) + F.2.1.length = B.length ∧
        F.2.2 = (F.2.1.map (fun s => s.2.2)).sum ∧
        (∀ s ∈ F.2.1, (s.2.2, s.1, s.2.1) ∈ P ++ l) := by
  intro l
  induction l with
  | nil =>
    intro P acc hl inv hSR hcount htot hmem
    exact ⟨acc, rfl, inv, by simpa using hSR, hcount, htot, by simpa using hmem⟩
  | cons t l ih =>
    intro P acc hl inv hSR hcount htot hmem
    obtain ⟨hu, hv⟩ := hl t (List.mem_cons_self _ _)
    obtain ⟨hout, hcl, lvl, hd⟩ := inv
    have inv0 : UFInv acc.1.par B := ⟨hout, hcl, lvl, hd⟩
    obtain ⟨ru, hru⟩ := rooted_exists hd t.2.1
    obtain ⟨rv, hrv⟩ := rooted_exists hd t.2.2
    obtain ⟨hinvU, hflag, heqcase, hnecase⟩ := ufUnion_spec hnd inv0 hu hv hru hrv
    simp only [List.foldl_cons]
    rw [show P ++ t :: l = (P ++ [t]) ++ l from by simp]
    by_cases hcase : ru = rv
    · have hflag2 : (ufUnion (B.length + 1) acc.1 t.2.1 t.2.2).2 = false := by
        cases hb : (ufUnion (B.length + 1) acc.1 t.2.1 t.2.2).2 with
        | false => rfl
        | true => exact absurd hcase (hflag.mp hb)
      have hstep : (if (ufUnion (B.length + 1) acc.1 t.2.1 t.2.2).2 = true
          then ((ufUnion (B.length + 1) acc.1 t.2.1 t.2.2).1,
            acc.2.1 ++ [(t.2.1, t.2.2, t.1)], acc.2.2 + t.1)
          else ((ufUnion (B.length + 1) acc.1 t.2.1 t.2.2).1, acc.2.1, acc.2.2))
          = ((ufUnion (B.length + 1) acc.1 t.2.1 t.2.2).1, acc.2.1, acc.2.2) := by
        rw [hflag2]
        simp
      rw [hstep]
      have huvC : ConnTrip P t.2.1 t.2.2 :=
        (hSR t.2.1 t.2.2).mp ⟨rv, hcase ▸ hru, hrv⟩
      refine ih ((P ++ [t])) _ (fun s hs => hl s (List.mem_cons_of_mem _ hs))
        hinvU ?_ ?_ htot ?_
      · intro z w
        have hTr := (heqcase hcase).1
        have hSRnew : SameRoot (ufUnion (B.length + 1) acc.1 t.2.1 t.2.2).1.par z w ↔
            SameRoot acc.1.par z w := by
          constructor
          · rintro ⟨r, h1, h2⟩
            exact ⟨r, (hTr z r).mp h1, (hTr w r).mp h2⟩
          · rintro ⟨r, h1, h2⟩
            exact ⟨r, (hTr z r).mpr h1, (hTr w r).mpr h2⟩
        rw [hSRnew, hSR z w, conn_append_iff]
        constructor
        · exact fun h => .inl h
        · rintro (h | ⟨h1, h2⟩ | ⟨h1, h2⟩)
          · exact h
          · exact Relation.ReflTransGen.trans h1
              (Relation.ReflTransGen.trans huvC h2)
          · exact Relation.ReflTransGen.trans h1
              (Relation.ReflTransGen.trans (ConnTrip_symm huvC) h2)
      · have hsame : B.countP
            (fun z => decide ((ufUnion (B.length + 1) acc.1 t.2.1 t.2.2).1.par z = z)) =
            B.countP (fun z => decide (acc.1.par z = z)) := by
          apply List.countP_congr
          intro z hz
          simp [(heqcase hcase).2 z]
        rw [hsame]
        exact hcount
      · intro s hs
        exact List.mem_append.mpr (.inl (hmem s hs))
    · have hflag2 : (ufUnion (B.length + 1) acc.1 t.2.1 t.2.2).2 = true :=
        hflag.mpr hcase
      obtain ⟨a, bl, habcases, hchar, hroots, hblB, hblroot⟩ := hnecase hcase
      have hab : a ≠ bl := by
        rcases habcases with ⟨rfl, rfl⟩ | ⟨rfl, rfl⟩
        · exact hcase
        · exact fun h => hcase h.symm
      have hstep : (if (ufUnion (B.length + 1) acc.1 t.2.1 t.2.2).2 = true
          then ((ufUnion (B.length + 1) acc.1 t.2.1 t.2.2).1,
            acc.2.1 ++ [(t.2.1, t.2.2, t.1)], acc.2.2 + t.1)
          else ((ufUnion (B.length + 1) acc.1 t.2.1 t.2.2).1, acc.2.1, acc.2.2))
          = ((ufUnion (B.length + 1) acc.1 t.2.1 t.2.2).1,
            acc.2.1 ++ [(t.2.1, t.2.2, t.1)], acc.2.2 + t.1) := by
        rw [hflag2]
        simp
      rw [hstep]
      refine ih ((P ++ [t])) _ (fun s hs => hl s (List.mem_cons_of_mem _ hs))
        hinvU ?_ ?_ ?_ ?_
      · intro z w
        have hmid : SameRoot (ufUnion (B.length + 1) acc.1 t.2.1 t.2.2).1.par z w ↔
            (SameRoot acc.1.par z w ∨
              (RootedAt acc.1.par z a ∧ RootedAt acc.1.par w bl) ∨
              (RootedAt acc.1.par z bl ∧ RootedAt acc.1.par w a)) := by
          constructor
          · rintro ⟨r, h1, h2⟩
            rcases (hchar z r).mp h1 with ⟨hz1, hz2⟩ | ⟨hz1, hz2⟩ <;>
              rcases (hchar w r).mp h2 with ⟨hw1, hw2⟩ | ⟨hw1, hw2⟩
            · exact .inl ⟨r, hz1, hw1⟩
            · subst hw2
              exact .inr (.inl ⟨hz1, hw1⟩)
            · subst hz2
              exact .inr (.inr ⟨hz1, hw1⟩)
            · exact .inl ⟨bl, hz1, hw1⟩
          · rintro (⟨r, h1, h2⟩ | ⟨h1, h2⟩ | ⟨h1, h2⟩)
            · by_cases hrbl : r = bl
              · subst hrbl
                exact ⟨a, (hchar z a).mpr (.inr ⟨h1, rfl⟩),
                  (hchar w a).mpr (.inr ⟨h2, rfl⟩)⟩
              · exact ⟨r, (hchar z r).mpr (.inl ⟨h1, hrbl⟩),
                  (hchar w r).mpr (.inl ⟨h2, hrbl⟩)⟩
            · exact ⟨a, (hchar z a).mpr (.inl ⟨h1, hab⟩),
                (hchar w a).mpr (.inr ⟨h2, rfl⟩)⟩
            · exact ⟨a, (hchar z a).mpr (.inr ⟨h1, rfl⟩),
                (hchar w a).mpr (.inl ⟨h2, hab⟩)⟩
        rw [hmid, conn_append_iff]
        have hCsymm : ∀ p q, ConnTrip P p q ↔ ConnTrip P q p :=
          fun p q => ⟨ConnTrip_symm, ConnTrip_symm⟩
        rcases habcases with ⟨rfl, rfl⟩ | ⟨rfl, rfl⟩
        · refine or_congr (hSR z w) (or_congr (and_congr ?_ ?_) (and_congr ?_ ?_))
          · exact ((sameRoot_iff_rooted hru z).symm.trans (hSR z t.2.1))
          · exact ((sameRoot_iff_rooted hrv w).symm.trans
              ((hSR w t.2.2).trans (hCsymm w t.2.2)))
          · exact ((sameRoot_iff_rooted hrv z).symm.trans (hSR z t.2.2))
          · exact ((sameRoot_iff_rooted hru w).symm.trans
              ((hSR w t.2.1).trans (hCsymm w t.2.1)))
        · rw [hSR z w,
            (sameRoot_iff_rooted hrv z).symm.trans (hSR z t.2.2),
            (sameRoot_iff_rooted hru w).symm.trans
              ((hSR w t.2.1).trans (hCsymm w t.2.1)),
            (sameRoot_iff_rooted hru z).symm.trans (hSR z t.2.1),
            (sameRoot_iff_rooted hrv w).symm.trans
              ((hSR w t.2.2).trans (hCsymm w t.2.2))]
          exact or_congr Iff.rfl or_comm
      · have hdrop : B.countP (fun z =>
            decide ((ufUnion (B.length + 1) acc.1 t.2.1 t.2.2).1.par z = z)) + 1 =
            B.countP (fun z => decide (acc.1.par z = z)) :=
          countP_drop_root hnd hblB (by simp [hblroot]) (fun z hz => by simp [hroots z])
        have hlen : (acc.2.1 ++ [(t.2.1, t.2.2, t.1)]).length = acc.2.1.length + 1 := by
          simp
        show B.countP (fun z =>
            decide ((ufUnion (B.length + 1) acc.1 t.2.1 t.2.2).1.par z = z)) +
          (acc.2.1 ++ [(t.2.1, t.2.2, t.1)]).length = B.length
        rw [hlen]
        omega
      · rw [List.map_append, List.sum_append]
        simp [htot]
      · intro s hs
        rcases List.mem_append.mp hs with hs | hs
        · exact List.mem_append.mpr (.inl (hmem s hs))
        · rcases List.mem_singleton.mp hs with rfl
          exact List.mem_append.mpr (.inr (List.mem_singleton.mpr rfl))

end KruskalFoldSpec

section MSTGlue

theorem connAdj_closed {adj : V → List V} {c : List V}
    (hcl : ∀ z ∈ c, ∀ u ∈ adj z, u ∈ c) {x y : V} (hx : x ∈ c)
    (h : ConnAdj adj x y) : y ∈ c := by
  induction h with
  | refl => exact hx
  | tail h1 step ih => exact hcl _ ih _ step

theorem connAdj_symm {adj : V → List V}
    (hsym : ∀ x y, y ∈ adj x → x ∈ adj y)
    {a b : V} (h : ConnAdj adj a b) : ConnAdj adj b a := by
  induction h with
  | refl => exact .refl
  | tail h1 step ih =>
    exact Relation.ReflTransGen.trans (.single (hsym _ _ step)) ih

theorem sum_sub_one {L : List (List V)} (h : ∀ c ∈ L, c ≠ []) :
    (L.map (fun c => c.length - 1)).sum + L.length = (L.map List.length).sum := by
  induction L with
  | nil => simp
  | cons c L ih =>
    simp only [List.map_cons, List.sum_cons, List.length_cons]
    have hc : c ≠ [] := h c (List.mem_cons_self _ _)
    have hlen : 1 ≤ c.length := by
      cases c with
      | nil => exact absurd rfl hc
      | cons a l => simp
    have hrec := ih (fun d hd => h d (List.mem_cons_of_mem _ hd))
    omega

theorem headD_mem {c : List V} (h : c ≠ []) : c.headD 0 ∈ c := by
  cases c with
  | nil => exact absurd rfl h
  | cons a l => exact List.mem_cons_self _ _

theorem id_iterate_eq (k : ℕ) (z : V) : (fun x : V => x)^[k] z = z := by
  induction k with
  | zero => simp
  | succ k ih => rw [Function.iterate_succ_apply]; exact ih

end MSTGlue

/-- Claim C4: for every non-empty graph (duplicate-free vertex list, edge
endpoints in it), `run_mst` succeeds and returns a spanning forest: writing
`c` for the `run_connectivity` result, whose components are exactly the
connected-component classes of the undirected reachability relation, the
number of chosen edges equals the sum of `(size - 1)` over the components
(so a disconnected graph with more than one component gets `is_connected =
false`), `num_edges` counts `mst_edges`, `is_connected` holds exactly when
`num_edges = |vertices| - 1`, every chosen edge is one of the input edge
triples, and `total_weight` is the sum of the chosen edges' weights rounded
to two decimals. -/
theorem run_mst_forest (g : Graph) (hne : g.vertices ≠ [])
    (hnd : g.vertices.Nodup)
    (hwf : ∀ e ∈ g.edges, e.src ∈ g.vertices ∧ e.dst ∈ g.vertices) :
    ∃ (r : MSTResult) (c : ConnResult),
      run_mst g = .ok r ∧ run_connectivity g = .ok c ∧
      (∀ comp ∈ c.components, ∀ x ∈ comp, ∀ y : V,
        y ∈ comp ↔ ConnAdj (adjList g) x y) ∧
      r.mst_edges.length = (c.components.map (fun comp => comp.length - 1)).sum ∧
      r.num_edges = r.mst_edges.length ∧
      (r.is_connected = true ↔ r.num_edges = g.vertices.length - 1) ∧
      (c.components.length ≠ 1 → r.is_connected = false) ∧
      (∀ s ∈ r.mst_edges, (s.2.2, s.1, s.2.1) ∈ g.edges.map edgeTriple) ∧
      r.total_weight = round2 ((r.mst_edges.map (fun s => s.2.2)).sum) := by
  have hadjB : ∀ x y, y ∈ adjList g x → y ∈ g.vertices := by
    intro x y hy
    rcases mem_adjList.mp hy with ⟨e, he, ⟨h1, h2⟩ | ⟨h1, h2⟩⟩
    · exact h2 ▸ (hwf e he).2
    · exact h1 ▸ (hwf e he).1
  have hsym : ∀ x y, y ∈ adjList g x → x ∈ adjList g y := by
    intro x y hy
    rcases mem_adjList.mp hy with ⟨e, he, ⟨h1, h2⟩ | ⟨h1, h2⟩⟩
    · exact mem_adjList.mpr ⟨e, he, .inr ⟨h1, h2⟩⟩
    · exact mem_adjList.mpr ⟨e, he, .inl ⟨h1, h2⟩⟩
  obtain ⟨c1, c2, c3, c4, c5, -, -⟩ :=
    connFold_spec (adjList g) g.vertices hadjB hsym g.vertices
      (fun y hy => hy) [] [] List.nodup_nil (by simp) (by simp) (by simp)
  set F := g.vertices.foldl (connStep (adjList g) (g.vertices.length + 1)) ([], [])
    with hF
  have hrunc : run_connectivity g = .ok
      { algorithm := "Connectivity (DFS)",
        components := F.2,
        num_components := F.2.length,
        is_connected := decide (F.2.length = 1),
        largest_component_size := (F.2.map List.length).foldl max 0,
        success := true } := by
    rw [run_connectivity, if_neg hne]
  have hflat_mem : ∀ v, v ∈ F.2.flatten ↔ v ∈ g.vertices := by
    intro v
    rw [c3.mem_iff]
    exact ⟨fun h => c2 v h, fun h => c5 v h⟩
  have hcompsub : ∀ comp ∈ F.2, ∀ x ∈ comp, x ∈ g.vertices := by
    intro comp hcomp x hx
    exact (hflat_mem x).mp (List.mem_flatten.mpr ⟨comp, hcomp, hx⟩)
  have hclass : ∀ comp ∈ F.2, ∀ x ∈ comp, ∀ y : V,
      y ∈ comp ↔ ConnAdj (adjList g) x y := by
    intro comp hcomp x hx y
    obtain ⟨hcne, hsort, hclosed, rt, hrt, hconn⟩ := c4 comp hcomp
    constructor
    · intro hy
      exact Relation.ReflTransGen.trans (connAdj_symm hsym (hconn x hx)) (hconn y hy)
    · intro h
      exact connAdj_closed hclosed hx h
  set sorted := sortBy tripleLe (g.edges.map edgeTriple) with hsortedeq
  have hperm : sorted.Perm (g.edges.map edgeTriple) := sortBy_perm _ _
  have hends : ∀ t ∈ sorted, t.2.1 ∈ g.vertices ∧ t.2.2 ∈ g.vertices := by
    intro t ht
    obtain ⟨e, he, rfl⟩ := List.mem_map.mp (hperm.mem_iff.mp ht)
    exact ⟨(hwf e he).1, (hwf e he).2⟩
  have hinv0 : UFInv (fun x => x) g.vertices :=
    ⟨fun x _ => rfl, fun x hx => hx, fun _ => 0, fun x hx => absurd rfl hx⟩
  have hSR0 : ∀ z w, SameRoot (fun x : V => x) z w ↔ ConnTrip [] z w := by
    intro z w
    constructor
    · rintro ⟨r, ⟨⟨k, hk⟩, -⟩, ⟨⟨j, hj⟩, -⟩⟩
      rw [id_iterate_eq k z] at hk
      rw [id_iterate_eq j w] at hj
      rw [hk, ← hj]
      exact .refl
    · intro h
      have hzw : z = w := by
        induction h with
        | refl => rfl
        | tail h1 step ih =>
          obtain ⟨t, ht, -⟩ := step
          exact absurd ht (List.not_mem_nil t)
      subst hzw
      exact ⟨z, RootedAt.self rfl, RootedAt.self rfl⟩
  have hcount0 : g.vertices.countP (fun z => decide ((fun x : V => x) z = z)) +
      ([] : List (V × V × ℚ)).length = g.vertices.length := by
    have hall : g.vertices.countP (fun z => decide ((fun x : V => x) z = z)) =
        g.vertices.length := List.countP_eq_length.mpr (fun a ha => by simp)
    simp [hall]
  obtain ⟨Fm, hFm, hinvF, hSRF, hcountF, htotF, hmemF⟩ :=
    kruskal_fold_spec hnd sorted []
      (⟨fun x => x, fun x => 0⟩, ([] : List (V × V × ℚ)), (0 : ℚ))
      hends hinv0 hSR0 hcount0 (by simp)
      (fun s hs => absurd hs (List.not_mem_nil s))
  simp only [List.nil_append] at hSRF hmemF
  have hSRA : ∀ z w, SameRoot Fm.1.par z w ↔ ConnAdj (adjList g) z w := by
    intro z w
    exact (hSRF z w).trans ((ConnTrip_congr (fun t => hperm.mem_iff) z w).trans
      (connTrip_connAdj g z w))
  obtain ⟨houtF, hclF, lvlF, hdF⟩ := hinvF
  have hinvFb : UFInv Fm.1.par g.vertices := ⟨houtF, hclF, lvlF, hdF⟩
  have hrunm : run_mst g = .ok
      { algorithm := "MST (Kruskal)",
        mst_edges := (kruskalFold (ufFuel g) sorted ⟨fun x => x, fun x => 0⟩).2.1,
        total_weight :=
          round2 (kruskalFold (ufFuel g) sorted ⟨fun x => x, fun x => 0⟩).2.2,
        num_edges := (kruskalFold (ufFuel g) sorted ⟨fun x => x, fun x => 0⟩).2.1.length,
        is_connected := decide
          ((kruskalFold (ufFuel g) sorted ⟨fun x => x, fun x => 0⟩).2.1.length =
            g.vertices.length - 1),
        success := true } := by
    rw [run_mst, if_neg hne]
  have hkf : kruskalFold (ufFuel g) sorted ⟨fun x => x, fun x => 0⟩ = Fm := hFm
  rw [hkf] at hrunm
  have hndR : (g.vertices.filter (fun z => decide (Fm.1.par z = z))).Nodup :=
    List.Nodup.filter _ hnd
  have hcomp_head : ∀ comp ∈ F.2, comp.headD 0 ∈ comp :=
    fun comp hcomp => headD_mem (c4 comp hcomp).1
  have hCmem1 : ∀ comp ∈ F.2,
      rootD Fm.1.par (g.vertices.length + 1) (comp.headD 0) ∈
        g.vertices.filter (fun z => decide (Fm.1.par z = z)) := by
    intro comp hcomp
    have hhB : comp.headD 0 ∈ g.vertices :=
      hcompsub comp hcomp _ (hcomp_head comp hcomp)
    have hr := rootD_rooted hnd hinvFb (comp.headD 0)
    rw [List.mem_filter]
    exact ⟨hr.mem_list hclF hhB, by rw [decide_eq_true_eq]; exact hr.2⟩
  have hCmem2 : ∀ x ∈ g.vertices.filter (fun z => decide (Fm.1.par z = z)),
      ∃ comp ∈ F.2, rootD Fm.1.par (g.vertices.length + 1) (comp.headD 0) = x := by
    intro x hx
    rw [List.mem_filter] at hx
    obtain ⟨hxB, hxroot⟩ := hx
    have hxroot2 : Fm.1.par x = x := by simpa using hxroot
    obtain ⟨comp, hcomp, hxc⟩ := List.mem_flatten.mp ((hflat_mem x).mpr hxB)
    refine ⟨comp, hcomp, ?_⟩
    have hconn : ConnAdj (adjList g) (comp.headD 0) x :=
      (hclass comp hcomp _ (hcomp_head comp hcomp) x).mp hxc
    have hsr : SameRoot Fm.1.par (comp.headD 0) x := (hSRA _ x).mpr hconn
    obtain ⟨rr, h1, h2⟩ := hsr
    have hrrx : rr = x := RootedAt.unique h2 (RootedAt.self hxroot2)
    subst hrrx
    exact RootedAt.unique (rootD_rooted hnd hinvFb (comp.headD 0)) h1
  have hndC : (F.2.map (fun comp =>
      rootD Fm.1.par (g.vertices.length + 1) (comp.headD 0))).Nodup := by
    have hflatnd : F.2.flatten.Nodup := (c3.nodup_iff).mpr c1
    have hdisj := (List.nodup_flatten.mp hflatnd).2
    have hpw : F.2.Pairwise (fun cA cB =>
        rootD Fm.1.par (g.vertices.length + 1) (cA.headD 0) ≠
        rootD Fm.1.par (g.vertices.length + 1) (cB.headD 0)) := by
      refine hdisj.imp_of_mem ?_
      intro cA cB hA hB hdis heq
      have h1 := rootD_rooted hnd hinvFb (cA.headD 0)
      have h2 := rootD_rooted hnd hinvFb (cB.headD 0)
      rw [heq] at h1
      have hsr : SameRoot Fm.1.par (cA.headD 0) (cB.headD 0) := ⟨_, h1, h2⟩
      have hconn := (hSRA _ _).mp hsr
      have hin : cB.headD 0 ∈ cA :=
        (hclass cA hA _ (hcomp_head cA hA) _).mpr hconn
      exact hdis hin (hcomp_head cB hB)
    exact List.pairwise_map.mpr hpw
  have htoF : (F.2.map (fun comp =>
      rootD Fm.1.par (g.vertices.length + 1) (comp.headD 0))).toFinset =
      (g.vertices.filter (fun z => decide (Fm.1.par z = z))).toFinset := by
    ext r0
    simp only [List.mem_toFinset]
    constructor
    · intro hr0
      obtain ⟨comp, hcomp, rfl⟩ := List.mem_map.mp hr0
      exact hCmem1 comp hcomp
    · intro hr0
      obtain ⟨comp, hcomp, heq⟩ := hCmem2 r0 hr0
      exact List.mem_map.mpr ⟨comp, hcomp, heq⟩
  have hlenCR := (List.perm_of_nodup_nodup_toFinset_eq hndC hndR htoF).length_eq
  have hkroots : F.2.length = g.vertices.countP (fun z => decide (Fm.1.par z = z)) := by
    rw [List.countP_eq_length_filter]
    rw [List.length_map] at hlenCR
    exact hlenCR
  have hvisperm : F.1.Perm g.vertices := by
    apply List.perm_of_nodup_nodup_toFinset_eq c1 hnd
    ext v
    simp only [List.mem_toFinset]
    exact ⟨fun h => c2 v h, fun h => c5 v h⟩
  have hsumlen : (F.2.map List.length).sum = g.vertices.length := by
    rw [← List.length_flatten, c3.length_eq, hvisperm.length_eq]
  have hnonempty : ∀ comp ∈ F.2, comp ≠ [] := fun comp hcomp => (c4 comp hcomp).1
  have hsub1 := sum_sub_one hnonempty
  have hL1 : 1 ≤ g.vertices.length := by
    cases hvs : g.vertices with
    | nil => exact absurd hvs hne
    | cons a l => simp
  have hk1 : 1 ≤ F.2.length := by
    obtain ⟨v0, vt, hv0⟩ : ∃ v0 vt, g.vertices = v0 :: vt := by
      cases hvs : g.vertices with
      | nil => exact absurd hvs hne
      | cons a l => exact ⟨a, l, rfl⟩
    have hv0f : v0 ∈ F.2.flatten :=
      (hflat_mem v0).mpr (by rw [hv0]; exact List.mem_cons_self _ _)
    obtain ⟨comp, hcomp, -⟩ := List.mem_flatten.mp hv0f
    cases hF2 : F.2 with
    | nil => rw [hF2] at hcomp; cases hcomp
    | cons a l => simp
  have hcount1 : Fm.2.1.length + F.2.length = g.vertices.length := by
    omega
  have hedges_eq : Fm.2.1.length = (F.2.map (fun comp => comp.length - 1)).sum := by
    omega
  refine ⟨_, _, hrunm, hrunc, hclass, hedges_eq, rfl, by simp, ?_, ?_, ?_⟩
  · intro hk
    have hk2 : F.2.length ≠ 1 := hk
    have hne2 : ¬ (Fm.2.1.length = g.vertices.length - 1) := by omega
    simp [hne2]
  · intro s hs
    exact hperm.mem_iff.mp (hmemF s hs)
  · exact congrArg round2 htotF

/-- Witness for C4 on a disconnected graph: vertices `{0, 1, 2, 3}` with
edges `(0, 1, 1.0)` and `(2, 3, 2.0)` — two components of size two. -/
theorem run_mst_forest_witness :
    ((⟨[0, 1, 2, 3], [PyEdge.e3 0 1 1, PyEdge.e3 2 3 2]⟩ : Graph).vertices ≠ [] ∧
      (⟨[0, 1, 2, 3], [PyEdge.e3 0 1 1, PyEdge.e3 2 3 2]⟩ : Graph).vertices.Nodup ∧
      (∀ e ∈ (⟨[0, 1, 2, 3], [PyEdge.e3 0 1 1, PyEdge.e3 2 3 2]⟩ : Graph).edges,
        e.src ∈ (⟨[0, 1, 2, 3], [PyEdge.e3 0 1 1, PyEdge.e3 2 3 2]⟩ : Graph).vertices ∧
        e.dst ∈ (⟨[0, 1, 2, 3], [PyEdge.e3 0 1 1, PyEdge.e3 2 3 2]⟩ : Graph).vertices)) ∧
    (∃ (r : MSTResult) (c : ConnResult),
      run_mst (⟨[0, 1, 2, 3], [PyEdge.e3 0 1 1, PyEdge.e3 2 3 2]⟩ : Graph) = .ok r ∧
      run_connectivity (⟨[0, 1, 2, 3], [PyEdge.e3 0 1 1, PyEdge.e3 2 3 2]⟩ : Graph) =
        .ok c ∧
      (∀ comp ∈ c.components, ∀ x ∈ comp, ∀ y : V,
        y ∈ comp ↔
          ConnAdj (adjList (⟨[0, 1, 2, 3], [PyEdge.e3 0 1 1, PyEdge.e3 2 3 2]⟩ : Graph))
            x y) ∧
      r.mst_edges.length = (c.components.map (fun comp => comp.length - 1)).sum ∧
      r.num_edges = r.mst_edges.length ∧
      (r.is_connected = true ↔ r.num_edges =
        (⟨[0, 1, 2, 3], [PyEdge.e3 0 1 1, PyEdge.e3 2 3 2]⟩ : Graph).vertices.length - 1) ∧
      (c.components.length ≠ 1 → r.is_connected = false) ∧
      (∀ s ∈ r.mst_edges, (s.2.2, s.1, s.2.1) ∈
        (⟨[0, 1, 2, 3], [PyEdge.e3 0 1 1, PyEdge.e3 2 3 2]⟩ : Graph).edges.map edgeTriple) ∧
      r.total_weight = round2 ((r.mst_edges.map (fun s => s.2.2)).sum)) :=
  ⟨⟨by decide, by decide, by decide⟩,
    run_mst_forest ⟨[0, 1, 2, 3], [PyEdge.e3 0 1 1, PyEdge.e3 2 3 2]⟩
      (by decide) (by decide) (by decide)⟩

section DijkstraBasicLemmas

theorem resolveStart_mem {vs : List V} (hne : vs ≠ []) (s0 : V) :
    resolveStart vs s0 ∈ vs := by
  unfold resolveStart
  by_cases h : vs = [] ∨ s0 ∉ vs
  · rw [if_pos h]
    cases vs with
    | nil => exact absurd rfl hne
    | cons a l => exact List.mem_cons_self _ _
  · rw [if_neg h]
    push_neg at h
    exact h.2

theorem EdgeBtw.symm2 {g : Graph} {b c : V} {w : ℚ} (h : EdgeBtw g b c w) :
    EdgeBtw g c b w := by
  obtain ⟨e, he, hd | hd, hw⟩ := h
  · exact ⟨e, he, .inr hd, hw⟩
  · exact ⟨e, he, .inl hd, hw⟩

theorem EdgeBtw.wt_nonneg {g : Graph} (hnn : ∀ e ∈ g.edges, 0 ≤ e.wt)
    {b c : V} {w : ℚ} (h : EdgeBtw g b c w) : 0 ≤ w := by
  obtain ⟨e, he, -, hw⟩ := h
  rw [← hw]
  exact hnn e he

theorem EdgeBtw.mem_vertices {g : Graph}
    (hwf : ∀ e ∈ g.edges, e.src ∈ g.vertices ∧ e.dst ∈ g.vertices)
    {b c : V} {w : ℚ} (h : EdgeBtw g b c w) :
    b ∈ g.vertices ∧ c ∈ g.vertices := by
  obtain ⟨e, he, ⟨h1, h2⟩ | ⟨h1, h2⟩, -⟩ := h
  · exact ⟨h1 ▸ (hwf e he).1, h2 ▸ (hwf e he).2⟩
  · exact ⟨h2 ▸ (hwf e he).2, h1 ▸ (hwf e he).1⟩

theorem EWalk.total_nonneg {g : Graph} {s : V}
    (hnn : ∀ e ∈ g.edges, 0 ≤ e.wt) {v : V} {q : ℚ}
    (h : EWalk g s v q) : 0 ≤ q := by
  induction h with
  | refl => exact le_refl 0
  | step hw hedge ih =>
    have := hedge.wt_nonneg hnn
    linarith

theorem pairLt_trans {a b c : D × V} (h1 : pairLt a b) (h2 : pairLt b c) :
    pairLt a c := by
  rcases h1 with h1 | ⟨h1a, h1b⟩ <;> rcases h2 with h2 | ⟨h2a, h2b⟩
  · exact .inl (lt_trans h1 h2)
  · exact .inl (h2a ▸ h1)
  · exact .inl (h1a ▸ h2)
  · exact .inr ⟨h1a.trans h2a, lt_trans h1b h2b⟩

theorem pqMin_none {l : List (D × V)} : pqMin l = none ↔ l = [] := by
  cases l with
  | nil => simp [pqMin]
  | cons p ps => simp [pqMin]

theorem pairLt_tot (a b : D × V) : pairLt a b ∨ a = b ∨ pairLt b a := by
  rcases a with ⟨a1, a2⟩
  rcases b with ⟨b1, b2⟩
  rcases lt_trichotomy a1 b1 with h | h | h
  · exact .inl (.inl h)
  · rcases lt_trichotomy a2 b2 with h2 | h2 | h2
    · exact .inl (.inr ⟨h, h2⟩)
    · subst h
      subst h2
      exact .inr (.inl rfl)
    · exact .inr (.inr (.inr ⟨h.symm, h2⟩))
  · exact .inr (.inr (.inl h))

theorem pairLt_not_not {a b c : D × V} (h1 : ¬ pairLt a b) (h2 : ¬ pairLt b c) :
    ¬ pairLt a c := by
  intro hac
  rcases pairLt_tot a b with h | h | h
  · exact h1 h
  · exact h2 (h ▸ hac)
  · exact h2 (pairLt_trans h hac)

theorem pqMin_spec {l : List (D × V)} {m : D × V} (h : pqMin l = some m) :
    m ∈ l ∧ ∀ p ∈ l, ¬ pairLt p m := by
  have key : ∀ (qs : List (D × V)) (a : D × V),
      (qs.foldl (fun mm q => if pairLt q mm then q else mm) a = a ∨
        qs.foldl (fun mm q => if pairLt q mm then q else mm) a ∈ qs) ∧
      ¬ pairLt a (qs.foldl (fun mm q => if pairLt q mm then q else mm) a) ∧
      ∀ q ∈ qs, ¬ pairLt q (qs.foldl (fun mm q => if pairLt q mm then q else mm) a) := by
    intro qs
    induction qs with
    | nil =>
      intro a
      refine ⟨.inl rfl, ?_, fun q hq => absurd hq (List.not_mem_nil q)⟩
      intro hc
      rcases hc with hc | ⟨-, hc⟩
      · exact lt_irrefl _ hc
      · exact lt_irrefl _ hc
    | cons q qs ih =>
      intro a
      simp only [List.foldl_cons]
      by_cases hq : pairLt q a
      · rw [if_pos hq]
        obtain ⟨i1, i2, i3⟩ := ih q
        refine ⟨?_, ?_, ?_⟩
        · rcases i1 with h1 | h1
          · exact .inr (by rw [h1]; exact List.mem_cons_self _ _)
          · exact .inr (List.mem_cons_of_mem _ h1)
        · intro hc
          exact i2 (pairLt_trans hq hc)
        · intro q2 hq2
          rcases List.mem_cons.mp hq2 with rfl | hq2
          · exact i2
          · exact i3 q2 hq2
      · rw [if_neg hq]
        obtain ⟨i1, i2, i3⟩ := ih a
        refine ⟨?_, i2, ?_⟩
        · rcases i1 with h1 | h1
          · exact .inl h1
          · exact .inr (List.mem_cons_of_mem _ h1)
        · intro q2 hq2
          rcases List.mem_cons.mp hq2 with rfl | hq2
          · exact pairLt_not_not hq i2
          · exact i3 q2 hq2
  cases l with
  | nil => cases h
  | cons p ps =>
    have hm : m = ps.foldl (fun mm q => if pairLt q mm then q else mm) p := by
      have : pqMin (p :: ps) =
          some (ps.foldl (fun mm q => if pairLt q mm then q else mm) p) := rfl
      rw [this] at h
      exact (Option.some_injective _ h).symm
    obtain ⟨k1, k2, k3⟩ := key ps p
    subst hm
    refine ⟨?_, ?_⟩
    · rcases k1 with h1 | h1
      · rw [h1]
        exact List.mem_cons_self _ _
      · exact List.mem_cons_of_mem _ h1
    · intro p2 hp2
      rcases List.mem_cons.mp hp2 with rfl | hp2
      · exact k2
      · exact k3 p2 hp2

theorem removeFirst_subset {p : D × V} :
    ∀ {l : List (D × V)} {x : D × V}, x ∈ removeFirst p l → x ∈ l := by
  intro l
  induction l with
  | nil => intro x hx; cases hx
  | cons q qs ih =>
    intro x hx
    unfold removeFirst at hx
    by_cases hq : q = p
    · rw [if_pos hq] at hx
      exact List.mem_cons_of_mem _ hx
    · rw [if_neg hq] at hx
      rcases List.mem_cons.mp hx with rfl | hx
      · exact List.mem_cons_self _ _
      · exact List.mem_cons_of_mem _ (ih hx)

theorem removeFirst_mem_of_ne {p : D × V} :
    ∀ {l : List (D × V)} {x : D × V}, x ∈ l → x ≠ p → x ∈ removeFirst p l := by
  intro l
  induction l with
  | nil => intro x hx; cases hx
  | cons q qs ih =>
    intro x hx hne
    unfold removeFirst
    by_cases hq : q = p
    · rw [if_pos hq]
      rcases List.mem_cons.mp hx with rfl | hx
      · exact absurd hq hne
      · exact hx
    · rw [if_neg hq]
      rcases List.mem_cons.mp hx with rfl | hx
      · exact List.mem_cons_self _ _
      · exact List.mem_cons_of_mem _ (ih hx hne)

theorem removeFirst_length {p : D × V} :
    ∀ {l : List (D × V)}, p ∈ l → (removeFirst p l).length + 1 = l.length := by
  intro l
  induction l with
  | nil => intro hx; cases hx
  | cons q qs ih =>
    intro hx
    unfold removeFirst
    by_cases hq : q = p
    · rw [if_pos hq]
      simp
    · rw [if_neg hq]
      rcases List.mem_cons.mp hx with rfl | hx
      · exact absurd rfl hq
      · simp only [List.length_cons]
        rw [← ih hx]

end DijkstraBasicLemmas

section DijkstraAdjLemmas

theorem traces_preserved {g : Graph} {par : V → Int} {dist : V → D} {s : V}
    {vis : List V} {v : V}
    (h9 : ∀ y, par y ≠ -1 → ∃ (u : V) (w : ℚ), par y = (u : Int) ∧ u ∈ vis ∧
      EdgeBtw g u y w ∧ dist y = dist u + (w : D))
    (hv : v ∉ vis) (pv : Int) (dv : D) :
    ∀ {x : V}, Traces g par dist s x → x ≠ v →
      Traces g (updf par v pv) (updf dist v dv) s x := by
  intro x h
  induction h with
  | base =>
    intro hx
    exact .base
  | step h1 h2 h3 h4 ih =>
    rename_i u2 c2 w2
    intro hc
    have hne : par c2 ≠ -1 := by
      rw [h2]
      intro hcon
      have := Int.natCast_nonneg u2
      omega
    obtain ⟨u3, w3, hpar3, hu3vis, -, -⟩ := h9 c2 hne
    have hu23 : u2 = u3 := by
      rw [h2] at hpar3
      exact_mod_cast hpar3
    have hu2v : u2 ≠ v := by
      intro hc2
      rw [hc2] at hu23
      rw [← hu23] at hu3vis
      exact hv hu3vis
    refine Traces.step (ih hu2v) ?_ h3 ?_
    · rw [updf_apply_ne _ _ hc]
      exact h2
    · rw [updf_apply_ne _ _ hc, updf_apply_ne _ _ hu2v]
      exact h4

theorem adjAddEdge_mem {adj : V → Option (List (V × ℚ))} {vs : List V}
    (hdom : ∀ a, (adj a).isSome ↔ a ∈ vs) {e : PyEdge}
    (hsrc : e.src ∈ vs) (hdst : e.dst ∈ vs) :
    ∃ adj1, adjAddEdge adj e = .ok adj1 ∧
      (∀ a, (adj1 a).isSome ↔ a ∈ vs) ∧
      (∀ a b w, (∃ la, adj1 a = some la ∧ (b, w) ∈ la) ↔
        ((∃ la, adj a = some la ∧ (b, w) ∈ la) ∨
          (a = e.src ∧ b = e.dst ∧ w = e.wt) ∨
          (a = e.dst ∧ b = e.src ∧ w = e.wt))) := by
  obtain ⟨lsrc, hlsrc⟩ : ∃ l, adj e.src = some l := by
    have := (hdom e.src).mpr hsrc
    exact Option.isSome_iff_exists.mp this
  have h1 : adjAppend adj e.src e.dst e.wt =
      .ok (updf adj e.src (some (lsrc ++ [(e.dst, e.wt)]))) := by
    unfold adjAppend
    rw [hlsrc]
  have hdomA : ∀ a, ((updf adj e.src (some (lsrc ++ [(e.dst, e.wt)]))) a).isSome ↔
      a ∈ vs := by
    intro a
    by_cases ha : a = e.src
    · subst ha
      rw [updf_apply_eq]
      simp [hsrc]
    · rw [updf_apply_ne _ _ ha]
      exact hdom a
  obtain ⟨ldst, hldst⟩ :
      ∃ l, (updf adj e.src (some (lsrc ++ [(e.dst, e.wt)]))) e.dst = some l := by
    have := (hdomA e.dst).mpr hdst
    exact Option.isSome_iff_exists.mp this
  have h2 : adjAppend (updf adj e.src (some (lsrc ++ [(e.dst, e.wt)]))) e.dst
      e.src e.wt =
      .ok (updf (updf adj e.src (some (lsrc ++ [(e.dst, e.wt)]))) e.dst
        (some (ldst ++ [(e.src, e.wt)]))) := by
    unfold adjAppend
    rw [hldst]
  refine ⟨updf (updf adj e.src (some (lsrc ++ [(e.dst, e.wt)]))) e.dst
      (some (ldst ++ [(e.src, e.wt)])), ?_, ?_, ?_⟩
  · unfold adjAddEdge
    rw [h1]
    exact h2
  · intro a
    by_cases ha : a = e.dst
    · subst ha
      rw [updf_apply_eq]
      simp [hdst]
    · rw [updf_apply_ne _ _ ha]
      exact hdomA a
  · intro a b w
    by_cases had : a = e.dst
    · subst had
      rw [updf_apply_eq]
      by_cases has : e.dst = e.src
      · rw [has] at hldst ⊢
        rw [updf_apply_eq] at hldst
        have hld : ldst = lsrc ++ [(e.src, e.wt)] :=
          (Option.some_injective _ hldst).symm
        subst hld
        constructor
        · rintro ⟨la, hla, hmem⟩
          have hla2 : la = lsrc ++ [(e.src, e.wt)] ++ [(e.src, e.wt)] :=
            (Option.some_injective _ hla).symm
          subst hla2
          simp only [List.mem_append, List.mem_singleton, Prod.mk.injEq] at hmem
          rcases hmem with (hm | ⟨hb, hw⟩) | ⟨hb, hw⟩
          · exact .inl ⟨lsrc, hlsrc, hm⟩
          · exact .inr (.inl ⟨rfl, hb, hw⟩)
          · exact .inr (.inl ⟨rfl, hb, hw⟩)
        · intro hm
          refine ⟨_, rfl, ?_⟩
          simp only [List.mem_append, List.mem_singleton, Prod.mk.injEq]
          rcases hm with ⟨la, hla, hmem⟩ | ⟨-, hb, hw⟩ | ⟨-, hb, hw⟩
          · rw [hlsrc] at hla
            have hle : lsrc = la := Option.some_injective _ hla
            exact .inl (.inl (hle ▸ hmem))
          · exact .inl (.inr ⟨hb, hw⟩)
          · exact .inl (.inr ⟨hb, hw⟩)
      · rw [updf_apply_ne _ _ has] at hldst
        constructor
        · rintro ⟨la, hla, hmem⟩
          have hla2 : la = ldst ++ [(e.src, e.wt)] :=
            (Option.some_injective _ hla).symm
          subst hla2
          simp only [List.mem_append, List.mem_singleton, Prod.mk.injEq] at hmem
          rcases hmem with hm | ⟨hb, hw⟩
          · exact .inl ⟨ldst, hldst, hm⟩
          · exact .inr (.inr ⟨rfl, hb, hw⟩)
        · intro hm
          refine ⟨_, rfl, ?_⟩
          simp only [List.mem_append, List.mem_singleton, Prod.mk.injEq]
          rcases hm with ⟨la, hla, hmem⟩ | ⟨hax, -, -⟩ | ⟨-, hb, hw⟩
          · rw [hldst] at hla
            have hle : ldst = la := Option.some_injective _ hla
            exact .inl (hle ▸ hmem)
          · exact absurd hax has
          · exact .inr ⟨hb, hw⟩
    · rw [updf_apply_ne _ _ had]
      by_cases has : a = e.src
      · subst has
        rw [updf_apply_eq]
        constructor
        · rintro ⟨la, hla, hmem⟩
          have hla2 : la = lsrc ++ [(e.dst, e.wt)] :=
            (Option.some_injective _ hla).symm
          subst hla2
          simp only [List.mem_append, List.mem_singleton, Prod.mk.injEq] at hmem
          rcases hmem with hm | ⟨hb, hw⟩
          · exact .inl ⟨lsrc, hlsrc, hm⟩
          · exact .inr (.inl ⟨rfl, hb, hw⟩)
        · intro hm
          refine ⟨_, rfl, ?_⟩
          simp only [List.mem_append, List.mem_singleton, Prod.mk.injEq]
          rcases hm with ⟨la, hla, hmem⟩ | ⟨-, hb, hw⟩ | ⟨hax, -, -⟩
          · rw [hlsrc] at hla
            have hle : lsrc = la := Option.some_injective _ hla
            exact .inl (hle ▸ hmem)
          · exact .inr ⟨hb, hw⟩
          · exact absurd hax had
      · rw [updf_apply_ne _ _ has]
        constructor
        · intro hm
          exact .inl hm
        · rintro (hm | ⟨hax, -, -⟩ | ⟨hax, -, -⟩)
          · exact hm
          · exact absurd hax has
          · exact absurd hax had

end DijkstraAdjLemmas

section BuildAdjSpec

theorem buildAdj_fold {vs : List V} :
    ∀ (E : List PyEdge) (adj : V → Option (List (V × ℚ))),
      (∀ e ∈ E, e.src ∈ vs ∧ e.dst ∈ vs) →
      (∀ a, (adj a).isSome ↔ a ∈ vs) →
      ∃ adj2, E.foldlM adjAddEdge adj = .ok adj2 ∧
        (∀ a, (adj2 a).isSome ↔ a ∈ vs) ∧
        (∀ a b w, (∃ la, adj2 a = some la ∧ (b, w) ∈ la) ↔
          ((∃ la, adj a = some la ∧ (b, w) ∈ la) ∨
            ∃ e ∈ E, ((e.src = a ∧ e.dst = b) ∨ (e.src = b ∧ e.dst = a)) ∧
              e.wt = w)) := by
  intro E
  induction E with
  | nil =>
    intro adj hE hdom
    refine ⟨adj, by rw [List.foldlM_nil]; rfl, hdom, ?_⟩
    intro a b w
    simp
  | cons e E2 ih =>
    intro adj hE hdom
    obtain ⟨he1, he2⟩ := hE e (List.mem_cons_self _ _)
    obtain ⟨adj1, hok1, hdom1, hmem1⟩ := adjAddEdge_mem hdom he1 he2
    obtain ⟨adj2, hok2, hdom2, hmem2⟩ :=
      ih adj1 (fun e2 he => hE e2 (List.mem_cons_of_mem _ he)) hdom1
    refine ⟨adj2, ?_, hdom2, ?_⟩
    · rw [List.foldlM_cons, hok1]
      exact hok2
    · intro a b w
      rw [hmem2 a b w]
      constructor
      · rintro (hm | ⟨e2, he2m, hc⟩)
        · rcases (hmem1 a b w).mp hm with hm2 | ⟨h1, h2, h3⟩ | ⟨h1, h2, h3⟩
          · exact .inl hm2
          · exact .inr ⟨e, List.mem_cons_self _ _, .inl ⟨h1.symm, h2.symm⟩, h3.symm⟩
          · exact .inr ⟨e, List.mem_cons_self _ _, .inr ⟨h2.symm, h1.symm⟩, h3.symm⟩
        · exact .inr ⟨e2, List.mem_cons_of_mem _ he2m, hc⟩
      · rintro (hm | ⟨e2, he2m, hc⟩)
        · exact .inl ((hmem1 a b w).mpr (.inl hm))
        · rcases List.mem_cons.mp he2m with rfl | he2m2
          · rcases hc with ⟨⟨h1, h2⟩ | ⟨h1, h2⟩, h3⟩
            · exact .inl ((hmem1 a b w).mpr (.inr (.inl ⟨h1.symm, h2.symm, h3.symm⟩)))
            · exact .inl ((hmem1 a b w).mpr (.inr (.inr ⟨h2.symm, h1.symm, h3.symm⟩)))
          · exact .inr ⟨e2, he2m2, hc⟩

theorem buildAdj_ok {g : Graph}
    (hwf : ∀ e ∈ g.edges, e.src ∈ g.vertices ∧ e.dst ∈ g.vertices) :
    ∃ adjO, buildAdj g = .ok adjO ∧
      (∀ a, (adjO a).isSome ↔ a ∈ g.vertices) ∧
      (∀ a b w, (∃ la, adjO a = some la ∧ (b, w) ∈ la) ↔ EdgeBtw g a b w) := by
  have hdom0 : ∀ a, ((adjInit g.vertices) a).isSome ↔ a ∈ g.vertices := by
    intro a
    unfold adjInit
    by_cases ha : a ∈ g.vertices
    · rw [if_pos ha]
      simp [ha]
    · rw [if_neg ha]
      simp [ha]
  obtain ⟨adjO, hok, hdom, hmem⟩ := buildAdj_fold g.edges (adjInit g.vertices) hwf hdom0
  refine ⟨adjO, hok, hdom, ?_⟩
  intro a b w
  rw [hmem a b w]
  have hinit : ¬ ∃ la, (adjInit g.vertices) a = some la ∧ (b, w) ∈ la := by
    rintro ⟨la, hla, hm⟩
    unfold adjInit at hla
    by_cases ha : a ∈ g.vertices
    · rw [if_pos ha] at hla
      have : ([] : List (V × ℚ)) = la := Option.some_injective _ hla
      rw [← this] at hm
      cases hm
    · rw [if_neg ha] at hla
      cases hla
  constructor
  · rintro (hm | hm)
    · exact absurd hm hinit
    · obtain ⟨e, he, hc, hw⟩ := hm
      exact ⟨e, he, hc, hw⟩
  · rintro ⟨e, he, hc, hw⟩
    exact .inr ⟨e, he, hc, hw⟩

end BuildAdjSpec

section RelaxLemmas

theorem ewalk_nonneg {g : Graph} {s : V}
    (hnnE : ∀ b c w, EdgeBtw g b c w → 0 ≤ w) {v : V} {q : ℚ}
    (h : EWalk g s v q) : 0 ≤ q := by
  induction h with
  | refl => exact le_refl 0
  | step hw hedge ih =>
    have := hnnE _ _ _ hedge
    linarith

theorem relaxStep_spec {g : Graph} {s : V}
    (hnnE : ∀ b c w, EdgeBtw g b c w → 0 ≤ w)
    (hBedge : ∀ b c w, EdgeBtw g b c w → b ∈ g.vertices ∧ c ∈ g.vertices)
    {u : V} {st : DState} {p : V × ℚ}
    (hedge : EdgeBtw g u p.1 p.2)
    (huvis : u ∈ st.visited) (hdU : st.dist u ≠ ⊤)
    (h3 : ∀ v, st.dist v ≠ ⊤ → ∃ q : ℚ, st.dist v = (q : D) ∧ EWalk g s v q)
    (h4 : st.dist s = 0)
    (h5 : ∀ p2 ∈ st.pq, ∃ q : ℚ, p2.1 = (q : D) ∧ EWalk g s p2.2 q ∧
      st.dist p2.2 ≤ p2.1 ∧ p2.2 ∈ g.vertices)
    (h6 : ∀ v, v ∉ st.visited → st.dist v ≠ ⊤ → (st.dist v, v) ∈ st.pq)
    (h7 : ∀ x ∈ st.visited, ∀ q : ℚ, EWalk g s x q → st.dist x ≤ (q : D))
    (h8 : ∀ x ∈ st.visited, x ≠ u → ∀ y w, EdgeBtw g x y w →
      st.dist y ≤ st.dist x + (w : D))
    (h9 : ∀ v, st.par v ≠ -1 → ∃ (u2 : V) (w : ℚ), st.par v = (u2 : Int) ∧
      u2 ∈ st.visited ∧ EdgeBtw g u2 v w ∧ st.dist v = st.dist u2 + (w : D))
    (h10 : ∀ v, st.dist v ≠ ⊤ → Traces g st.par st.dist s v)
    (h11 : ∀ v, st.par v = -1 → v = s ∨ st.dist v = ⊤) :
    (relaxStep u st p).visited = st.visited ∧
    (relaxStep u st p).dist u = st.dist u ∧
    (∀ v, (relaxStep u st p).dist v ≤ st.dist v) ∧
    (∀ v ∈ st.visited, (relaxStep u st p).dist v = st.dist v ∧
      (relaxStep u st p).par v = st.par v) ∧
    (relaxStep u st p).pq.length ≤ st.pq.length + 1 ∧
    (p.1 ∉ st.visited → (relaxStep u st p).dist p.1 ≤ st.dist u + (p.2 : D)) ∧
    (∀ v, (relaxStep u st p).dist v ≠ ⊤ → ∃ q : ℚ,
      (relaxStep u st p).dist v = (q : D) ∧ EWalk g s v q) ∧
    (relaxStep u st p).dist s = 0 ∧
    (∀ p2 ∈ (relaxStep u st p).pq, ∃ q : ℚ, p2.1 = (q : D) ∧ EWalk g s p2.2 q ∧
      (relaxStep u st p).dist p2.2 ≤ p2.1 ∧ p2.2 ∈ g.vertices) ∧
    (∀ v, v ∉ st.visited → (relaxStep u st p).dist v ≠ ⊤ →
      ((relaxStep u st p).dist v, v) ∈ (relaxStep u st p).pq) ∧
    (∀ x ∈ st.visited, ∀ q : ℚ, EWalk g s x q →
      (relaxStep u st p).dist x ≤ (q : D)) ∧
    (∀ x ∈ st.visited, x ≠ u → ∀ y w, EdgeBtw g x y w →
      (relaxStep u st p).dist y ≤ (relaxStep u st p).dist x + (w : D)) ∧
    (∀ v, (relaxStep u st p).par v ≠ -1 → ∃ (u2 : V) (w : ℚ),
      (relaxStep u st p).par v = (u2 : Int) ∧ u2 ∈ st.visited ∧
      EdgeBtw g u2 v w ∧
      (relaxStep u st p).dist v = (relaxStep u st p).dist u2 + (w : D)) ∧
    (∀ v, (relaxStep u st p).dist v ≠ ⊤ →
      Traces g (relaxStep u st p).par (relaxStep u st p).dist s v) ∧
    (∀ v, (relaxStep u st p).par v = -1 → v = s ∨
      (relaxStep u st p).dist v = ⊤) := by
  by_cases hfire : p.1 ∉ st.visited ∧ st.dist u + (p.2 : D) < st.dist p.1
  · obtain ⟨hpv, hlt⟩ := hfire
    have hstepEq : relaxStep u st p =
        { st with
          dist := updf st.dist p.1 (st.dist u + (p.2 : D)),
          par := updf st.par p.1 (u : Int),
          pq := st.pq ++ [(st.dist u + (p.2 : D), p.1)] } := by
      unfold relaxStep
      rw [if_pos ⟨hpv, hlt⟩]
    obtain ⟨qu, hqu, hwu⟩ := h3 u hdU
    have hq0 : 0 ≤ qu := ewalk_nonneg hnnE hwu
    have hdu0 : (0 : D) ≤ st.dist u := by
      rw [hqu]
      exact_mod_cast hq0
    have hw0 : 0 ≤ p.2 := hnnE _ _ _ hedge
    have hps : p.1 ≠ s := by
      intro hcon
      rw [hcon, h4] at hlt
      have hle : (0 : D) ≤ st.dist u + (p.2 : D) := by
        have : (0 : D) ≤ (p.2 : D) := by exact_mod_cast hw0
        calc (0 : D) ≤ st.dist u := hdu0
          _ ≤ st.dist u + (p.2 : D) := le_add_of_nonneg_right this
      exact absurd hlt (not_lt.mpr hle)
    have hpu : p.1 ≠ u := fun hcon => hpv (hcon ▸ huvis)
    have hnewfin : st.dist u + (p.2 : D) = ((qu + p.2 : ℚ) : D) := by
      rw [hqu]
      push_cast
      ring_nf
    have hnewwalk : EWalk g s p.1 (qu + p.2) := hwu.step hedge
    have hparne : (u : Int) ≠ -1 := by
      have := Int.natCast_nonneg u
      omega
    rw [hstepEq]
    dsimp only
    refine ⟨rfl, updf_apply_ne _ _ (Ne.symm hpu), ?_, ?_, ?_, ?_, ?_, ?_, ?_,
      ?_, ?_, ?_, ?_, ?_, ?_⟩
    · intro v
      by_cases hv : v = p.1
      · subst hv
        rw [updf_apply_eq]
        exact le_of_lt hlt
      · rw [updf_apply_ne _ _ hv]
    · intro v hv
      have hvp : v ≠ p.1 := fun hcon => hpv (hcon ▸ hv)
      exact ⟨updf_apply_ne _ _ hvp, updf_apply_ne _ _ hvp⟩
    · simp
    · intro hp
      rw [updf_apply_eq]
    · intro v hv
      by_cases hvp : v = p.1
      · subst hvp
        rw [updf_apply_eq]
        exact ⟨qu + p.2, hnewfin, hnewwalk⟩
      · rw [updf_apply_ne _ _ hvp] at hv ⊢
        exact h3 v hv
    · rw [updf_apply_ne _ _ (Ne.symm hps)]
      exact h4
    · intro p2 hp2
      rcases List.mem_append.mp hp2 with hp2 | hp2
      · obtain ⟨q, hq1, hq2, hq3, hq4⟩ := h5 p2 hp2
        refine ⟨q, hq1, hq2, ?_, hq4⟩
        by_cases hv : p2.2 = p.1
        · rw [hv, updf_apply_eq]
          calc st.dist u + (p.2 : D) ≤ st.dist p.1 := le_of_lt hlt
            _ ≤ p2.1 := hv ▸ hq3
        · rw [updf_apply_ne _ _ hv]
          exact hq3
      · rcases List.mem_singleton.mp hp2 with rfl
        refine ⟨qu + p.2, hnewfin, hnewwalk, ?_, (hBedge _ _ _ hedge).2⟩
        rw [updf_apply_eq]
    · intro v hv hfin
      by_cases hvp : v = p.1
      · subst hvp
        rw [updf_apply_eq]
        exact List.mem_append.mpr (.inr (List.mem_singleton.mpr rfl))
      · rw [updf_apply_ne _ _ hvp] at hfin ⊢
        exact List.mem_append.mpr (.inl (h6 v hv hfin))
    · intro x hx q hq
      have hxp : x ≠ p.1 := fun hcon => hpv (hcon ▸ hx)
      rw [updf_apply_ne _ _ hxp]
      exact h7 x hx q hq
    · intro x hx hxu y w hyw
      have hxp : x ≠ p.1 := fun hcon => hpv (hcon ▸ hx)
      rw [updf_apply_ne _ _ hxp]
      by_cases hyp : y = p.1
      · subst hyp
        rw [updf_apply_eq]
        calc st.dist u + (p.2 : D) ≤ st.dist p.1 := le_of_lt hlt
          _ ≤ st.dist x + (w : D) := h8 x hx hxu p.1 w hyw
      · rw [updf_apply_ne _ _ hyp]
        exact h8 x hx hxu y w hyw
    · intro v hv
      by_cases hvp : v = p.1
      · subst hvp
        refine ⟨u, p.2, updf_apply_eq _ _ _, huvis, hedge, ?_⟩
        rw [updf_apply_eq, updf_apply_ne _ _ (Ne.symm hpu)]
      · rw [updf_apply_ne _ _ hvp] at hv ⊢
        obtain ⟨u2, w2, hp1, hp2v, hp3, hp4⟩ := h9 v hv
        have hu2p : u2 ≠ p.1 := fun hcon => hpv (hcon ▸ hp2v)
        refine ⟨u2, w2, hp1, hp2v, hp3, ?_⟩
        rw [updf_apply_ne _ _ hvp, updf_apply_ne _ _ hu2p]
        exact hp4
    · intro v hv
      by_cases hvp : v = p.1
      · subst hvp
        have htru : Traces g (updf st.par p.1 (u : Int))
            (updf st.dist p.1 (st.dist u + (p.2 : D))) s u :=
          traces_preserved h9 hpv _ _ (h10 u hdU) (Ne.symm hpu)
        refine Traces.step htru (updf_apply_eq _ _ _) hedge ?_
        rw [updf_apply_eq, updf_apply_ne _ _ (Ne.symm hpu)]
      · rw [updf_apply_ne _ _ hvp] at hv
        exact traces_preserved h9 hpv _ _ (h10 v hv) hvp
    · intro v hv
      by_cases hvp : v = p.1
      · subst hvp
        rw [updf_apply_eq] at hv
        exact absurd hv hparne
      · rw [updf_apply_ne _ _ hvp] at hv
        rcases h11 v hv with hvs | hvfin
        · exact .inl hvs
        · rw [updf_apply_ne _ _ hvp]
          exact .inr hvfin
  · have hstepEq : relaxStep u st p = st := by
      unfold relaxStep
      rw [if_neg hfire]
    rw [hstepEq]
    push_neg at hfire
    refine ⟨rfl, rfl, fun v => le_refl _, fun v hv => ⟨rfl, rfl⟩, Nat.le_succ _,
      ?_, h3, h4, h5, h6, h7, h8, h9, h10, h11⟩
    intro hp
    exact hfire hp

end RelaxLemmas

section RelaxFold

theorem relaxFold_spec {g : Graph} {s : V}
    (hnnE : ∀ b c w, EdgeBtw g b c w → 0 ≤ w)
    (hBedge : ∀ b c w, EdgeBtw g b c w → b ∈ g.vertices ∧ c ∈ g.vertices)
    {u : V} :
    ∀ (nbrs : List (V × ℚ)) (st0 : DState),
      (∀ p ∈ nbrs, EdgeBtw g u p.1 p.2) →
      u ∈ st0.visited → st0.dist u ≠ ⊤ →
      (∀ v, st0.dist v ≠ ⊤ → ∃ q : ℚ, st0.dist v = (q : D) ∧ EWalk g s v q) →
      st0.dist s = 0 →
      (∀ p2 ∈ st0.pq, ∃ q : ℚ, p2.1 = (q : D) ∧ EWalk g s p2.2 q ∧
        st0.dist p2.2 ≤ p2.1 ∧ p2.2 ∈ g.vertices) →
      (∀ v, v ∉ st0.visited → st0.dist v ≠ ⊤ → (st0.dist v, v) ∈ st0.pq) →
      (∀ x ∈ st0.visited, ∀ q : ℚ, EWalk g s x q → st0.dist x ≤ (q : D)) →
      (∀ x ∈ st0.visited, x ≠ u → ∀ y w, EdgeBtw g x y w →
        st0.dist y ≤ st0.dist x + (w : D)) →
      (∀ v, st0.par v ≠ -1 → ∃ (u2 : V) (w : ℚ), st0.par v = (u2 : Int) ∧
        u2 ∈ st0.visited ∧ EdgeBtw g u2 v w ∧
        st0.dist v = st0.dist u2 + (w : D)) →
      (∀ v, st0.dist v ≠ ⊤ → Traces g st0.par st0.dist s v) →
      (∀ v, st0.par v = -1 → v = s ∨ st0.dist v = ⊤) →
      (nbrs.foldl (relaxStep u) st0).visited = st0.visited ∧
      (nbrs.foldl (relaxStep u) st0).dist u = st0.dist u ∧
      (∀ v, (nbrs.foldl (relaxStep u) st0).dist v ≤ st0.dist v) ∧
      (∀ v ∈ st0.visited, (nbrs.foldl (relaxStep u) st0).dist v = st0.dist v ∧
        (nbrs.foldl (relaxStep u) st0).par v = st0.par v) ∧
      (nbrs.foldl (relaxStep u) st0).pq.length ≤ st0.pq.length + nbrs.length ∧
      (∀ p2 ∈ nbrs, p2.1 ∉ st0.visited →
        (nbrs.foldl (relaxStep u) st0).dist p2.1 ≤ st0.dist u + (p2.2 : D)) ∧
      (∀ v, (nbrs.foldl (relaxStep u) st0).dist v ≠ ⊤ → ∃ q : ℚ,
        (nbrs.foldl (relaxStep u) st0).dist v = (q : D) ∧ EWalk g s v q) ∧
      (nbrs.foldl (relaxStep u) st0).dist s = 0 ∧
      (∀ p2 ∈ (nbrs.foldl (relaxStep u) st0).pq, ∃ q : ℚ, p2.1 = (q : D) ∧
        EWalk g s p2.2 q ∧
        (nbrs.foldl (relaxStep u) st0).dist p2.2 ≤ p2.1 ∧ p2.2 ∈ g.vertices) ∧
      (∀ v, v ∉ st0.visited → (nbrs.foldl (relaxStep u) st0).dist v ≠ ⊤ →
        ((nbrs.foldl (relaxStep u) st0).dist v, v) ∈
          (nbrs.foldl (relaxStep u) st0).pq) ∧
      (∀ x ∈ st0.visited, ∀ q : ℚ, EWalk g s x q →
        (nbrs.foldl (relaxStep u) st0).dist x ≤ (q : D)) ∧
      (∀ x ∈ st0.visited, x ≠ u → ∀ y w, EdgeBtw g x y w →
        (nbrs.foldl (relaxStep u) st0).dist y ≤
          (nbrs.foldl (relaxStep u) st0).dist x + (w : D)) ∧
      (∀ v, (nbrs.foldl (relaxStep u) st0).par v ≠ -1 → ∃ (u2 : V) (w : ℚ),
        (nbrs.foldl (relaxStep u) st0).par v = (u2 : Int) ∧ u2 ∈ st0.visited ∧
        EdgeBtw g u2 v w ∧ (nbrs.foldl (relaxStep u) st0).dist v =
          (nbrs.foldl (relaxStep u) st0).dist u2 + (w : D)) ∧
      (∀ v, (nbrs.foldl (relaxStep u) st0).dist v ≠ ⊤ →
        Traces g (nbrs.foldl (relaxStep u) st0).par
          (nbrs.foldl (relaxStep u) st0).dist s v) ∧
      (∀ v, (nbrs.foldl (relaxStep u) st0).par v = -1 → v = s ∨
        (nbrs.foldl (relaxStep u) st0).dist v = ⊤) := by
  intro nbrs
  induction nbrs with
  | nil =>
    intro st0 hnb huvis hdU h3 h4 h5 h6 h7 h8 h9 h10 h11
    rw [List.foldl_nil]
    exact ⟨rfl, rfl, fun v => le_refl _, fun v hv => ⟨rfl, rfl⟩, by omega,
      fun p2 hp2 => absurd hp2 (List.not_mem_nil p2), h3, h4, h5, h6, h7, h8,
      h9, h10, h11⟩
  | cons p nbrs ih =>
    intro st0 hnb huvis hdU h3 h4 h5 h6 h7 h8 h9 h10 h11
    simp only [List.foldl_cons]
    obtain ⟨s1, s2, s3, s4, s5, s6, s7, s8, s9, s10, s11, s12, s13, s14, s15⟩ :=
      relaxStep_spec hnnE hBedge (hnb p (List.mem_cons_self _ _)) huvis hdU
        h3 h4 h5 h6 h7 h8 h9 h10 h11
    rw [← s1] at s10 s11 s12 s13
    have huvis1 : u ∈ (relaxStep u st0 p).visited := by
      rw [s1]
      exact huvis
    have hdU1 : (relaxStep u st0 p).dist u ≠ ⊤ := by
      rw [s2]
      exact hdU
    obtain ⟨i1, i2, i3, i4, i5, i6, i7, i8, i9, i10, i11, i12, i13, i14, i15⟩ :=
      ih (relaxStep u st0 p) (fun p2 hp2 => hnb p2 (List.mem_cons_of_mem _ hp2))
        huvis1 hdU1 s7 s8 s9 s10 s11 s12 s13 s14 s15
    rw [s1] at i1 i4 i6 i10 i11 i12 i13
    refine ⟨i1, i2.trans s2, fun v => le_trans (i3 v) (s3 v), ?_, ?_, ?_,
      i7, i8, i9, i10, i11, i12, i13, i14, i15⟩
    · intro v hv
      obtain ⟨e1, e2⟩ := i4 v hv
      obtain ⟨f1, f2⟩ := s4 v hv
      exact ⟨e1.trans f1, e2.trans f2⟩
    · simp only [List.length_cons]
      omega
    · intro p2 hp2 hp2v
      rcases List.mem_cons.mp hp2 with rfl | hp2m
      · calc (nbrs.foldl (relaxStep u) (relaxStep u st0 p2)).dist p2.1 ≤
            (relaxStep u st0 p2).dist p2.1 := i3 p2.1
          _ ≤ st0.dist u + (p2.2 : D) := s6 hp2v
      · have := i6 p2 hp2m hp2v
        rw [s2] at this
        exact this
  

end RelaxFold

section CutLemma

theorem dijkstra_cut {g : Graph} {s : V} {st : DState} {d : D} {u : V}
    (hnnE : ∀ b c w, EdgeBtw g b c w → 0 ≤ w)
    (hds : st.dist s = 0)
    (hcomp : ∀ v, v ∉ st.visited → st.dist v ≠ ⊤ → (st.dist v, v) ∈ st.pq)
    (hsettled : ∀ x ∈ st.visited, ∀ q : ℚ, EWalk g s x q → st.dist x ≤ (q : D))
    (hrelaxed : ∀ x ∈ st.visited, ∀ y w, EdgeBtw g x y w →
      st.dist y ≤ st.dist x + (w : D))
    (hmin : ∀ p ∈ st.pq, ¬ pairLt p (d, u))
    (hdu : st.dist u ≤ d) :
    ∀ c q, EWalk g s c q → c ∉ st.visited → st.dist u ≤ (q : D) := by
  intro c q hw
  induction hw with
  | refl =>
    intro hs2
    have h1 : st.dist s ≠ ⊤ := by
      rw [hds]
      simp
    have h2 := hcomp s hs2 h1
    rw [hds] at h2
    have h3 := hmin _ h2
    have h4 : d ≤ (0 : D) := by
      by_contra h5
      push_neg at h5
      exact h3 (.inl h5)
    have h6 : st.dist u ≤ (0 : D) := le_trans hdu h4
    exact_mod_cast h6
  | step hwb hedge ih =>
    rename_i b c2 qb wb
    intro hc
    by_cases hb : b ∈ st.visited
    · have h1 : st.dist c2 ≤ st.dist b + (wb : D) := hrelaxed b hb c2 wb hedge
      have h2 : st.dist b ≤ (qb : D) := hsettled b hb qb hwb
      have h3 : st.dist c2 ≤ ((qb + wb : ℚ) : D) := by
        calc st.dist c2 ≤ st.dist b + (wb : D) := h1
          _ ≤ (qb : D) + (wb : D) := add_le_add_right h2 _
          _ = ((qb + wb : ℚ) : D) := by norm_cast
      have h4 : st.dist c2 ≠ ⊤ := by
        intro hcon
        rw [hcon] at h3
        simp at h3
      have h5 := hcomp c2 hc h4
      have h6 := hmin _ h5
      have h7 : d ≤ st.dist c2 := by
        by_contra h8
        push_neg at h8
        exact h6 (.inl h8)
      exact le_trans (le_trans hdu h7) h3
    · have h8 := ih hb
      have h9 : (qb : D) ≤ ((qb + wb : ℚ) : D) := by
        have := hnnE _ _ _ hedge
        exact_mod_cast (by linarith : qb ≤ qb + wb)
      exact le_trans h8 h9

theorem sumFilter_drop (f : V → ℕ) (vis : List V) (u : V) (huvis : u ∉ vis) :
    ∀ B : List V, B.Nodup → u ∈ B →
      ((B.filter (fun v => decide (v ∉ vis ++ [u]))).map f).sum + f u =
        ((B.filter (fun v => decide (v ∉ vis))).map f).sum := by
  intro B
  induction B with
  | nil => intro _ hu; cases hu
  | cons a B ih =>
    intro hnd hu
    have hanotB := (List.nodup_cons.mp hnd).1
    have hnd2 := (List.nodup_cons.mp hnd).2
    rcases List.mem_cons.mp hu with rfl | huB
    · have hf1 : ¬ (decide (u ∉ vis ++ [u]) = true) := by simp
      have hf2 : decide (u ∉ vis) = true := by simp [huvis]
      rw [List.filter_cons, List.filter_cons, if_neg hf1, if_pos hf2]
      have hcong : B.filter (fun v => decide (v ∉ vis ++ [u])) =
          B.filter (fun v => decide (v ∉ vis)) := by
        apply List.filter_congr
        intro x hx
        have hxa : x ≠ u := fun hc => hanotB (hc ▸ hx)
        apply decide_eq_decide.mpr
        simp [List.mem_append, List.mem_singleton, hxa]
      rw [hcong]
      simp only [List.map_cons, List.sum_cons]
      omega
    · have hau : a ≠ u := fun hc => hanotB (hc ▸ huB)
      rw [List.filter_cons, List.filter_cons]
      have heq : decide (a ∉ vis ++ [u]) = decide (a ∉ vis) := by
        apply decide_eq_decide.mpr
        simp [List.mem_append, List.mem_singleton, hau]
      rw [heq]
      by_cases hav : decide (a ∉ vis) = true
      · rw [if_pos hav, if_pos hav]
        simp only [List.map_cons, List.sum_cons]
        have := ih hnd2 huB
        omega
      · rw [if_neg hav, if_neg hav]
        exact ih hnd2 huB

end CutLemma

section LoopSpec

set_option maxHeartbeats 1600000 in
theorem dijkstraLoop_spec {g : Graph} {s : V}
    {adjO : V → Option (List (V × ℚ))}
    (hnd : g.vertices.Nodup)
    (hdom : ∀ a, (adjO a).isSome ↔ a ∈ g.vertices)
    (hadj : ∀ a la, adjO a = some la → ∀ b w, ((b, w) ∈ la ↔ EdgeBtw g a b w))
    (hnnE : ∀ b c w, EdgeBtw g b c w → 0 ≤ w)
    (hBedge : ∀ b c w, EdgeBtw g b c w → b ∈ g.vertices ∧ c ∈ g.vertices) :
    ∀ (fuel : ℕ) (st : DState),
      st.pq.length + ((g.vertices.filter (fun v => decide (v ∉ st.visited))).map
        (fun v => ((adjO v).getD []).length)).sum ≤ fuel →
      st.visited.Nodup →
      (∀ v ∈ st.visited, v ∈ g.vertices) →
      (∀ v, st.dist v ≠ ⊤ → ∃ q : ℚ, st.dist v = (q : D) ∧ EWalk g s v q) →
      st.dist s = 0 →
      (∀ p2 ∈ st.pq, ∃ q : ℚ, p2.1 = (q : D) ∧ EWalk g s p2.2 q ∧
        st.dist p2.2 ≤ p2.1 ∧ p2.2 ∈ g.vertices) →
      (∀ v, v ∉ st.visited → st.dist v ≠ ⊤ → (st.dist v, v) ∈ st.pq) →
      (∀ x ∈ st.visited, ∀ q : ℚ, EWalk g s x q → st.dist x ≤ (q : D)) →
      (∀ x ∈ st.visited, ∀ y w, EdgeBtw g x y w →
        st.dist y ≤ st.dist x + (w : D)) →
      (∀ v, st.par v ≠ -1 → ∃ (u2 : V) (w : ℚ), st.par v = (u2 : Int) ∧
        u2 ∈ st.visited ∧ EdgeBtw g u2 v w ∧ st.dist v = st.dist u2 + (w : D)) →
      (∀ v, st.dist v ≠ ⊤ → Traces g st.par st.dist s v) →
      (∀ v, st.par v = -1 → v = s ∨ st.dist v = ⊤) →
      (∀ x ∈ st.visited, st.dist x ≠ ⊤) →
      ∃ stF, dijkstraLoop adjO fuel st = .ok stF ∧ stF.pq = [] ∧
        stF.visited.Nodup ∧ (∀ v ∈ stF.visited, v ∈ g.vertices) ∧
        (∀ v, stF.dist v ≠ ⊤ → ∃ q : ℚ, stF.dist v = (q : D) ∧ EWalk g s v q) ∧
        stF.dist s = 0 ∧
        (∀ v, v ∉ stF.visited → stF.dist v = ⊤) ∧
        (∀ x ∈ stF.visited, ∀ q : ℚ, EWalk g s x q → stF.dist x ≤ (q : D)) ∧
        (∀ x ∈ stF.visited, ∀ y w, EdgeBtw g x y w →
          stF.dist y ≤ stF.dist x + (w : D)) ∧
        (∀ v, stF.par v ≠ -1 → ∃ (u2 : V) (w : ℚ), stF.par v = (u2 : Int) ∧
          u2 ∈ stF.visited ∧ EdgeBtw g u2 v w ∧
          stF.dist v = stF.dist u2 + (w : D)) ∧
        (∀ v, stF.dist v ≠ ⊤ → Traces g stF.par stF.dist s v) ∧
        (∀ v, stF.par v = -1 → v = s ∨ stF.dist v = ⊤) ∧
        (∀ x ∈ stF.visited, stF.dist x ≠ ⊤) := by
  intro fuel
  induction fuel with
  | zero =>
    intro st hphi h1 h2 h3 h4 h5 h6 h7 h8 h9 h10 h11 h12
    have hpq : st.pq = [] := List.eq_nil_of_length_eq_zero (by omega)
    refine ⟨st, rfl, hpq, h1, h2, h3, h4, ?_, h7, h8, h9, h10, h11, h12⟩
    intro v hv
    by_contra hfin
    have := h6 v hv hfin
    rw [hpq] at this
    cases this
  | succ fuel ih =>
    intro st hphi h1 h2 h3 h4 h5 h6 h7 h8 h9 h10 h11 h12
    cases hpm : pqMin st.pq with
    | none =>
      have hpq : st.pq = [] := pqMin_none.mp hpm
      have hrun : dijkstraLoop adjO (fuel + 1) st = .ok st := by
        unfold dijkstraLoop
        rw [hpm]
      refine ⟨st, hrun, hpq, h1, h2, h3, h4, ?_, h7, h8, h9, h10, h11, h12⟩
      intro v hv
      by_contra hfin
      have := h6 v hv hfin
      rw [hpq] at this
      cases this
    | some du =>
      obtain ⟨hdumem, hdumin⟩ := pqMin_spec hpm
      have hrl := removeFirst_length hdumem
      by_cases hvis : du.2 ∈ st.visited
      · have hrun : dijkstraLoop adjO (fuel + 1) st =
            dijkstraLoop adjO fuel { st with pq := removeFirst du st.pq } := by
          conv_lhs => unfold dijkstraLoop
          dsimp only
          rw [hpm]
          dsimp only
          rw [if_pos hvis]
        rw [hrun]
        refine ih { st with pq := removeFirst du st.pq } (by
          show (removeFirst du st.pq).length +
            ((g.vertices.filter (fun v => decide (v ∉ st.visited))).map
              (fun v => ((adjO v).getD []).length)).sum ≤ fuel
          omega) h1 h2 h3 h4
          (fun p2 hp2 => h5 p2 (removeFirst_subset hp2)) ?_ h7 h8 h9 h10 h11 h12
        intro v hv hfin
        have hmem := h6 v hv hfin
        have hne : (st.dist v, v) ≠ du := by
          intro hcon
          apply hv
          rw [show v = du.2 from congrArg Prod.snd hcon]
          exact hvis
        exact removeFirst_mem_of_ne hmem hne
      · obtain ⟨qd, hqd, hwd, hdled, huB⟩ := h5 du hdumem
        have hsome : (adjO du.2).isSome := (hdom du.2).mpr huB
        obtain ⟨nbrs, hnbrs⟩ := Option.isSome_iff_exists.mp hsome
        have hdufin : st.dist du.2 ≠ ⊤ := by
          intro hcon
          rw [hcon, hqd] at hdled
          simp at hdled
        have hcut : ∀ q : ℚ, EWalk g s du.2 q → st.dist du.2 ≤ (q : D) :=
          fun q hw => dijkstra_cut hnnE h4 h6 h7 h8 hdumin hdled du.2 q hw hvis
        have hrun : dijkstraLoop adjO (fuel + 1) st =
            dijkstraLoop adjO fuel (nbrs.foldl (relaxStep du.2)
              { st with
                  pq := removeFirst du st.pq,
                  visited := st.visited ++ [du.2] }) := by
          conv_lhs => unfold dijkstraLoop
          dsimp only
          rw [hpm]
          dsimp only
          rw [if_neg hvis]
          rw [hnbrs]
        have hnb : ∀ p ∈ nbrs, EdgeBtw g du.2 p.1 p.2 := by
          intro p hp
          exact (hadj du.2 nbrs hnbrs p.1 p.2).mp hp
        have huvis0 : du.2 ∈ st.visited ++ [du.2] :=
          List.mem_append.mpr (.inr (List.mem_singleton.mpr rfl))
        have hmemvis0 : ∀ v, v ∈ st.visited ++ [du.2] →
            v ∈ st.visited ∨ v = du.2 := by
          intro v hv
          rcases List.mem_append.mp hv with hv | hv
          · exact .inl hv
          · exact .inr (List.mem_singleton.mp hv)
        have hnotvis0 : ∀ v, v ∉ st.visited ++ [du.2] →
            v ∉ st.visited ∧ v ≠ du.2 := by
          intro v hv
          constructor
          · exact fun hc => hv (List.mem_append.mpr (.inl hc))
          · exact fun hc => hv (by rw [hc]; exact huvis0)
        obtain ⟨f1, f2, f3, f4, f5, f6, f7, f8, f9, f10, f11, f12, f13, f14, f15⟩ :=
          relaxFold_spec hnnE hBedge nbrs
            { st with
                pq := removeFirst du st.pq,
                visited := st.visited ++ [du.2] }
            hnb huvis0 hdufin h3 h4
            (fun p2 hp2 => h5 p2 (removeFirst_subset hp2))
            (by
              intro v hv hfin
              obtain ⟨hv1, hv2⟩ := hnotvis0 v hv
              have hmem := h6 v hv1 hfin
              have hne : (st.dist v, v) ≠ du := by
                intro hcon
                exact hv2 (congrArg Prod.snd hcon)
              exact removeFirst_mem_of_ne hmem hne)
            (by
              intro x hx q hq
              rcases hmemvis0 x hx with hx2 | hx2
              · exact h7 x hx2 q hq
              · subst hx2
                exact hcut q hq)
            (by
              intro x hx hxne y w hyw
              rcases hmemvis0 x hx with hx2 | hx2
              · exact h8 x hx2 y w hyw
              · exact absurd hx2 hxne)
            (by
              intro v hv
              obtain ⟨u2, w2, e1, e2, e3, e4⟩ := h9 v hv
              exact ⟨u2, w2, e1, List.mem_append.mpr (.inl e2), e3, e4⟩)
            h10 h11
        rw [hrun]
        set st1 := nbrs.foldl (relaxStep du.2)
          { st with
              pq := removeFirst du st.pq,
              visited := st.visited ++ [du.2] } with hst1
        have hv1 : st1.visited = st.visited ++ [du.2] := f1
        have hphi1 : st1.pq.length +
            ((g.vertices.filter (fun v => decide (v ∉ st1.visited))).map
              (fun v => ((adjO v).getD []).length)).sum ≤ fuel := by
          rw [hv1]
          have hsum := sumFilter_drop (fun v => ((adjO v).getD []).length)
            st.visited du.2 hvis g.vertices hnd huB
          have hfu : ((adjO du.2).getD []).length = nbrs.length := by
            rw [hnbrs]
            rfl
          have hf5 : st1.pq.length ≤ (removeFirst du st.pq).length + nbrs.length := f5
          have hbeta : (fun v => ((adjO v).getD []).length) du.2
              = ((adjO du.2).getD []).length := rfl
          omega
        have hnd1 : st1.visited.Nodup := by
          rw [hv1, List.nodup_append]
          refine ⟨h1, List.nodup_singleton _, ?_⟩
          intro a ha hb
          rw [List.mem_singleton] at hb
          subst hb
          exact hvis ha
        have hB1 : ∀ v ∈ st1.visited, v ∈ g.vertices := by
          intro v hv
          rw [hv1] at hv
          rcases hmemvis0 v hv with hv2 | hv2
          · exact h2 v hv2
          · rw [hv2]
            exact huB
        have h8full : ∀ x ∈ st1.visited, ∀ y w, EdgeBtw g x y w →
            st1.dist y ≤ st1.dist x + (w : D) := by
          intro x hx y w hyw
          rw [hv1] at hx
          rcases hmemvis0 x hx with hx2 | hx2
          · have hxne : x ≠ du.2 := fun hc => hvis (hc ▸ hx2)
            exact f12 x (List.mem_append.mpr (.inl hx2)) hxne y w hyw
          · subst hx2
            have hmem : (y, w) ∈ nbrs := (hadj du.2 nbrs hnbrs y w).mpr hyw
            by_cases hyv : y ∈ st.visited ++ [du.2]
            · have hdy := (f4 y hyv).1
              obtain ⟨qu2, hqu2, hwu2⟩ := h3 du.2 hdufin
              have hwy : EWalk g s y (qu2 + w) := hwu2.step hyw
              have hle : st.dist y ≤ st.dist du.2 + (w : D) := by
                rcases hmemvis0 y hyv with hyv2 | hyv2
                · calc st.dist y ≤ ((qu2 + w : ℚ) : D) := h7 y hyv2 _ hwy
                    _ = (qu2 : D) + (w : D) := by norm_cast
                    _ = st.dist du.2 + (w : D) := by rw [hqu2]
                · rw [hyv2]
                  have hw0 : (0 : D) ≤ (w : D) := by
                    exact_mod_cast hnnE _ _ _ hyw
                  exact le_add_of_nonneg_right hw0
              calc st1.dist y = st.dist y := hdy
                _ ≤ st.dist du.2 + (w : D) := hle
                _ = st1.dist du.2 + (w : D) := by rw [f2]
            · have hf6 := f6 (y, w) hmem hyv
              calc st1.dist y ≤ st.dist du.2 + (w : D) := hf6
                _ = st1.dist du.2 + (w : D) := by rw [f2]
        have h12v : ∀ x ∈ st1.visited, st1.dist x ≠ ⊤ := by
          intro x hx
          rw [hv1] at hx
          have hdx := (f4 x hx).1
          rw [hdx]
          rcases hmemvis0 x hx with hx2 | hx2
          · exact h12 x hx2
          · rw [hx2]
            exact hdufin
        refine ih st1 hphi1 hnd1 hB1 f7 f8 f9
          (fun v hv => f10 v (by rw [hv1] at hv; exact hv))
          (fun x hx => f11 x (by rw [hv1] at hx; exact hx))
          h8full
          (fun v hv => ?_) f14 f15 h12v
        obtain ⟨u2, w2, e1, e2, e3, e4⟩ := f13 v hv
        exact ⟨u2, w2, e1, by rw [hv1]; exact e2, e3, e4⟩

end LoopSpec

section AdjSizeLemmas

theorem sum_map_bump {f g2 : V → ℕ} {a : V} :
    ∀ {l : List V}, l.Nodup → a ∈ l →
      (∀ v, g2 v = if v = a then f v + 1 else f v) →
      (l.map g2).sum = (l.map f).sum + 1 := by
  intro l
  induction l with
  | nil =>
    intro _ ha _
    exact absurd ha (List.not_mem_nil a)
  | cons b t ih =>
    intro hnd ha hg
    rw [List.nodup_cons] at hnd
    simp only [List.map_cons, List.sum_cons]
    rcases List.mem_cons.mp ha with hab | hat
    · have hgb : g2 b = f b + 1 := by
        rw [hg b, if_pos hab.symm]
      have hant : a ∉ t := by
        rw [hab]
        exact hnd.1
      have htail : t.map g2 = t.map f := by
        apply List.map_congr_left
        intro v hv
        have hva : v ≠ a := fun hc => hant (hc ▸ hv)
        rw [hg v, if_neg hva]
      rw [hgb, htail]
      omega
    · have hba : b ≠ a := fun hc => hnd.1 (hc ▸ hat)
      rw [hg b, if_neg hba, ih hnd.2 hat hg]
      omega

theorem adjAddEdge_size {adj : V → Option (List (V × ℚ))} {vs : List V}
    (hnd : vs.Nodup)
    (hdom : ∀ a, (adj a).isSome ↔ a ∈ vs) {e : PyEdge}
    (hsrc : e.src ∈ vs) (hdst : e.dst ∈ vs) :
    ∃ adj2, adjAddEdge adj e = .ok adj2 ∧
      (∀ a, (adj2 a).isSome ↔ a ∈ vs) ∧
      (vs.map (fun v => ((adj2 v).getD []).length)).sum
        = (vs.map (fun v => ((adj v).getD []).length)).sum + 2 := by
  obtain ⟨lsrc, hlsrc⟩ : ∃ l, adj e.src = some l :=
    Option.isSome_iff_exists.mp ((hdom e.src).mpr hsrc)
  have h1 : adjAppend adj e.src e.dst e.wt =
      .ok (updf adj e.src (some (lsrc ++ [(e.dst, e.wt)]))) := by
    unfold adjAppend
    rw [hlsrc]
  have hdomA : ∀ a, ((updf adj e.src (some (lsrc ++ [(e.dst, e.wt)]))) a).isSome ↔
      a ∈ vs := by
    intro a
    by_cases ha : a = e.src
    · subst ha
      rw [updf_apply_eq]
      simp [hsrc]
    · rw [updf_apply_ne _ _ ha]
      exact hdom a
  have hszA : (vs.map (fun v =>
      (((updf adj e.src (some (lsrc ++ [(e.dst, e.wt)]))) v).getD []).length)).sum
      = (vs.map (fun v => ((adj v).getD []).length)).sum + 1 := by
    refine sum_map_bump hnd hsrc ?_
    intro v
    dsimp only
    by_cases hv : v = e.src
    · rw [if_pos hv, hv, updf_apply_eq, hlsrc]
      simp
    · rw [if_neg hv, updf_apply_ne _ _ hv]
  obtain ⟨ldst, hldst⟩ :
      ∃ l, (updf adj e.src (some (lsrc ++ [(e.dst, e.wt)]))) e.dst = some l :=
    Option.isSome_iff_exists.mp ((hdomA e.dst).mpr hdst)
  have h2 : adjAppend (updf adj e.src (some (lsrc ++ [(e.dst, e.wt)]))) e.dst
      e.src e.wt =
      .ok (updf (updf adj e.src (some (lsrc ++ [(e.dst, e.wt)]))) e.dst
        (some (ldst ++ [(e.src, e.wt)]))) := by
    unfold adjAppend
    rw [hldst]
  refine ⟨updf (updf adj e.src (some (lsrc ++ [(e.dst, e.wt)]))) e.dst
      (some (ldst ++ [(e.src, e.wt)])), ?_, ?_, ?_⟩
  · unfold adjAddEdge
    rw [h1]
    exact h2
  · intro a
    by_cases ha : a = e.dst
    · subst ha
      rw [updf_apply_eq]
      simp [hdst]
    · rw [updf_apply_ne _ _ ha]
      exact hdomA a
  · have hszB : (vs.map (fun v =>
        (((updf (updf adj e.src (some (lsrc ++ [(e.dst, e.wt)]))) e.dst
          (some (ldst ++ [(e.src, e.wt)]))) v).getD []).length)).sum
        = (vs.map (fun v =>
          (((updf adj e.src (some (lsrc ++ [(e.dst, e.wt)]))) v).getD []).length)).sum
            + 1 := by
      refine sum_map_bump hnd hdst ?_
      intro v
      dsimp only
      by_cases hv : v = e.dst
      · rw [if_pos hv, hv, updf_apply_eq, hldst]
        simp
      · rw [if_neg hv, updf_apply_ne _ _ hv]
    rw [hszB, hszA]

theorem foldlM_adjAddEdge_size {vs : List V} (hnd : vs.Nodup) :
    ∀ (E : List PyEdge) (adj : V → Option (List (V × ℚ))),
      (∀ e ∈ E, e.src ∈ vs ∧ e.dst ∈ vs) →
      (∀ a, (adj a).isSome ↔ a ∈ vs) →
      ∃ adj2, E.foldlM adjAddEdge adj = .ok adj2 ∧
        (∀ a, (adj2 a).isSome ↔ a ∈ vs) ∧
        (vs.map (fun v => ((adj2 v).getD []).length)).sum
          = (vs.map (fun v => ((adj v).getD []).length)).sum + 2 * E.length := by
  intro E
  induction E with
  | nil =>
    intro adj hE hdom
    exact ⟨adj, by rw [List.foldlM_nil]; rfl, hdom, by simp⟩
  | cons e E2 ih =>
    intro adj hE hdom
    obtain ⟨he1, he2⟩ := hE e (List.mem_cons_self _ _)
    obtain ⟨adj1, hok1, hdom1, hsz1⟩ := adjAddEdge_size hnd hdom he1 he2
    obtain ⟨adj2, hok2, hdom2, hsz2⟩ :=
      ih adj1 (fun e2 he => hE e2 (List.mem_cons_of_mem _ he)) hdom1
    refine ⟨adj2, ?_, hdom2, ?_⟩
    · rw [List.foldlM_cons, hok1]
      exact hok2
    · rw [hsz2, hsz1]
      simp only [List.length_cons]
      omega

theorem buildAdj_size {g : Graph}
    (hnd : g.vertices.Nodup)
    (hwf : ∀ e ∈ g.edges, e.src ∈ g.vertices ∧ e.dst ∈ g.vertices)
    {adjO : V → Option (List (V × ℚ))} (hok : buildAdj g = .ok adjO) :
    (g.vertices.map (fun v => ((adjO v).getD []).length)).sum
      = 2 * g.edges.length := by
  have hdom0 : ∀ a, ((adjInit g.vertices) a).isSome ↔ a ∈ g.vertices := by
    intro a
    unfold adjInit
    by_cases ha : a ∈ g.vertices
    · rw [if_pos ha]
      simp [ha]
    · rw [if_neg ha]
      simp [ha]
  obtain ⟨adj2, hok2, -, hsz⟩ :=
    foldlM_adjAddEdge_size hnd g.edges (adjInit g.vertices) hwf hdom0
  unfold buildAdj at hok
  rw [hok] at hok2
  obtain rfl : adjO = adj2 := Except.ok.inj hok2
  have h0 : (g.vertices.map
      (fun v => (((adjInit g.vertices) v).getD []).length)).sum = 0 := by
    apply List.sum_eq_zero
    intro x hx
    obtain ⟨v, hv, hvx⟩ := List.mem_map.mp hx
    rw [← hvx]
    unfold adjInit
    rw [if_pos hv]
    rfl
  omega

end AdjSizeLemmas

/-- Claim C1: for every graph whose duplicate-free, non-empty vertex list
holds all edge endpoints and whose weights are non-negative, `run_dijkstra`
succeeds; writing `s` for the resolved start vertex, `distances[s] = 0`;
every vertex reachable from `s` by an undirected walk gets as its
`distances` entry the least total weight of such a walk, and its `parent`
pointers trace back to `s` along graph edges whose weights account exactly
for the `distances` differences (so they telescope to `distances[v]`);
every unreachable vertex keeps distance `+inf` and parent `-1`. -/
theorem run_dijkstra_correct (g : Graph) (s0 : V)
    (hne : g.vertices ≠ [])
    (hnd : g.vertices.Nodup)
    (hwf : ∀ e ∈ g.edges, e.src ∈ g.vertices ∧ e.dst ∈ g.vertices)
    (hnn : ∀ e ∈ g.edges, 0 ≤ e.wt) :
    ∃ st r, dijkstraFinal g s0 = .ok st ∧ run_dijkstra g s0 = .ok r ∧
      r.distances = (pyDedup g.vertices).map (fun v => (toString v, st.dist v)) ∧
      r.parent = (pyDedup g.vertices).map (fun v => (toString v, st.par v)) ∧
      r.start = resolveStart g.vertices s0 ∧
      st.dist (resolveStart g.vertices s0) = 0 ∧
      ∀ v,
        ((∃ q : ℚ, EWalk g (resolveStart g.vertices s0) v q) →
          (∃ q : ℚ, st.dist v = (q : D) ∧
            EWalk g (resolveStart g.vertices s0) v q ∧
            ∀ q2 : ℚ, EWalk g (resolveStart g.vertices s0) v q2 → q ≤ q2) ∧
          Traces g st.par st.dist (resolveStart g.vertices s0) v) ∧
        ((¬ ∃ q : ℚ, EWalk g (resolveStart g.vertices s0) v q) →
          st.dist v = ⊤ ∧ st.par v = -1) := by
  obtain ⟨adjO, hok, hdom, hmem⟩ := buildAdj_ok hwf
  have hadj : ∀ a la, adjO a = some la →
      ∀ b w, ((b, w) ∈ la ↔ EdgeBtw g a b w) := by
    intro a la hla b w
    constructor
    · intro hbw
      exact (hmem a b w).mp ⟨la, hla, hbw⟩
    · intro he
      obtain ⟨la2, hla2, hbw⟩ := (hmem a b w).mpr he
      rw [hla] at hla2
      obtain rfl : la = la2 := Option.some_injective _ hla2
      exact hbw
  have hnnE : ∀ b c w, EdgeBtw g b c w → 0 ≤ w := by
    rintro b c w ⟨e, he, -, hw⟩
    rw [← hw]
    exact hnn e he
  have hBedge : ∀ b c w, EdgeBtw g b c w →
      b ∈ g.vertices ∧ c ∈ g.vertices := by
    rintro b c w ⟨e, he, hc | hc, -⟩
    · rw [← hc.1, ← hc.2]
      exact hwf e he
    · rw [← hc.1, ← hc.2]
      exact ⟨(hwf e he).2, (hwf e he).1⟩
  set s : V := resolveStart g.vertices s0 with hs
  have hsmem : s ∈ g.vertices := resolveStart_mem hne s0
  have hphi0 : ([((0 : D), s)] : List (D × V)).length +
      ((g.vertices.filter (fun v => decide (v ∉ ([] : List V)))).map
        (fun v => ((adjO v).getD []).length)).sum ≤ dijkstraFuel g := by
    have hsz := buildAdj_size hnd hwf hok
    have hfilt : g.vertices.filter (fun v => decide (v ∉ ([] : List V)))
        = g.vertices := by
      apply List.filter_eq_self.mpr
      intro a ha
      simp
    rw [hfilt, hsz]
    unfold dijkstraFuel
    simp only [List.length_singleton]
    omega
  have hinit3 : ∀ v, (updf (fun _ => (⊤ : D)) s 0) v ≠ ⊤ →
      ∃ q : ℚ, (updf (fun _ => (⊤ : D)) s 0) v = (q : D) ∧ EWalk g s v q := by
    intro v hv
    by_cases hvs : v = s
    · subst hvs
      exact ⟨0, (updf_apply_eq _ s 0).trans rfl, EWalk.refl⟩
    · rw [updf_apply_ne _ _ hvs] at hv
      exact absurd rfl hv
  have hinit5 : ∀ p2 ∈ ([((0 : D), s)] : List (D × V)), ∃ q : ℚ,
      p2.1 = (q : D) ∧ EWalk g s p2.2 q ∧
      (updf (fun _ => (⊤ : D)) s 0) p2.2 ≤ p2.1 ∧ p2.2 ∈ g.vertices := by
    intro p2 hp2
    rw [List.mem_singleton] at hp2
    subst hp2
    refine ⟨0, rfl, EWalk.refl, ?_, hsmem⟩
    rw [updf_apply_eq]
  have hinit6 : ∀ v, v ∉ ([] : List V) →
      (updf (fun _ => (⊤ : D)) s 0) v ≠ ⊤ →
      ((updf (fun _ => (⊤ : D)) s 0) v, v) ∈ ([((0 : D), s)] : List (D × V)) := by
    intro v hv hfin
    by_cases hvs : v = s
    · subst hvs
      rw [updf_apply_eq]
      exact List.mem_singleton.mpr rfl
    · rw [updf_apply_ne _ _ hvs] at hfin
      exact absurd rfl hfin
  have hinit10 : ∀ v, (updf (fun _ => (⊤ : D)) s 0) v ≠ ⊤ →
      Traces g (fun _ => (-1 : Int)) (updf (fun _ => (⊤ : D)) s 0) s v := by
    intro v hv
    by_cases hvs : v = s
    · subst hvs
      exact Traces.base
    · rw [updf_apply_ne _ _ hvs] at hv
      exact absurd rfl hv
  have hinit11 : ∀ v, (fun _ => (-1 : Int)) v = -1 →
      v = s ∨ (updf (fun _ => (⊤ : D)) s 0) v = ⊤ := by
    intro v _
    by_cases hvs : v = s
    · exact .inl hvs
    · exact .inr (updf_apply_ne _ _ hvs)
  obtain ⟨stF, hrunF, cpq, cnd, cmem, cach, cds, cunv, cset, crel, cpar, ctr,
      cpneg, cvfin⟩ :=
    @dijkstraLoop_spec g s adjO hnd hdom hadj hnnE hBedge (dijkstraFuel g)
      ⟨updf (fun _ => ⊤) s 0, fun _ => -1, [((0 : D), s)], []⟩
      hphi0 List.nodup_nil (fun v hv => absurd hv (List.not_mem_nil v))
      hinit3 (updf_apply_eq (fun _ => (⊤ : D)) s 0) hinit5 hinit6
      (fun x hx => absurd hx (List.not_mem_nil x))
      (fun x hx => absurd hx (List.not_mem_nil x))
      (fun v hv => absurd rfl hv)
      hinit10 hinit11
      (fun x hx => absurd hx (List.not_mem_nil x))
  have hfin : dijkstraFinal g s0 = .ok stF := by
    unfold dijkstraFinal
    rw [hok]
    exact hrunF
  have hrun2 : run_dijkstra g s0 = .ok
      { algorithm := "Dijkstra",
        distances := (pyDedup g.vertices).map fun v => (toString v, stF.dist v),
        parent := (pyDedup g.vertices).map fun v => (toString v, stF.par v),
        start := s,
        success := true } := by
    unfold run_dijkstra
    rw [hfin]
    rfl
  have hreach : ∀ v (q0 : ℚ), EWalk g s v q0 → stF.dist v ≠ ⊤ := by
    intro v q0 hw
    induction hw with
    | refl =>
      intro hc
      rw [cds] at hc
      simp at hc
    | @step b c q w hb hedge ih =>
      have hbvis : b ∈ stF.visited := by
        by_contra hnb
        exact ih (cunv b hnb)
      have hrel := crel b hbvis c w hedge
      obtain ⟨qb, hqb, -⟩ := cach b ih
      intro hc
      rw [hc, hqb, ← WithTop.coe_add qb w] at hrel
      exact WithTop.coe_ne_top (top_le_iff.mp hrel)
  refine ⟨stF, _, hfin, hrun2, rfl, rfl, rfl, cds, ?_⟩
  intro v
  constructor
  · rintro ⟨q0, hw0⟩
    have hfin2 : stF.dist v ≠ ⊤ := hreach v q0 hw0
    obtain ⟨q, hq, hqw⟩ := cach v hfin2
    have hvvis : v ∈ stF.visited := by
      by_contra hnv
      exact hfin2 (cunv v hnv)
    refine ⟨⟨q, hq, hqw, ?_⟩, ctr v hfin2⟩
    intro q2 hw2
    have hle := cset v hvvis q2 hw2
    rw [hq] at hle
    exact WithTop.coe_le_coe.mp hle
  · intro hnr
    have hdv : stF.dist v = ⊤ := by
      by_contra hfin2
      obtain ⟨q, -, hqw⟩ := cach v hfin2
      exact hnr ⟨q, hqw⟩
    refine ⟨hdv, ?_⟩
    by_contra hpar
    obtain ⟨u2, w2, -, hu2vis, hedge, -⟩ := cpar v hpar
    obtain ⟨qu, -, hwu⟩ := cach u2 (cvfin u2 hu2vis)
    exact hnr ⟨qu + w2, hwu.step hedge⟩

/-- A concrete run for the dijkstra correctness theorem: a path `0 - 1 - 2`
(one weighted triple, one default-weight pair) plus the isolated vertex `3`. -/
def C1G : Graph := { vertices := [0, 1, 2, 3], edges := [.e3 0 1 1, .e2 1 2] }

theorem run_dijkstra_correct_witness :
    C1G.vertices ≠ [] ∧ C1G.vertices.Nodup ∧
      (∀ e ∈ C1G.edges, e.src ∈ C1G.vertices ∧ e.dst ∈ C1G.vertices) ∧
      (∀ e ∈ C1G.edges, 0 ≤ e.wt) ∧
      (∃ st r, dijkstraFinal C1G 0 = .ok st ∧ run_dijkstra C1G 0 = .ok r ∧
        r.distances = (pyDedup C1G.vertices).map
          (fun v => (toString v, st.dist v)) ∧
        r.parent = (pyDedup C1G.vertices).map
          (fun v => (toString v, st.par v)) ∧
        r.start = resolveStart C1G.vertices 0 ∧
        st.dist (resolveStart C1G.vertices 0) = 0 ∧
        ∀ v,
          ((∃ q : ℚ, EWalk C1G (resolveStart C1G.vertices 0) v q) →
            (∃ q : ℚ, st.dist v = (q : D) ∧
              EWalk C1G (resolveStart C1G.vertices 0) v q ∧
              ∀ q2 : ℚ, EWalk C1G (resolveStart C1G.vertices 0) v q2 →
                q ≤ q2) ∧
            Traces C1G st.par st.dist (resolveStart C1G.vertices 0) v) ∧
          ((¬ ∃ q : ℚ, EWalk C1G (resolveStart C1G.vertices 0) v q) →
            st.dist v = ⊤ ∧ st.par v = -1)) :=
  ⟨by decide, by decide, by decide, by decide,
    run_dijkstra_correct C1G 0 (by decide) (by decide) (by decide) (by decide)⟩
